import Mathlib

/-!
# VLog: the in-memory EDB layer

A shallow embedding of `EDBLayer::query` and of the memory iterator
`EDBMemIterator` (`src/vlog/common/edb.cpp`) together with the query descriptor
`QSQQuery` (`src/backward/qsqquery.cpp`), the result sinks
`FinalTableJoinProcessor` and `InterTableJoinProcessor`
(`include/vlog/resultjoinproc.h`) and the reader of the configuration file
`EDBConf::parse` (`src/vlog/common/edbconf.cpp`), and the properties of these
functions.

Vectors are lists, C++ iterators are either suffixes of the list they walk or
indexes into it, and a read outside a vector is an explicit fault.
-/

namespace VLog

/-! ## Data model -/

/-- The largest term, `std::numeric_limits<Term_t>::max()`. Terms (`Term_t`,
unsigned 64-bit integers) are natural numbers throughout; no arithmetic is done
on them, only comparisons. -/
def TERM_MAX : Nat := 2 ^ 64 - 1

/-- One row of an arity-2 relation, `std::pair<Term_t, Term_t>`. -/
abbrev Row := Nat × Nat

/-- An output table (`TupleTable`): the rows added so far, oldest first. -/
abbrev TupleTable := List (List Nat)

/-- The call `outputTable->addRow(row)`. -/
def addRow (t : TupleTable) (row : List Nat) : TupleTable := t ++ [row]

/-- Modelled from the spec: the term class `VTerm`, declared outside the sources
at hand. A term is a constant (a value) or a variable (a variable id); as in
`VTerm(0, value)` of `EDBLayer::isEmpty`, the id 0 marks a constant. -/
structure VTerm where
  id : Nat
  value : Nat
  deriving DecidableEq, Repr

/-- Whether the term is a variable (`VTerm::isVariable`). -/
def VTerm.isVariable (t : VTerm) : Bool := t.id != 0

/-- A constant term. -/
def VTerm.const (value : Nat) : VTerm := ⟨0, value⟩

/-- A variable term; `id` is positive. -/
def VTerm.var (id : Nat) : VTerm := ⟨id, 0⟩

/-- Modelled from the spec: a literal is a predicate id plus an ordered tuple of
terms (class `Literal`, declared outside the sources at hand). -/
structure Literal where
  pred : Nat
  tuple : List VTerm
  deriving DecidableEq, Repr

/-- The arity of the literal (`Literal::getTupleSize`). -/
def Literal.getTupleSize (l : Literal) : Nat := l.tuple.length

/-- The query descriptor `QSQQuery`: the literal, the positions to copy and the
pairs of positions that hold the same variable. -/
structure QSQQuery where
  literal : Literal
  posToCopy : List Nat
  repeatedVars : List (Nat × Nat)
  deriving DecidableEq, Repr

/-- The number of repeated-variable pairs (`getNRepeatedVars`). -/
def QSQQuery.getNRepeatedVars (q : QSQQuery) : Nat := q.repeatedVars.length

/-- The locals of the constructor's loop: `posToCopy`, `repeatedVars` and
`existingVars` (pairs of variable id and first position). -/
structure QSQBuild where
  posToCopy : List Nat
  repeatedVars : List (Nat × Nat)
  existingVars : List (Nat × Nat)
  deriving DecidableEq, Repr

/-- One iteration of the constructor's loop, at position `i` holding term `t`. -/
def qsqStep (st : QSQBuild) (i : Nat) (t : VTerm) : QSQBuild :=
  if t.isVariable then
    match st.existingVars.find? (fun e => t.id == e.1) with
    | none =>
      { posToCopy := st.posToCopy ++ [i]
        repeatedVars := st.repeatedVars
        existingVars := st.existingVars ++ [(t.id, i)] }
    | some e =>
      { posToCopy := st.posToCopy ++ [i]
        repeatedVars := st.repeatedVars ++ [(e.2, i)]
        existingVars := st.existingVars }
  else st

/-- The constructor's loop over the positions `i, i+1, ...` of the tuple. -/
def qsqLoop : List VTerm → Nat → QSQBuild → QSQBuild
  | [], _, st => st
  | t :: ts, i, st => qsqLoop ts (i + 1) (qsqStep st i t)

/-- The constructor `QSQQuery::QSQQuery(literal)`. -/
def QSQQuery.ofLiteral (l : Literal) : QSQQuery :=
  let st := qsqLoop l.tuple 0 ⟨[], [], []⟩
  { literal := l, posToCopy := st.posToCopy, repeatedVars := st.repeatedVars }

/-- The indexed relation `IndexedTupleTable` (declared outside the sources at
hand): the arity, the single column of an arity-1 relation, and the two
orderings of an arity-2 relation, both holding the rows as `(first, second)`. -/
structure IndexedTupleTable where
  sizeTuple : Nat
  singleColumn : List Nat
  twoColumn1 : List Row
  twoColumn2 : List Row
  deriving DecidableEq, Repr

/-- What stops a call: a `throw 10`, a failed `assert`, or a read through an
iterator that is outside its vector. -/
inductive Fault where
  | thrown
  | assertion
  | outOfBounds
  deriving DecidableEq, Repr

deriving instance DecidableEq for Except

/-! ## The standard library algorithms used by the code -/

/-- The order `operator<` of `std::pair<Term_t, Term_t>`: lexicographic. -/
def ltPair (a b : Row) : Bool := decide (a.1 < b.1) || (decide (a.1 = b.1) && decide (a.2 < b.2))

/-- The comparison passed to `lower_bound` and `upper_bound` by `init2`:
second key major, first key minor. -/
def ltSecond (lhs rhs : Row) : Bool :=
  decide (lhs.2 < rhs.2) || (decide (lhs.2 = rhs.2) && decide (lhs.1 < rhs.1))

/-- The loop of `std::lower_bound` on the range of `v` that starts at index
`first` and has `len` elements; it returns the index found. -/
def lowerBoundLoop {α : Type} (lt : α → α → Bool) (v : List α) (val : α) : Nat → Nat → Nat → Nat
  | 0, first, _ => first
  | fuel + 1, first, len =>
    if len = 0 then first
    else
      let half := len / 2
      let middle := first + half
      match v[middle]? with
      | none => first
      | some x =>
        if lt x val then lowerBoundLoop lt v val fuel (middle + 1) (len - half - 1)
        else lowerBoundLoop lt v val fuel first half

/-- The call `std::lower_bound(v.begin() + first, v.begin() + last, val, lt)`. -/
def lower_bound {α : Type} (lt : α → α → Bool) (v : List α) (first last : Nat) (val : α) : Nat :=
  lowerBoundLoop lt v val (last - first) first (last - first)

/-- The loop of `std::upper_bound`. -/
def upperBoundLoop {α : Type} (lt : α → α → Bool) (v : List α) (val : α) : Nat → Nat → Nat → Nat
  | 0, first, _ => first
  | fuel + 1, first, len =>
    if len = 0 then first
    else
      let half := len / 2
      let middle := first + half
      match v[middle]? with
      | none => first
      | some x =>
        if lt val x then upperBoundLoop lt v val fuel first half
        else upperBoundLoop lt v val fuel (middle + 1) (len - half - 1)

/-- The call `std::upper_bound(v.begin() + first, v.begin() + last, val, lt)`. -/
def upper_bound {α : Type} (lt : α → α → Bool) (v : List α) (first last : Nat) (val : α) : Nat :=
  upperBoundLoop lt v val (last - first) first (last - first)

/-- The call `std::binary_search(v.begin(), v.end(), val, lt)`. -/
def binary_search {α : Type} (lt : α → α → Bool) (v : List α) (val : α) : Bool :=
  let i := lower_bound lt v 0 v.length val
  match v[i]? with
  | none => false
  | some x => !(lt val x)

/-- The result of `std::sort` on a vector of terms. -/
def sortTerms (l : List Nat) : List Nat := l.insertionSort (fun a b => a ≤ b)

/-- The result of `std::sort` on a vector of pairs, under `operator<` of pairs. -/
def sortPairs (l : List Row) : List Row := l.insertionSort (fun a b => ltPair b a = false)

/-! ## EDBLayer::query on an in-memory relation -/

/-- The entry `row[i]` of the local array `uint64_t row[2]`. -/
def rowAt (row : Row) (i : Nat) : Nat := if i = 0 then row.1 else row.2

/-- The loop over `query->getRepeatedVar(i)`: it stops with `valid = false` at
the first pair of positions whose entries differ. -/
def validLoop (row : Row) : List (Nat × Nat) → Bool
  | [] => true
  | rp :: rest => if rowAt row rp.1 ≠ rowAt row rp.2 then false else validLoop row rest

/-- The repeated-variable check: the value of `valid` when the row is tested. -/
def validRow (q : QSQQuery) (row : Row) : Bool := validLoop row q.repeatedVars

/-- The body shared by all arity-2 branches: check the row, add it if valid. -/
def emitIfValid (q : QSQQuery) (out : TupleTable) (row : Row) : TupleTable :=
  if validRow q row then addRow out [row.1, row.2] else out

/-- The arity-2 branch without a filter: the scan of `getTwoColumn1()`. -/
def scanAll (q : QSQQuery) : List Row → TupleTable → TupleTable
  | [], out => out
  | r :: rs, out => scanAll q rs (emitIfValid q out r)

/-- The loop that builds `filterValues` for a filter on one position: `prev`,
the unread values, `filterValues` and `sorted`. -/
def normalizeLoop : Nat → List Nat → List Nat → Bool → List Nat × Bool
  | _, [], fv, sorted => (fv, sorted)
  | prev, x :: xs, fv, sorted =>
    if x < prev then normalizeLoop x xs (fv ++ [x]) false
    else if x > prev then normalizeLoop x xs (fv ++ [x]) sorted
    else normalizeLoop x xs fv sorted

/-- The vector `filterValues` of the one-position branch, after the optional sort. -/
def normalizeFilter (valuesToFilter : List Nat) : List Nat :=
  match valuesToFilter with
  | [] => []
  | x :: xs =>
    let r := normalizeLoop x xs [x] true
    if !r.2 then sortTerms r.1 else r.1

/-- The inner loop `while (itr1 != pairs->end() && key(itr1) < *itr2) itr1++`. -/
def skipRows (key : Row → Nat) (bound : Nat) : List Row → List Row
  | [] => []
  | r :: rs => if key r < bound then skipRows key bound rs else r :: rs

/-- The inner loop `while (itr2 != filterValues.end() && key(itr1) > *itr2) itr2++`. -/
def skipValues (k : Nat) : List Nat → List Nat
  | [] => []
  | f :: fs => if k > f then skipValues k fs else f :: fs

/-- The merge loop of the one-position branch. `rows` is the part of the index
from `itr1` on, `vals` the part of `filterValues` from `itr2` on; `key` reads the
filtered column. Every iteration that goes on consumes a row, so the number of
rows plus one is enough fuel. -/
def mergeLoop (q : QSQQuery) (key : Row → Nat) :
    Nat → List Row → List Nat → TupleTable → TupleTable
  | 0, _, _, out => out
  | fuel + 1, rows, vals, out =>
    match rows, vals with
    | [], _ => out
    | _ :: _, [] => out
    | _ :: _, f :: _ =>
      match skipRows key f rows with
      | [] => out
      | r :: rs =>
        match skipValues (key r) vals with
        | [] => out
        | f2 :: fs2 =>
          let out2 := if key r = f2 then emitIfValid q out r else out
          mergeLoop q key fuel rs (f2 :: fs2) out2

/-- The loop that reads `valuesToFilter` as pairs in the two-position branch:
`prev1`, `prev2`, the unread values, `filterValues` and `sorted`. A pair cut
short by the end of the vector is a read past the end. -/
def pairLoop : Nat → Nat → List Nat → List Row → Bool → Except Fault (List Row × Bool)
  | _, _, [], fv, sorted => .ok (fv, sorted)
  | _, _, [_], _, _ => .error Fault.outOfBounds
  | prev1, prev2, v1 :: v2 :: rest, fv, sorted =>
    if sorted && (decide (v1 < prev1) || (decide (v1 = prev1) && decide (v2 < prev2))) then
      pairLoop prev1 prev2 rest (fv ++ [(v1, v2)]) false
    else
      pairLoop v1 v2 rest (fv ++ [(v1, v2)]) sorted

/-- The vector `filterValues` of the two-position branch, after the optional sort. -/
def normalizePairs (valuesToFilter : List Nat) : Except Fault (List Row) :=
  match valuesToFilter with
  | [] => .ok []
  | [_] => .error Fault.outOfBounds
  | prev1 :: prev2 :: rest =>
    match pairLoop prev1 prev2 rest [(prev1, prev2)] true with
    | .error e => .error e
    | .ok r => .ok (if !r.2 then sortPairs r.1 else r.1)

/-- The last loop of the two-position branch: one binary search per filter pair. -/
def searchPairs (q : QSQQuery) (pairs : List Row) : List Row → TupleTable → TupleTable
  | [], out => out
  | f :: fs, out =>
    searchPairs q pairs fs (if binary_search ltPair pairs f then emitIfValid q out f else out)

/-- Modelled from the spec: `IndexedTupleTable::exists(v)` of an arity-1
relation, a binary search on the sorted column (the class is declared outside
the sources at hand). -/
def IndexedTupleTable.existsTerm (rel : IndexedTupleTable) (v : Nat) : Bool :=
  binary_search (fun a b => decide (a < b)) rel.singleColumn v

/-- The arity-1 branch with a filter. -/
def filterSingle (rel : IndexedTupleTable) : List Nat → TupleTable → TupleTable
  | [], out => out
  | x :: xs, out => filterSingle rel xs (if rel.existsTerm x then addRow out [x] else out)

/-- The arity-1 branch without a filter. -/
def copySingle : List Nat → TupleTable → TupleTable
  | [], out => out
  | x :: xs, out => copySingle xs (addRow out [x])

/-- The function `EDBLayer::query` for a predicate held in `tmpRelations`:
`rel` is the relation found there, `posToFilter` is `none` for a null pointer,
and the result is the output table after the call. -/
def query (rel : IndexedTupleTable) (q : QSQQuery) (outputTable : TupleTable)
    (posToFilter : Option (List Nat)) (valuesToFilter : List Nat) :
    Except Fault TupleTable :=
  if rel.sizeTuple = 1 then
    match posToFilter with
    | some pf =>
      if pf.length = 1 ∧ pf[0]? = some 0 then .ok (filterSingle rel valuesToFilter outputTable)
      else .error Fault.assertion
    | none => .ok (copySingle rel.singleColumn outputTable)
  else if rel.sizeTuple = 2 then
    match posToFilter with
    | none => .ok (scanAll q rel.twoColumn1 outputTable)
    | some [] => .ok (scanAll q rel.twoColumn1 outputTable)
    | some [p] =>
      let filterValues := normalizeFilter valuesToFilter
      if p = 0 then
        .ok (mergeLoop q (fun r => r.1) (rel.twoColumn1.length + 1) rel.twoColumn1
          filterValues outputTable)
      else
        .ok (mergeLoop q (fun r => r.2) (rel.twoColumn2.length + 1) rel.twoColumn2
          filterValues outputTable)
    | some (p :: _ :: _) =>
      match normalizePairs valuesToFilter with
      | .error e => .error e
      | .ok filterValues =>
        let pairs := if p = 0 then rel.twoColumn1 else rel.twoColumn2
        .ok (searchPairs q pairs filterValues outputTable)
  else .error Fault.thrown

/-- The rows of a list in the layout of the output table. -/
def toRows (l : List Row) : TupleTable := l.map (fun r => [r.1, r.2])

/-! ## EDBMemIterator -/

/-- The fields of `EDBMemIterator`. The iterators `oneColumn`, `endOneColumn`
are indexes into `column`, the vector they were taken from, and
`pointerEqualFieldsNext`, `twoColumns`, `endTwoColumns` are indexes into
`pairs`. An index that an earlier use has left in `pointerEqualFieldsNext`
stands for an iterator into the vector of that use; `init1` keeps that vector,
and after `init2` the index is not followed by any property below. -/
structure EDBMemIterator where
  predid : Nat
  nfields : Nat
  isFirst : Bool
  hasFirst : Bool
  equalFields : Bool
  isNextCheck : Bool
  isNext : Bool
  ignoreSecondColumn : Bool
  isIgnoreAllowed : Bool
  column : List Nat
  oneColumn : Nat
  endOneColumn : Nat
  pairs : List Row
  pointerEqualFieldsNext : Nat
  twoColumns : Nat
  endTwoColumns : Nat
  deriving DecidableEq, Repr

/-- The order `<` on terms, as a comparison function. -/
def ltTerm (a b : Nat) : Bool := decide (a < b)

/-- The method `EDBMemIterator::init1`; `s` is the object before the call, whose
other fields are left as they are. -/
def init1 (s : EDBMemIterator) (id : Nat) (v : List Nat) (c1 : Bool) (vc1 : Nat) :
    EDBMemIterator :=
  let first := if c1 then lower_bound ltTerm v 0 v.length vc1 else 0
  let last := if c1 then upper_bound ltTerm v 0 v.length vc1 else v.length
  { s with
    predid := id
    nfields := 1
    column := v
    oneColumn := first
    endOneColumn := last
    isFirst := true
    hasFirst := first != last
    ignoreSecondColumn := false
    isIgnoreAllowed := false }

/-- The test `twoColumns != endTwoColumns && twoColumns->first == vc1
[&& twoColumns->second == vc2]` of `init2`, for `twoColumns = i` and
`endTwoColumns = v.end()`. -/
def lowerOkFirst (v : List Row) (i : Nat) (vc1 : Nat) (c2 : Bool) (vc2 : Nat) : Bool :=
  match v[i]? with
  | none => false
  | some r => if c2 then r.1 == vc1 && r.2 == vc2 else r.1 == vc1

/-- The test `twoColumns != endTwoColumns && twoColumns->second == vc2`. -/
def lowerOkSecond (v : List Row) (i : Nat) (vc2 : Nat) : Bool :=
  match v[i]? with
  | none => false
  | some r => r.2 == vc2

/-- The method `EDBMemIterator::init2`; `s` is the object before the call, whose
other fields are left as they are. A failed `assert` is a fault. -/
def init2 (s : EDBMemIterator) (id : Nat) (defaultSorting : Bool) (v : List Row)
    (c1 : Bool) (vc1 : Nat) (c2 : Bool) (vc2 : Nat) (equalFields : Bool) :
    Except Fault EDBMemIterator :=
  let s0 : EDBMemIterator :=
    { s with
      predid := id
      ignoreSecondColumn := false
      isIgnoreAllowed := true
      equalFields := equalFields
      nfields := 2
      pairs := v
      twoColumns := 0
      endTwoColumns := v.length }
  let finish (t : EDBMemIterator) : EDBMemIterator :=
    { t with isFirst := true, hasFirst := t.twoColumns != t.endTwoColumns }
  if c1 then
    if defaultSorting then
      let lo := lower_bound ltPair v 0 v.length (vc1, if c2 then vc2 else 0)
      if lowerOkFirst v lo vc1 c2 vc2 then
        let hi := upper_bound ltPair v lo v.length (vc1, if c2 then vc2 else TERM_MAX)
        .ok (finish { s0 with isIgnoreAllowed := false, twoColumns := lo, endTwoColumns := hi })
      else
        .ok (finish { s0 with isIgnoreAllowed := false, twoColumns := v.length })
    else .error Fault.assertion
  else if c2 then
    if !defaultSorting then
      let lo := lower_bound ltSecond v 0 v.length (0, vc2)
      if lowerOkSecond v lo vc2 then
        let hi := upper_bound ltSecond v lo v.length (TERM_MAX, vc2)
        .ok (finish { s0 with twoColumns := lo, endTwoColumns := hi })
      else
        .ok (finish { s0 with twoColumns := v.length })
    else .error Fault.assertion
  else .ok (finish s0)

/-- The method `EDBMemIterator::skipDuplicatedFirstColumn`. -/
def skipDuplicatedFirstColumn (s : EDBMemIterator) : EDBMemIterator :=
  if s.isIgnoreAllowed then { s with ignoreSecondColumn := true } else s

/-- The loop of `hasNext` in equal-fields mode. `mem` is the vector from the
pointer on, `p` the pointer, `last` is `endTwoColumns`; the result is `isNext`
and the pointer after the loop. -/
def scanEqual : List Row → Nat → Nat → Except Fault (Bool × Nat)
  | mem, p, last =>
    if p = last then .ok (false, p)
    else
      match mem with
      | [] => .error Fault.outOfBounds
      | r :: rest => if r.1 = r.2 then .ok (true, p) else scanEqual rest (p + 1) last

/-- The `do ... while (true)` loop of `hasNext` in ignore-second-column mode.
`mem` is the vector from `twoColumns` on, `p` is `twoColumns`, `last` is
`endTwoColumns`; the result is `isNext` and `twoColumns` after the loop. -/
def skipSameFirst : List Row → Nat → Nat → Except Fault (Bool × Nat)
  | [], _, _ => .error Fault.outOfBounds
  | r :: rest, p, last =>
    if p + 1 ≠ last then
      match rest with
      | [] => .error Fault.outOfBounds
      | r2 :: _ => if r2.1 ≠ r.1 then .ok (true, p + 1) else skipSameFirst rest (p + 1) last
    else .ok (false, p + 1)

/-- The method `EDBMemIterator::hasNext`: the value returned and the object
after the call. -/
def hasNext (s : EDBMemIterator) : Except Fault (Bool × EDBMemIterator) :=
  if s.equalFields then
    if !s.isNextCheck then
      let start := if s.isFirst then s.twoColumns else s.twoColumns + 1
      match scanEqual (s.pairs.drop start) start s.endTwoColumns with
      | .error e => .error e
      | .ok (b, p) =>
        .ok (b, { s with isNext := b, pointerEqualFieldsNext := p, isNextCheck := true })
    else .ok (s.isNext, s)
  else if s.isFirst then .ok (s.hasFirst, s)
  else if s.nfields = 1 then .ok (s.oneColumn + 1 != s.endOneColumn, s)
  else if s.ignoreSecondColumn then
    if s.isNextCheck then .ok (s.isNext, s)
    else
      match skipSameFirst (s.pairs.drop s.twoColumns) s.twoColumns s.endTwoColumns with
      | .error e => .error e
      | .ok (b, p) => .ok (b, { s with isNextCheck := true, isNext := b, twoColumns := p })
  else .ok (s.twoColumns + 1 != s.endTwoColumns, s)

/-- The method `EDBMemIterator::next`. -/
def next (s : EDBMemIterator) : EDBMemIterator :=
  if s.equalFields then
    { s with isFirst := false, twoColumns := s.pointerEqualFieldsNext, isNextCheck := false }
  else if s.ignoreSecondColumn then
    { s with isFirst := false, isNextCheck := false }
  else if s.isFirst then { s with isFirst := false }
  else if s.nfields = 1 then { s with oneColumn := s.oneColumn + 1 }
  else { s with twoColumns := s.twoColumns + 1 }

/-- The method `EDBMemIterator::getElementAt`. -/
def getElementAt (s : EDBMemIterator) (p : Nat) : Except Fault Nat :=
  if s.nfields = 1 then
    match s.column[s.oneColumn]? with
    | none => .error Fault.outOfBounds
    | some x => .ok x
  else
    match s.pairs[s.twoColumns]? with
    | none => .error Fault.outOfBounds
    | some r => .ok (if p = 0 then r.1 else r.2)

/-- The row under the cursor of an arity-2 iterator: `getElementAt(0)` and
`getElementAt(1)`. -/
def currentRow (s : EDBMemIterator) : Except Fault Row :=
  match getElementAt s 0, getElementAt s 1 with
  | .ok a, .ok b => .ok (a, b)
  | .error e, _ => .error e
  | _, .error e => .error e

/-- The consumer's loop `while (itr->hasNext()) { itr->next(); read the row }`,
for at most `fuel` rounds; `none` when the rounds do not suffice, otherwise the
rows read or the fault met. -/
def drain : Nat → EDBMemIterator → Option (Except Fault (List Row))
  | 0, _ => none
  | fuel + 1, s =>
    match hasNext s with
    | .error e => some (.error e)
    | .ok (false, _) => some (.ok [])
    | .ok (true, s1) =>
      match currentRow (next s1) with
      | .error e => some (.error e)
      | .ok row =>
        match drain fuel (next s1) with
        | none => none
        | some (.error e) => some (.error e)
        | some (.ok rows) => some (.ok (row :: rows))

/-- An iterator object with every flag off and empty vectors: a concrete object
to call the `init` methods on. -/
def blankIterator : EDBMemIterator :=
  { predid := 0, nfields := 0, isFirst := false, hasFirst := false, equalFields := false,
    isNextCheck := false, isNext := false, ignoreSecondColumn := false,
    isIgnoreAllowed := true, column := [], oneColumn := 0, endOneColumn := 0, pairs := [],
    pointerEqualFieldsNext := 0, twoColumns := 0, endTwoColumns := 0 }

/-! ## The relations and descriptors of the examples -/

/-- The relation `{(1,2),(2,3),(3,1)}` with its two orderings. -/
def relS1 : IndexedTupleTable :=
  { sizeTuple := 2, singleColumn := [],
    twoColumn1 := [(1, 2), (2, 3), (3, 1)], twoColumn2 := [(3, 1), (1, 2), (2, 3)] }

/-- The descriptor of the literal `p(X,X)`. -/
def queryXX : QSQQuery := QSQQuery.ofLiteral ⟨0, [VTerm.var 1, VTerm.var 1]⟩

/-- The descriptor of the literal `p(X,Y)`. -/
def queryXY : QSQQuery := QSQQuery.ofLiteral ⟨0, [VTerm.var 1, VTerm.var 2]⟩

/-! ## Notions used to state the properties -/

/-- A list of rows is sorted under the comparison `lt`: no row is followed,
anywhere later, by a row that is smaller. -/
def SortedBy (lt : Row → Row → Bool) (l : List Row) : Prop :=
  l.Pairwise (fun a b => lt b a = false)

/-- The invariants of an arity-2 indexed relation: `twoColumn1` is sorted by
(first, second), `twoColumn2` by (second, first), and both hold the same rows. -/
structure IndexedTupleTable.WellFormed (rel : IndexedTupleTable) : Prop where
  sorted1 : SortedBy ltPair rel.twoColumn1
  sorted2 : SortedBy ltSecond rel.twoColumn2
  perm : rel.twoColumn2.Perm rel.twoColumn1

/-- The rows the one-position branch is to add: the filtered column holds one of
the filter values and the repeated-variable check passes. -/
def keepRow (q : QSQQuery) (key : Row → Nat) (vals : List Nat) (r : Row) : Bool :=
  decide (key r ∈ vals) && validRow q r

/-- The loop shared by `lower_bound` and `upper_bound`: `P` tells whether the
element in the middle lies before the position searched for. -/
def partitionLoop {α : Type} (P : α → Bool) (v : List α) : Nat → Nat → Nat → Nat
  | 0, first, _ => first
  | fuel + 1, first, len =>
    if len = 0 then first
    else
      match v[first + len / 2]? with
      | none => first
      | some x =>
        if P x then partitionLoop P v fuel (first + len / 2 + 1) (len - len / 2 - 1)
        else partitionLoop P v fuel first (len / 2)

/-- The elements that satisfy `P` come first in `v`. -/
def Partitioned {α : Type} (P : α → Bool) (v : List α) : Prop :=
  ∀ (i j : Nat) (x y : α), i ≤ j → v[i]? = some x → v[j]? = some y → P y = true → P x = true

/-- The pairs read from `valuesToFilter`: entries `2k` and `2k+1` together. -/
def pairsOf : List Nat → List Row
  | a :: b :: rest => (a, b) :: pairsOf rest
  | _ => []

/-- The order of pairs is total. -/
instance ltPair_isTotal : IsTotal Row (fun a b => ltPair b a = false) :=
  ⟨fun a b => by
    simp only [ltPair, Bool.or_eq_false_iff, Bool.and_eq_false_imp, decide_eq_true_eq,
      decide_eq_false_iff_not]
    omega⟩

/-- The order of pairs is transitive. -/
instance ltPair_isTrans : IsTrans Row (fun a b => ltPair b a = false) :=
  ⟨fun a b c h1 h2 => by
    simp only [ltPair, Bool.or_eq_false_iff, Bool.and_eq_false_imp, decide_eq_true_eq,
      decide_eq_false_iff_not] at h1 h2 ⊢
    omega⟩

/-- Sortedness of a concrete list can be computed. -/
instance SortedBy.decidable (lt : Row → Row → Bool) (l : List Row) :
    Decidable (SortedBy lt l) := by
  unfold SortedBy
  infer_instance

/-- The row agrees with every constant of the literal. -/
def matchesConstants (l : Literal) (r : Row) : Prop :=
  ∀ i t, l.tuple[i]? = some t → t.isVariable = false → rowAt r i = t.value

/-- The row satisfies every repeated-variable equality of the literal: its
entries agree at any two positions that hold the same variable. -/
def repeatedEq (l : Literal) (r : Row) : Prop :=
  ∀ i j ti tj, i < j → l.tuple[i]? = some ti → l.tuple[j]? = some tj →
    ti.isVariable = true → tj.isVariable = true → ti.id = tj.id → rowAt r i = rowAt r j

/-- The row lies in the filter: no condition without a filter, the filtered
column holds one of the values for a filter on one position, and the filtered
columns hold one of the pairs of values for a filter on two positions. -/
def inFilter (pf : Option (List Nat)) (vals : List Nat) (r : Row) : Prop :=
  match pf with
  | none => True
  | some [] => True
  | some [p] => rowAt r p ∈ vals
  | some (p0 :: p1 :: _) =>
    ∃ k, vals[2 * k]? = some (rowAt r p0) ∧ vals[2 * k + 1]? = some (rowAt r p1)

/-- The literal `p(1,Y)`. -/
def literalOneY : Literal := ⟨0, [VTerm.const 1, VTerm.var 1]⟩

/-- The relation `{(1,2),(1,3),(1,4),(2,5)}`, sorted by (first, second). -/
def rowsS3 : List Row := [(1, 2), (1, 3), (1, 4), (2, 5)]

/-- The rows yielded after the row `r` when the second column is ignored: of the
rows that follow, each one whose first column differs from the row before it. -/
def yieldAfter : Row → List Row → List Row
  | _, [] => []
  | r, r2 :: rest => if r2.1 ≠ r.1 then r2 :: yieldAfter r2 rest else yieldAfter r2 rest

/-- The rows yielded by a scan that ignores the second column: the first row of
every run of rows with the same first column. -/
def runHeads : List Row → List Row
  | [] => []
  | r :: rest => r :: yieldAfter r rest

/-- The relation `{(1,2),(2,2)}`, sorted by (first, second). -/
def rowsEqual : List Row := [(1, 2), (2, 2)]

/-- The reads of `hasNext` stay inside the vector: the range ends inside it, the
look-ahead of equal-fields mode starts inside the range, and in
ignore-second-column mode the cursor is on a row of the range. -/
def HasNextInRange (s : EDBMemIterator) : Prop :=
  s.endTwoColumns ≤ s.pairs.length ∧
  (s.equalFields = true → s.isNextCheck = false →
    (if s.isFirst then s.twoColumns else s.twoColumns + 1) ≤ s.endTwoColumns) ∧
  (s.equalFields = false → s.isFirst = false → s.nfields ≠ 1 →
    s.ignoreSecondColumn = true → s.isNextCheck = false → s.twoColumns < s.endTwoColumns)

/-- The iterator over `{(1,2),(1,3),(1,4),(2,5)}` in ignore-second-column mode,
positioned on the first row `(1,2)` by one round of `hasNext()`, `next()`. -/
def cursorS3 : EDBMemIterator :=
  { blankIterator with
    nfields := 2, hasFirst := true, ignoreSecondColumn := true, pairs := rowsS3,
    twoColumns := 0, endTwoColumns := 4 }

/-- The range condition of a concrete iterator can be computed. -/
instance HasNextInRange.decidable (s : EDBMemIterator) : Decidable (HasNextInRange s) := by
  unfold HasNextInRange
  infer_instance

/-! ## EDBLayer: cursors, cardinality and emptiness -/

/-- Modelled from the spec: `Literal::getTermAtPos`; the classes `Literal` and
`VTerm` are declared outside the sources at hand. Positions beyond the tuple are
never asked for by a literal of the relation's arity. -/
def Literal.getTermAtPos (l : Literal) (i : Nat) : VTerm := l.tuple.getD i (VTerm.const 0)

/-- The variable ids of the literal, one per position that holds a variable. -/
def Literal.varIds (l : Literal) : List Nat :=
  (l.tuple.filter VTerm.isVariable).map VTerm.id

/-- Modelled from the spec: `Literal::getNVars`, the number of positions that
hold a variable (next to `getNUniqueVars`, which counts each variable once). -/
def Literal.getNVars (l : Literal) : Nat := l.varIds.length

/-- Modelled from the spec: `Literal::getNUniqueVars`, the number of distinct
variables of the literal. -/
def Literal.getNUniqueVars (l : Literal) : Nat := l.varIds.dedup.length

/-- Modelled from the spec: `Literal::hasRepeatedVars`, whether a variable occurs
at two or more positions of the literal. -/
def Literal.hasRepeatedVars (l : Literal) : Bool := decide (¬ l.varIds.Nodup)

/-- Modelled from the spec: `IndexedTupleTable::getNTuples`, the number of rows
(the class is declared outside the sources at hand). -/
def IndexedTupleTable.getNTuples (rel : IndexedTupleTable) : Nat :=
  if rel.sizeTuple = 1 then rel.singleColumn.length else rel.twoColumn1.length

/-- Modelled from the spec: `IndexedTupleTable::exists(pos, v)`, a binary search
for a row with the value `v` in column `pos` on the appropriate index: the single
column for arity 1, `twoColumn1` for column 0 and `twoColumn2` for column 1. -/
def IndexedTupleTable.existsAt (rel : IndexedTupleTable) (pos : Nat) (v : Nat) : Bool :=
  if rel.sizeTuple = 1 then rel.existsTerm v
  else if pos = 0 then
    match rel.twoColumn1[lower_bound ltPair rel.twoColumn1 0 rel.twoColumn1.length (v, 0)]? with
    | none => false
    | some r => r.1 == v
  else
    match rel.twoColumn2[lower_bound ltSecond rel.twoColumn2 0 rel.twoColumn2.length (0, v)]? with
    | none => false
    | some r => r.2 == v

/-- The locals `c1`, `vc1`, `c2`, `vc2` that `getIterator`, `getSortedIterator`
and `getCardinality` compute from the literal. `vc1` is declared without a
value and read by `init1`, `init2` only when `c1` holds; it is 0 here when `c1`
does not hold. -/
structure Bindings where
  c1 : Bool
  vc1 : Nat
  c2 : Bool
  vc2 : Nat
  deriving DecidableEq, Repr

/-- The computation of `c1`, `vc1`, `c2`, `vc2` from the literal. -/
def bindingsOf (l : Literal) : Bindings :=
  let c1 := !(l.getTermAtPos 0).isVariable
  let c2 := decide (l.getTupleSize = 2) && !(l.getTermAtPos 1).isVariable
  { c1 := c1, vc1 := if c1 then (l.getTermAtPos 0).value else 0,
    c2 := c2, vc2 := if c2 then (l.getTermAtPos 1).value else 0 }

/-- The function `EDBLayer::getIterator` for a predicate held in `tmpRelations`;
`itr` is the object that `memItrFactory.get()` hands out. -/
def getIterator (itr : EDBMemIterator) (rel : IndexedTupleTable) (query : Literal) :
    Except Fault EDBMemIterator :=
  let equalFields := query.hasRepeatedVars
  let b := bindingsOf query
  if rel.sizeTuple = 1 then .ok (init1 itr query.pred rel.singleColumn b.c1 b.vc1)
  else if rel.sizeTuple = 2 then
    init2 itr query.pred b.c1 rel.twoColumn1 b.c1 b.vc1 b.c2 b.vc2 equalFields
  else .error Fault.thrown

/-- The function `EDBLayer::getSortedIterator` for a predicate held in
`tmpRelations`; `itr` is the object that `memItrFactory.get()` hands out. -/
def getSortedIterator (itr : EDBMemIterator) (rel : IndexedTupleTable) (query : Literal)
    (fields : List Nat) : Except Fault EDBMemIterator :=
  if query.getTupleSize ≤ 2 then
    let equalFields := query.hasRepeatedVars
    let b := bindingsOf query
    if rel.sizeTuple = 1 then .ok (init1 itr query.pred rel.singleColumn b.c1 b.vc1)
    else if rel.sizeTuple = 2 then
      if b.c1 then init2 itr query.pred true rel.twoColumn1 b.c1 b.vc1 b.c2 b.vc2 equalFields
      else if b.c2 then
        init2 itr query.pred false rel.twoColumn2 b.c1 b.vc1 b.c2 b.vc2 equalFields
      else if fields.length ≠ 0 ∧ fields[0]? = some 0 then
        init2 itr query.pred true rel.twoColumn1 b.c1 b.vc1 b.c2 b.vc2 equalFields
      else init2 itr query.pred false rel.twoColumn2 b.c1 b.vc1 b.c2 b.vc2 equalFields
    else .error Fault.thrown
  else .error Fault.assertion

/-- The loop `while (itr->hasNext()) { count++; itr->next(); }` of
`getCardinality`, for at most `fuel` rounds; `none` when the rounds do not
suffice. -/
def countLoop : Nat → EDBMemIterator → Nat → Option (Except Fault Nat)
  | 0, _, _ => none
  | fuel + 1, s, count =>
    match hasNext s with
    | .error e => some (.error e)
    | .ok (false, _) => some (.ok count)
    | .ok (true, s1) => countLoop fuel (next s1) (count + 1)

/-- The function `EDBLayer::getCardinality` for a predicate held in
`tmpRelations`; `itr` is the object that `memItrFactory.get()` hands out. The
loop gets one round per row and one more. A relation of another arity leaves
the iterator null, and the loop reads through it. -/
def getCardinality (itr : EDBMemIterator) (rel : IndexedTupleTable) (query : Literal) :
    Option (Except Fault Nat) :=
  if query.getNVars = query.getTupleSize then some (.ok rel.getNTuples)
  else
    let equalFields := query.hasRepeatedVars
    let b := bindingsOf query
    if rel.sizeTuple = 1 then
      countLoop (rel.singleColumn.length + 1)
        (init1 itr query.pred rel.singleColumn b.c1 b.vc1) 0
    else if rel.sizeTuple = 2 then
      let v := if b.c1 || !b.c2 then rel.twoColumn1 else rel.twoColumn2
      match init2 itr query.pred b.c1 v b.c1 b.vc1 b.c2 b.vc2 equalFields with
      | .error e => some (.error e)
      | .ok s => countLoop (v.length + 1) s 0
    else some (.error Fault.outOfBounds)

/-- The function `EDBLayer::estimateCardinality` for a predicate held in
`tmpRelations`. -/
def estimateCardinality (rel : IndexedTupleTable) (_query : Literal) : Nat := rel.getNTuples

/-- The loop of `isEmpty` that writes the filter values into the tuple: position
`posToFilter[i]` gets the constant `valuesToFilter[i]`; `at` fails beyond the end
of `valuesToFilter`. -/
def rewriteTuple : List Nat → List Nat → List VTerm → Except Fault (List VTerm)
  | [], _, t => .ok t
  | _ :: _, [], _ => .error Fault.outOfBounds
  | pos :: ps, value :: vs, t => rewriteTuple ps vs (t.set pos ⟨0, value⟩)

/-- The loop of `isEmpty` that looks for a constant: the last position that
holds one, with its value. -/
def findConstant : List VTerm → Nat → Option (Nat × Nat) → Option (Nat × Nat)
  | [], _, found => found
  | t :: ts, i, found =>
    findConstant ts (i + 1) (if !t.isVariable then some (i, t.value) else found)

/-- The loop of `isEmpty` over `getTwoColumn1()`: whether no row has two equal
columns. -/
def noEqualRow : List Row → Bool
  | [] => true
  | r :: rs => if r.1 = r.2 then false else noEqualRow rs

/-- The function `EDBLayer::isEmpty` for a predicate held in `tmpRelations`;
`posToFilter` is `none` for a null pointer. -/
def isEmpty (rel : IndexedTupleTable) (query : Literal) (posToFilter : Option (List Nat))
    (valuesToFilter : List Nat) : Except Fault Bool :=
  if query.getTupleSize ≤ 2 then
    let rewritten : Except Fault Literal :=
      match posToFilter with
      | none => .ok query
      | some pf =>
        match rewriteTuple pf valuesToFilter query.tuple with
        | .error e => .error e
        | .ok t => .ok { query with tuple := t }
    match rewritten with
    | .error e => .error e
    | .ok literal =>
      let diff : Int := (literal.getNUniqueVars : Int) - (literal.getTupleSize : Int)
      if diff = 0 then .ok (rel.getNTuples == 0)
      else if diff = -1 then
        match findConstant literal.tuple 0 none with
        | some (idxVar, valConst) => .ok (!rel.existsAt idxVar valConst)
        | none =>
          if literal.getTupleSize = 2 then .ok (noEqualRow rel.twoColumn1)
          else .error Fault.assertion
      else if literal.getNUniqueVars = 0 then
        if literal.getTupleSize = 2 then
          .ok (!binary_search ltPair rel.twoColumn1
            ((literal.getTermAtPos 0).value, (literal.getTermAtPos 1).value))
        else .error Fault.assertion
      else .error Fault.thrown
  else .error Fault.assertion

/-- The index at which the look-ahead of equal-fields mode starts: the cursor
before the first `next()`, the row after the cursor later. -/
def scanStart (s : EDBMemIterator) : Nat :=
  if s.isFirst then s.twoColumns else s.twoColumns + 1

/-- The relation `{(1,1),(1,2),(2,2),(3,4)}`, sorted by (first, second). -/
def rowsDiag : List Row := [(1, 1), (1, 2), (2, 2), (3, 4)]

/-- The vector `[(1,2),(1,3)]`, sorted by (second, first). -/
def rowsBySecond : List Row := [(1, 2), (1, 3)]

/-- The literal `p(X,1)`. -/
def literalXOne : Literal := ⟨0, [VTerm.var 1, VTerm.const 1]⟩

/-- The term of an arity-1 relation agrees with the constant of the literal, if
the literal holds one. -/
def matchesTerm (l : Literal) (x : Nat) : Prop :=
  ∀ t, l.tuple[0]? = some t → t.isVariable = false → x = t.value

/-- The literal `p(X,X)`. -/
def literalXX : Literal := ⟨0, [VTerm.var 1, VTerm.var 1]⟩

/-- The literal `p(X,Y)`. -/
def literalXY : Literal := ⟨0, [VTerm.var 1, VTerm.var 2]⟩

/-- The relation `{(1,2),(2,2)}` with its two orderings. -/
def relEqual : IndexedTupleTable :=
  { sizeTuple := 2, singleColumn := [],
    twoColumn1 := [(1, 2), (2, 2)], twoColumn2 := [(1, 2), (2, 2)] }

/-- The empty relation of arity `n`. -/
def emptyRelation (n : Nat) : IndexedTupleTable :=
  { sizeTuple := n, singleColumn := [], twoColumn1 := [], twoColumn2 := [] }

/-! ## FinalTableJoinProcessor -/

/-- The macro `TMPT_THRESHOLD`. -/
def TMPT_THRESHOLD : Nat := 32 * 1024 * 1024

/-- Modelled from the spec: the row buffer `SegmentInserter` (declared outside
the sources at hand). Its state is the accumulated column vectors, one per
column, and the number of rows; rows of width 0 are counted without storing
data. -/
structure SegmentInserter where
  rowsize : Nat
  columns : List (List Nat)
  nrows : Nat
  deriving DecidableEq, Repr

/-- Modelled from the spec: `new SegmentInserter(rowsize)`, an empty buffer. -/
def SegmentInserter.create (rowsize : Nat) : SegmentInserter :=
  { rowsize := rowsize, columns := List.replicate rowsize [], nrows := 0 }

/-- Modelled from the spec: `SegmentInserter::addRow(row)`, which appends the
entries of the row to the columns and counts the row. -/
def SegmentInserter.addRow (ins : SegmentInserter) (row : List Nat) : SegmentInserter :=
  { ins with
    columns := List.zipWith (fun c x => c ++ [x]) ins.columns row
    nrows := ins.nrows + 1 }

/-- Modelled from the spec: `SegmentInserter::getNRows`. -/
def SegmentInserter.getNRows (ins : SegmentInserter) : Nat := ins.nrows

/-- Modelled from the spec: a frozen `Segment`, a column-oriented collection of
rows of fixed width (declared outside the sources at hand). -/
structure Segment where
  rowsize : Nat
  columns : List (List Nat)
  deriving DecidableEq, Repr

/-- The fields of `FinalTableJoinProcessor` that `processResults` reads or
writes: the width and the raw row of `ResultJoinProcessor`, the number of blocks
and the three arrays of buffers, a null pointer being `none`. -/
structure FinalTableJoinProcessor where
  rowsize : Nat
  row : List Nat
  nbuffers : Nat
  utmpt : List (Option SegmentInserter)
  tmpt : List (Option SegmentInserter)
  tmptseg : List (Option Segment)
  deriving DecidableEq, Repr

/-- The three arrays hold `nbuffers` entries each. -/
def FinalTableJoinProcessor.WellFormed (p : FinalTableJoinProcessor) : Prop :=
  p.utmpt.length = p.nbuffers ∧ p.tmpt.length = p.nbuffers ∧ p.tmptseg.length = p.nbuffers

/-- Modelled from the spec: `FinalTableJoinProcessor::enlargeBuffers(newsize)`,
which is declared in the header and defined outside the sources at hand: a
block id beyond the current capacity makes the arrays grow to `newsize`, with
null entries in the new places, and the buffers held before are preserved. -/
def FinalTableJoinProcessor.enlargeBuffers (p : FinalTableJoinProcessor) (newsize : Nat) :
    FinalTableJoinProcessor :=
  if p.nbuffers < newsize then
    { p with
      nbuffers := newsize
      utmpt := p.utmpt ++ List.replicate (newsize - p.nbuffers) none
      tmpt := p.tmpt ++ List.replicate (newsize - p.nbuffers) none
      tmptseg := p.tmptseg ++ List.replicate (newsize - p.nbuffers) none }
  else p

/-- The buffer at `blockid` of an array, allocated with `new
SegmentInserter(rowsize)` when the entry is null. -/
def bufferOrNew (rowsize : Nat) (buffers : List (Option SegmentInserter)) (blockid : Nat) :
    SegmentInserter :=
  match buffers.getD blockid none with
  | none => SegmentInserter.create rowsize
  | some ins => ins

/-- The method `FinalTableJoinProcessor::processResults(blockid, unique, m)` of
the build without duplicate detection. `mergeTmpt` stands for the method of that
name, which is declared in the header and defined outside the sources at hand. -/
def FinalTableJoinProcessor.processResults
    (mergeTmpt : FinalTableJoinProcessor → Nat → Bool → FinalTableJoinProcessor)
    (p : FinalTableJoinProcessor) (blockid : Nat) (unique : Bool) : FinalTableJoinProcessor :=
  let p1 := p.enlargeBuffers (blockid + 1)
  if !unique then
    let ins := (bufferOrNew p1.rowsize p1.tmpt blockid).addRow p1.row
    let p2 := { p1 with tmpt := p1.tmpt.set blockid (some ins) }
    if ins.getNRows > TMPT_THRESHOLD then mergeTmpt p2 blockid unique else p2
  else
    let ins := (bufferOrNew p1.rowsize p1.utmpt blockid).addRow p1.row
    { p1 with utmpt := p1.utmpt.set blockid (some ins) }

/-- A stand-in for `mergeTmpt` that does the last step of the merge only, the
reset of `tmpt[blockid]`. -/
def resetTmpt (p : FinalTableJoinProcessor) (blockid : Nat) (_unique : Bool) :
    FinalTableJoinProcessor :=
  { p with tmpt := p.tmpt.set blockid none }

/-- A sink of width 0 with one block whose non-unique buffer holds exactly
`TMPT_THRESHOLD` rows. -/
def sinkAtThreshold : FinalTableJoinProcessor :=
  { rowsize := 0, row := [], nbuffers := 1, utmpt := [none],
    tmpt := [some { rowsize := 0, columns := [], nrows := TMPT_THRESHOLD }],
    tmptseg := [none] }

/-- A sink of width 2 with one block and no buffer yet. -/
def sinkFresh : FinalTableJoinProcessor :=
  { rowsize := 2, row := [7, 8], nbuffers := 1, utmpt := [none], tmpt := [none],
    tmptseg := [none] }

/-- Well-formedness of a concrete sink can be computed. -/
instance FinalTableJoinProcessor.WellFormed.decidable (p : FinalTableJoinProcessor) :
    Decidable p.WellFormed := by
  unfold FinalTableJoinProcessor.WellFormed
  infer_instance

/-- The number of rows held by the buffer at `blockid` of an array, 0 when the
entry is null. -/
def rowsIn (buffers : List (Option SegmentInserter)) (blockid : Nat) : Nat :=
  match buffers.getD blockid none with
  | none => 0
  | some ins => ins.getNRows

/-- The caller's loop that sends the rows of a list to one block as non-unique
rows: each row is copied into the raw row, then `processResults` is called. -/
def sendRows (mergeTmpt : FinalTableJoinProcessor → Nat → Bool → FinalTableJoinProcessor)
    (p : FinalTableJoinProcessor) (blockid : Nat) : List (List Nat) → FinalTableJoinProcessor
  | [] => p
  | r :: rs =>
    sendRows mergeTmpt (({ p with row := r }).processResults mergeTmpt blockid false) blockid rs

/-- The order of events in the words of the property, not of the code: a buffer
that holds `TMPT_THRESHOLD` rows (or more) is merged first, and the row is
appended afterwards. -/
def processResultsMergeFirst
    (mergeTmpt : FinalTableJoinProcessor → Nat → Bool → FinalTableJoinProcessor)
    (p : FinalTableJoinProcessor) (blockid : Nat) : FinalTableJoinProcessor :=
  let p1 := p.enlargeBuffers (blockid + 1)
  let p2 := if rowsIn p1.tmpt blockid ≥ TMPT_THRESHOLD then mergeTmpt p1 blockid false else p1
  let ins := (bufferOrNew p2.rowsize p2.tmpt blockid).addRow p2.row
  { p2 with tmpt := p2.tmpt.set blockid (some ins) }

/-! ## InterTableJoinProcessor -/

/-- The fields of `InterTableJoinProcessor` that `enlargeArray` and
`processResults` read or write: the width and the raw row of
`ResultJoinProcessor`, `currentSegmentSize` and the array `segments` of shared
pointers, a null pointer being `none`. -/
structure InterTableJoinProcessor where
  rowsize : Nat
  row : List Nat
  currentSegmentSize : Nat
  segments : List (Option SegmentInserter)
  deriving DecidableEq, Repr

/-- The first loop of `enlargeArray`, `newsegments[i] = segments[i]`: `n`
iterations are left, `i` is the counter. A slot outside either array is a fault. -/
def copyLoop (segments : List (Option SegmentInserter)) :
    Nat → Nat → List (Option SegmentInserter) → Except Fault (List (Option SegmentInserter))
  | 0, _, newsegments => .ok newsegments
  | n + 1, i, newsegments =>
    match segments[i]? with
    | none => .error Fault.outOfBounds
    | some s =>
      if i < newsegments.length then copyLoop segments n (i + 1) (newsegments.set i s)
      else .error Fault.outOfBounds

/-- The second loop of `enlargeArray`, which stores a pointer to a
`new SegmentInserter(rowsize)` in each further slot: `n` iterations are left,
`i` is the counter. -/
def fillLoop (rowsize : Nat) :
    Nat → Nat → List (Option SegmentInserter) → Except Fault (List (Option SegmentInserter))
  | 0, _, newsegments => .ok newsegments
  | n + 1, i, newsegments =>
    if i < newsegments.length then
      fillLoop rowsize n (i + 1) (newsegments.set i (some (SegmentInserter.create rowsize)))
    else .error Fault.outOfBounds

/-- The method `InterTableJoinProcessor::enlargeArray(blockid)`. The size
`blockid + 1` of the new array is computed in `uint32_t`. The counter of the
second loop is an `int` in the source and a natural number here, which is the
same as long as `blockid + 1` is below `2^31`. -/
def InterTableJoinProcessor.enlargeArray (p : InterTableJoinProcessor) (blockid : Nat) :
    Except Fault InterTableJoinProcessor :=
  if blockid ≥ p.currentSegmentSize then
    let size := (blockid + 1) % 2 ^ 32
    match copyLoop p.segments p.currentSegmentSize 0 (List.replicate size none) with
    | .error e => .error e
    | .ok copied =>
      match fillLoop p.rowsize (size - p.currentSegmentSize) p.currentSegmentSize copied with
      | .error e => .error e
      | .ok newsegments => .ok { p with currentSegmentSize := size, segments := newsegments }
  else .ok p

/-- The method `InterTableJoinProcessor::processResults(blockid, unique, m)` of
the build without duplicate detection: `enlargeArray(blockid)`, then
`segments[blockid]->addRow(row, rowsize)`. -/
def InterTableJoinProcessor.processResults (p : InterTableJoinProcessor) (blockid : Nat)
    (_unique : Bool) : Except Fault InterTableJoinProcessor :=
  match p.enlargeArray blockid with
  | .error e => .error e
  | .ok p1 =>
    match p1.segments[blockid]? with
    | some (some ins) =>
      .ok { p1 with segments := p1.segments.set blockid (some (ins.addRow p1.row)) }
    | _ => .error Fault.outOfBounds

/-- The method `InterTableJoinProcessor::addColumns(blockid, itr, unique, sorted,
lastInsert)`, whose body is `throw 10`: the sink after the call and the fault.
`Itr` stands for the type of the iterator, `FCInternalTableItr`. -/
def InterTableJoinProcessor.addColumns {Itr : Type} (p : InterTableJoinProcessor)
    (_blockid : Int) (_itr : Itr) (_unique _sorted _lastInsert : Bool) :
    InterTableJoinProcessor × Except Fault Unit :=
  (p, .error Fault.thrown)

/-- The invariant of the sink: `segments` has `currentSegmentSize` slots and
none of them holds a null pointer. -/
def InterTableJoinProcessor.WellFormed (p : InterTableJoinProcessor) : Prop :=
  p.segments.length = p.currentSegmentSize ∧ ∀ s ∈ p.segments, s ≠ none

/-- Well-formedness of a concrete sink can be computed. -/
instance InterTableJoinProcessor.WellFormed.decidable (p : InterTableJoinProcessor) :
    Decidable p.WellFormed := by
  unfold InterTableJoinProcessor.WellFormed
  infer_instance

/-- The caller's loop that writes rows to blocks: each row is copied into the
raw row, then `processResults` is called for its block. -/
def writeRows (p : InterTableJoinProcessor) :
    List (Nat × List Nat) → Except Fault InterTableJoinProcessor
  | [] => .ok p
  | w :: ws =>
    match ({ p with row := w.2 }).processResults w.1 false with
    | .error e => .error e
    | .ok p1 => writeRows p1 ws

/-- A sink of width 2 as the constructor leaves it, with `MAX_NSEGMENTS` empty
blocks. -/
def sinkInter : InterTableJoinProcessor :=
  { rowsize := 2, row := [], currentSegmentSize := 3,
    segments := List.replicate 3 (some (SegmentInserter.create 2)) }

/-! ## Variable positions of a literal -/

/-- The positions `i, i+1, ...` of a tuple that hold a variable, in ascending
order. -/
def varPositions : List VTerm → Nat → List Nat
  | [], _ => []
  | t :: ts, i => if t.isVariable then i :: varPositions ts (i + 1) else varPositions ts (i + 1)

/-- The literal `p(X, X, X)`. -/
def literalXXX : Literal := ⟨1, [VTerm.var 1, VTerm.var 1, VTerm.var 1]⟩

/-- Position `pos` of the tuple holds the variable `id`. -/
def holdsVar (ts : List VTerm) (pos id : Nat) : Prop :=
  ∃ t, ts[pos]? = some t ∧ t.isVariable = true ∧ t.id = id

/-- Position `pos` is the first position of the tuple that holds the variable
`id`. -/
def firstVar (ts : List VTerm) (pos id : Nat) : Prop :=
  holdsVar ts pos id ∧ ∀ k, k < pos → ¬ holdsVar ts k id

/-! ## Relations of arity 1 and 3 -/

/-- The arity-1 relation `{2, 5, 9}`. -/
def relUnary : IndexedTupleTable :=
  { sizeTuple := 1, singleColumn := [2, 5, 9], twoColumn1 := [], twoColumn2 := [] }

/-- The descriptor of the literal `p(X)`. -/
def queryX : QSQQuery := QSQQuery.ofLiteral ⟨0, [VTerm.var 1]⟩

/-- What stops `EDBConf::parse`: the `throw 10` of a malformed line, a
`boost::bad_lexical_cast`, a `std::out_of_range` of `substr`, a
`std::length_error` of `resize`, or an access to a vector element that is not
there. -/
inductive ConfFault where
  | malformed
  | badCast
  | outOfRange
  | lengthError
  | outOfBounds
  deriving DecidableEq, Repr

/-- A table descriptor, `EDBConf::Table`. A `string` is the list of its
characters. -/
structure Table where
  predname : List Char
  type : List Char
  params : List (List Char)
  deriving DecidableEq, Repr

/-- The value-initialised descriptor that `tables.resize` puts in new places. -/
def Table.blank : Table := { predname := [], type := [], params := [] }

/-- The class `EDBConf`: the list of table descriptors. -/
structure EDBConf where
  tables : List Table
  deriving DecidableEq, Repr

/-- The constant `std::string::npos`, the largest `size_t`. -/
def npos : Nat := 2 ^ 64 - 1

/-- The call `boost::starts_with(s, pre)`. -/
def starts_with : List Char → List Char → Bool
  | _, [] => true
  | [], _ :: _ => false
  | x :: xs, y :: ys => x == y && starts_with xs ys

/-- The search of `std::string::find` for a one-character pattern, from index
`i` on: the index of the first occurrence, `npos` if there is none. -/
def findFrom (c : Char) : List Char → Nat → Nat
  | [], _ => npos
  | x :: xs, i => if x = c then i else findFrom c xs (i + 1)

/-- The call `s.find(c)` for a one-character pattern. -/
def find (s : List Char) (c : Char) : Nat := findFrom c s 0

/-- The call `s.substr(pos, len)`: it throws `std::out_of_range` when `pos` is
beyond the size, and is cut at the end of the string. -/
def substr (s : List Char) (pos len : Nat) : Except ConfFault (List Char) :=
  if pos > s.length then .error ConfFault.outOfRange else .ok ((s.drop pos).take len)

/-- The digits of a decimal numeral, read from the left onto `acc`; `none` when
a character is not a digit. -/
def readDigits : List Char → Nat → Option Nat
  | [], acc => some acc
  | c :: cs, acc => if c.isDigit then readDigits cs (acc * 10 + (c.toNat - 48)) else none

/-- The magnitude of a numeral: a non-empty string of digits. -/
def readNumber (ds : List Char) : Option Nat :=
  match ds with
  | [] => none
  | _ :: _ => readDigits ds 0

/-- The call `boost::lexical_cast<int>(s)`: an optional sign and a non-empty
string of digits, whose value is in the range of `int`; anything else throws
`bad_lexical_cast`. -/
def lexical_cast (s : List Char) : Except ConfFault Int :=
  match s with
  | '-' :: ds =>
    match readNumber ds with
    | some n => if n ≤ 2 ^ 31 then .ok (- (n : Int)) else .error ConfFault.badCast
    | none => .error ConfFault.badCast
  | '+' :: ds =>
    match readNumber ds with
    | some n => if n < 2 ^ 31 then .ok (n : Int) else .error ConfFault.badCast
    | none => .error ConfFault.badCast
  | ds =>
    match readNumber ds with
    | some n => if n < 2 ^ 31 then .ok (n : Int) else .error ConfFault.badCast
    | none => .error ConfFault.badCast

/-- The result of an `int` addition, wrapped to 32 bits in two's complement. -/
def wrapInt (x : Int) : Int := (x + 2 ^ 31) % 2 ^ 32 - 2 ^ 31

/-- The conversion of an `int` to `size_t`. -/
def toSize (x : Int) : Nat := (x % 2 ^ 64).toNat

/-- The call `v.resize(n)` of a vector: new places hold `dflt`. A size of
`2^63` or more, which is what a negative `int` converts to, is beyond
`max_size()` and throws `std::length_error`. -/
def resize {α : Type} (v : List α) (n : Nat) (dflt : α) : Except ConfFault (List α) :=
  if n ≥ 2 ^ 63 then .error ConfFault.lengthError
  else .ok (v.take n ++ List.replicate (n - v.length) dflt)

/-- The assignment through the reference `Table &table = tables[id]`: the entry
at `i` is replaced by `f` of it; there is no entry beyond the size. -/
def updateTable (tables : List Table) (i : Nat) (f : Table → Except ConfFault Table) :
    Except ConfFault (List Table) :=
  match tables[i]? with
  | none => .error ConfFault.outOfBounds
  | some table =>
    match f table with
    | .error e => .error e
    | .ok table2 => .ok (tables.set i table2)

/-- The branch of `parse` for a key `param...`: the parameter list is resized
when `paramid` is not below its size, then `params[paramid]` is assigned. -/
def setParam (paramid : Int) (value : List Char) (table : Table) : Except ConfFault Table :=
  match (if table.params.length ≤ toSize paramid
      then resize table.params (toSize (wrapInt (paramid + 1))) []
      else .ok table.params) with
  | .error e => .error e
  | .ok params =>
    if toSize paramid < params.length then
      .ok { table with params := params.set (toSize paramid) value }
    else .error ConfFault.outOfBounds

/-- The second half of the body of the loop of `EDBConf::parse`, from
`if (tables.size() < id + 1)` on: `found` is the index of the first `_` and `id`
the number read before it. Sizes and indexes are `size_t`, so their arithmetic
is modulo `2^64`. -/
def parseEntry (tables : List Table) (line : List Char) (found : Nat) (id : Int) :
    Except ConfFault (List Table) :=
  match (if tables.length < toSize (wrapInt (id + 1))
      then resize tables (toSize (wrapInt (id + 1))) Table.blank
      else .ok tables) with
  | .error e => .error e
  | .ok tables1 =>
    let idxAss := find line '='
    match substr line (found + 1) ((idxAss + 2 ^ 64 - found - 1) % 2 ^ 64) with
    | .error e => .error e
    | .ok typeParam =>
      if typeParam = ['p', 'r', 'e', 'd', 'n', 'a', 'm', 'e'] then
        match substr line ((idxAss + 1) % 2 ^ 64) npos with
        | .error e => .error e
        | .ok predname =>
          updateTable tables1 (toSize id) (fun table => .ok { table with predname := predname })
      else if typeParam = ['t', 'y', 'p', 'e'] then
        match substr line ((idxAss + 1) % 2 ^ 64) npos with
        | .error e => .error e
        | .ok typeStorage =>
          updateTable tables1 (toSize id) (fun table => .ok { table with type := typeStorage })
      else if starts_with typeParam ['p', 'a', 'r', 'a', 'm'] then
        match substr typeParam 5 npos with
        | .error e => .error e
        | .ok digits =>
          match lexical_cast digits with
          | .error e => .error e
          | .ok paramid =>
            match substr line ((idxAss + 1) % 2 ^ 64) npos with
            | .error e => .error e
            | .ok value => updateTable tables1 (toSize id) (setParam paramid value)
      else .error ConfFault.malformed

/-- The body of the loop of `EDBConf::parse` for one line: a line that starts
with `EDB` must have a `_`, and the text between the two is read as the id. -/
def parseLine (tables : List Table) (line : List Char) : Except ConfFault (List Table) :=
  if starts_with line ['E', 'D', 'B'] then
    let found := find line '_'
    if found = npos then .error ConfFault.malformed
    else
      match substr line 3 ((found + 2 ^ 64 - 3) % 2 ^ 64) with
      | .error e => .error e
      | .ok idedb =>
        match lexical_cast idedb with
        | .error e => .error e
        | .ok id => parseEntry tables line found id
  else .ok tables

/-- The loop `while (std::getline(file, line))` over the lines of the file. -/
def parseLines : List (List Char) → List Table → Except ConfFault (List Table)
  | [], tables => .ok tables
  | line :: rest, tables =>
    match parseLine tables line with
    | .error e => .error e
    | .ok tables1 => parseLines rest tables1

/-- The method `EDBConf::parse(f)`; `lines` are the lines of the file `f`. -/
def EDBConf.parse (c : EDBConf) (lines : List (List Char)) : Except ConfFault EDBConf :=
  match parseLines lines c.tables with
  | .error e => .error e
  | .ok tables => .ok { tables := tables }

/-- The constructor `EDBConf(f)`, which calls `parse` on the new object. -/
def EDBConf.ofLines (lines : List (List Char)) : Except ConfFault EDBConf :=
  EDBConf.parse { tables := [] } lines

/-- The key of a well-formed line: `predname`, `type` or `param<n>`. -/
inductive ConfKey where
  | predname
  | type
  | param (n : Nat)
  deriving DecidableEq, Repr

/-- What a well-formed line `EDB<id>_<key>=<value>` says. -/
structure ConfEntry where
  id : Nat
  key : ConfKey
  value : List Char
  deriving DecidableEq, Repr

/-- The text of a key; the number of a parameter is a decimal numeral whose
successor is in the range of `int`. -/
def KeyText : ConfKey → List Char → Prop
  | ConfKey.predname, s => s = ['p', 'r', 'e', 'd', 'n', 'a', 'm', 'e']
  | ConfKey.type, s => s = ['t', 'y', 'p', 'e']
  | ConfKey.param n, s =>
    ∃ ns, readNumber ns = some n ∧ n + 1 < 2 ^ 31 ∧ s = ['p', 'a', 'r', 'a', 'm'] ++ ns

/-- The line is the well-formed line `EDB<id>_<key>=<value>` of the entry: the
id is a decimal numeral whose successor is in the range of `int`, and the line
is shorter than `2^64` characters. -/
def WellFormedLine (line : List Char) (e : ConfEntry) : Prop :=
  ∃ ds key, readNumber ds = some e.id ∧ e.id + 1 < 2 ^ 31 ∧ KeyText e.key key ∧
    line = ['E', 'D', 'B'] ++ ds ++ '_' :: key ++ '=' :: e.value ∧ line.length < 2 ^ 64

/-- A line of the file with what it says: a line that does not start with `EDB`
says nothing, any other line is well-formed. -/
def WellFormedItem (it : List Char × Option ConfEntry) : Prop :=
  match it.2 with
  | none => starts_with it.1 ['E', 'D', 'B'] = false
  | some e => WellFormedLine it.1 e

/-- One more than the largest id among the entries, 0 if there is none. -/
def tableCount (es : List ConfEntry) : Nat :=
  es.foldl (fun m e => max m (e.id + 1)) 0

/-- One more than the largest parameter number among the entries of the table
`id`, 0 if there is none. -/
def paramCount (es : List ConfEntry) (id : Nat) : Nat :=
  es.foldl (fun m e =>
    match e.key with
    | ConfKey.param n => if e.id = id then max m (n + 1) else m
    | _ => m) 0

/-- The value of the last entry for the table `id` and the key, empty if there
is none. -/
def lastValue (es : List ConfEntry) (id : Nat) (key : ConfKey) : List Char :=
  match es.reverse.find? (fun e => decide (e.id = id ∧ e.key = key)) with
  | some e => e.value
  | none => []

/-- The descriptor of the table `id` as the entries give it. -/
def describedTable (es : List ConfEntry) (id : Nat) : Table :=
  { predname := lastValue es id ConfKey.predname
    type := lastValue es id ConfKey.type
    params := (List.range (paramCount es id)).map (fun n => lastValue es id (ConfKey.param n)) }

/-- The table list as the entries give it. -/
def describedTables (es : List ConfEntry) : List Table :=
  (List.range (tableCount es)).map (describedTable es)

/-- A vector grown to at least `n` places, the new ones holding `d`. -/
def grow {α : Type} (v : List α) (n : Nat) (d : α) : List α :=
  v ++ List.replicate (n - v.length) d

/-- The effect of a key and its value on a descriptor. -/
def applyKey (key : ConfKey) (value : List Char) (t : Table) : Table :=
  match key with
  | ConfKey.predname => { t with predname := value }
  | ConfKey.type => { t with type := value }
  | ConfKey.param n => { t with params := (grow t.params (n + 1) []).set n value }

/-- The effect of an entry on the table list. -/
def applyEntry (tables : List Table) (e : ConfEntry) : List Table :=
  (grow tables (e.id + 1) Table.blank).set e.id
    (applyKey e.key e.value ((grow tables (e.id + 1) Table.blank).getD e.id Table.blank))

/-- The lines of a small configuration file with what each line says. -/
def confItems : List (List Char × Option ConfEntry) :=
  [("# storage".toList, none),
   ("EDB1_type=Trident".toList, some ⟨1, ConfKey.type, "Trident".toList⟩),
   ("EDB1_param1=/a=b".toList, some ⟨1, ConfKey.param 1, "/a=b".toList⟩),
   ("EDB0_predname=TE".toList, some ⟨0, ConfKey.predname, "TE".toList⟩),
   ("EDB1_type=MySQL".toList, some ⟨1, ConfKey.type, "MySQL".toList⟩)]

/-! ## An iterator object after use -/

/-- The consumer's loop `while (itr->hasNext()) itr->next();`, for at most
`fuel` rounds: the object as the loop leaves it. -/
def exhaust : Nat → EDBMemIterator → EDBMemIterator
  | 0, s => s
  | fuel + 1, s =>
    match hasNext s with
    | .error _ => s
    | .ok (false, s1) => s1
    | .ok (true, s1) => exhaust fuel (next s1)

/-- An iterator object as an earlier use leaves it: set up by `init2` over
`rowsDiag` in equal-fields mode and read to the end. -/
def usedIterator : EDBMemIterator :=
  match init2 blankIterator 0 true rowsDiag false 0 false 0 true with
  | .ok s => exhaust (rowsDiag.length + 1) s
  | .error _ => blankIterator

/-- An iterator object as a caller leaves it that asks `hasNext()` once and
releases the cursor: set up by `init2` over `rowsDiag` in equal-fields mode. -/
def peekedIterator : EDBMemIterator :=
  match init2 blankIterator 0 true rowsDiag false 0 false 0 true with
  | .ok s =>
    match hasNext s with
    | .ok (_, s1) => s1
    | .error _ => s
  | .error _ => blankIterator

/-- The arity-1 relation `{5}`. -/
def relSingle : IndexedTupleTable :=
  { sizeTuple := 1, singleColumn := [5], twoColumn1 := [], twoColumn2 := [] }

/-- The literal `p(7)`. -/
def literalSeven : Literal := ⟨0, [VTerm.const 7]⟩

/-- The literal `p(5,Y)`. -/
def literalFiveY : Literal := ⟨0, [VTerm.const 5, VTerm.var 1]⟩

/-! ## The repeated-variable check -/

theorem validLoop_iff (row : Row) (rv : List (Nat × Nat)) :
    validLoop row rv = true ↔ ∀ rp ∈ rv, rowAt row rp.1 = rowAt row rp.2 := by
  induction rv with
  | nil => simp [validLoop]
  | cons rp rest ih =>
    by_cases h : rowAt row rp.1 = rowAt row rp.2
    · simp [validLoop, h, ih]
    · simp [validLoop, h]

theorem validRow_iff (q : QSQQuery) (row : Row) :
    validRow q row = true ↔ ∀ rp ∈ q.repeatedVars, rowAt row rp.1 = rowAt row rp.2 :=
  validLoop_iff row q.repeatedVars

/-! ## Scan without a filter -/

theorem scanAll_eq (q : QSQQuery) (rows : List Row) (out : TupleTable) :
    scanAll q rows out = out ++ toRows (rows.filter (validRow q)) := by
  induction rows generalizing out with
  | nil => simp [scanAll, toRows]
  | cons r rs ih =>
    rw [scanAll, ih]
    by_cases h : validRow q r = true
    · simp [emitIfValid, h, addRow, toRows]
    · simp [emitIfValid, h, toRows]

/-! ## The merge loop of the one-position filter -/

theorem skipRows_spec (key : Row → Nat) (b : Nat) (rows : List Row) :
    ∃ pre, rows = pre ++ skipRows key b rows ∧ (∀ r ∈ pre, key r < b) ∧
      (∀ r rs, skipRows key b rows = r :: rs → b ≤ key r) := by
  induction rows with
  | nil => exact ⟨[], by simp [skipRows]⟩
  | cons r rs ih =>
    by_cases h : key r < b
    · obtain ⟨pre, h1, h2, h3⟩ := ih
      refine ⟨r :: pre, ?_, ?_, ?_⟩
      · simp only [skipRows, h, if_true, List.cons_append]
        rw [← h1]
      · intro x hx
        rcases List.mem_cons.1 hx with rfl | hx
        · exact h
        · exact h2 x hx
      · intro x xs hx
        simp only [skipRows, h, if_true] at hx
        exact h3 x xs hx
    · refine ⟨[], by simp [skipRows, h], by simp, ?_⟩
      intro x xs hx
      simp only [skipRows, h, if_false] at hx
      injection hx with hx1 _
      subst hx1
      exact Nat.le_of_not_lt h

theorem skipValues_spec (k : Nat) (vals : List Nat) :
    ∃ pre, vals = pre ++ skipValues k vals ∧ (∀ f ∈ pre, f < k) ∧
      (∀ f fs, skipValues k vals = f :: fs → k ≤ f) := by
  induction vals with
  | nil => exact ⟨[], by simp [skipValues]⟩
  | cons f fs ih =>
    by_cases h : k > f
    · obtain ⟨pre, h1, h2, h3⟩ := ih
      refine ⟨f :: pre, ?_, ?_, ?_⟩
      · simp only [skipValues, h, if_true, List.cons_append]
        rw [← h1]
      · intro x hx
        rcases List.mem_cons.1 hx with rfl | hx
        · exact h
        · exact h2 x hx
      · intro x xs hx
        simp only [skipValues, h, if_true] at hx
        exact h3 x xs hx
    · refine ⟨[], by simp [skipValues, h], by simp, ?_⟩
      intro x xs hx
      simp only [skipValues, h, if_false] at hx
      injection hx with hx1 _
      subst hx1
      exact Nat.le_of_not_lt h

theorem filter_keepRow_none (q : QSQQuery) (key : Row → Nat) (vals : List Nat)
    (rows : List Row) (h : ∀ r ∈ rows, key r ∉ vals) :
    rows.filter (keepRow q key vals) = [] := by
  rw [List.filter_eq_nil_iff]
  intro r hr
  simp [keepRow, h r hr]

theorem mergeLoop_eq (q : QSQQuery) (key : Row → Nat) :
    ∀ (fuel : Nat) (rows : List Row) (vals : List Nat) (out : TupleTable),
      rows.length < fuel → rows.Pairwise (fun a b => key a ≤ key b) →
      vals.Pairwise (fun a b => a ≤ b) →
      mergeLoop q key fuel rows vals out
        = out ++ toRows (rows.filter (keepRow q key vals)) := by
  intro fuel
  induction fuel with
  | zero => intro rows vals out h; exact absurd h (Nat.not_lt_zero _)
  | succ fuel ih =>
    intro rows vals out hlen hrows hvals
    cases rows with
    | nil => simp [mergeLoop, toRows]
    | cons r0 rs0 =>
      cases vals with
      | nil =>
        rw [filter_keepRow_none q key [] _ (by simp)]
        simp [mergeLoop, toRows]
      | cons f fs =>
        have hfmin : ∀ x ∈ f :: fs, f ≤ x := by
          intro x hx
          rcases List.mem_cons.1 hx with rfl | hx
          · exact Nat.le_refl _
          · exact List.rel_of_pairwise_cons hvals hx
        obtain ⟨pre, hpre, hprelt, hhead⟩ := skipRows_spec key f (r0 :: rs0)
        have hprenone : ∀ r ∈ pre, key r ∉ f :: fs := by
          intro r hr hmem
          exact absurd (hfmin _ hmem) (Nat.not_le_of_lt (hprelt r hr))
        simp only [mergeLoop]
        cases hsk : skipRows key f (r0 :: rs0) with
        | nil =>
          rw [hsk, List.append_nil] at hpre
          rw [hpre, filter_keepRow_none q key _ _ hprenone]
          simp [toRows]
        | cons r rs =>
          dsimp only
          rw [hsk] at hpre
          have hrs : (r :: rs).Pairwise (fun a b => key a ≤ key b) := by
            rw [hpre] at hrows
            exact (List.pairwise_append.1 hrows).2.1
          have hrmin : ∀ x ∈ r :: rs, key r ≤ key x := by
            intro x hx
            rcases List.mem_cons.1 hx with rfl | hx
            · exact Nat.le_refl _
            · exact List.rel_of_pairwise_cons hrs hx
          obtain ⟨pre2, hpre2, hpre2lt, hhead2⟩ := skipValues_spec (key r) (f :: fs)
          have hsplit : (r0 :: rs0).filter (keepRow q key (f :: fs))
              = (r :: rs).filter (keepRow q key (f :: fs)) := by
            rw [hpre, List.filter_append, filter_keepRow_none q key _ _ hprenone,
              List.nil_append]
          rw [hsplit]
          cases hsv : skipValues (key r) (f :: fs) with
          | nil =>
            rw [hsv, List.append_nil] at hpre2
            have : ∀ x ∈ r :: rs, key x ∉ f :: fs := by
              intro x hx hmem
              rw [hpre2] at hmem
              exact absurd (hrmin x hx) (Nat.not_le_of_lt (hpre2lt _ hmem))
            rw [filter_keepRow_none q key _ _ this]
            simp [toRows]
          | cons f2 fs2 =>
            dsimp only
            rw [hsv] at hpre2
            have hv2 : (f2 :: fs2).Pairwise (fun a b => a ≤ b) := by
              rw [hpre2] at hvals
              exact (List.pairwise_append.1 hvals).2.1
            have hf2 : key r ≤ f2 := hhead2 f2 fs2 hsv
            have hcongr : (r :: rs).filter (keepRow q key (f :: fs))
                = (r :: rs).filter (keepRow q key (f2 :: fs2)) := by
              apply List.filter_congr
              intro x hx
              have hx' := hrmin x hx
              have : key x ∈ f :: fs ↔ key x ∈ f2 :: fs2 := by
                rw [hpre2, List.mem_append]
                constructor
                · rintro (h | h)
                  · exact absurd hx' (Nat.not_le_of_lt (hpre2lt _ h))
                  · exact h
                · exact fun h => Or.inr h
              simp only [keepRow, this]
            have hlen' : rs.length < fuel := by
              have h1 : (r0 :: rs0).length = pre.length + (rs.length + 1) := by
                rw [hpre]; simp
              omega
            rw [hcongr, ih rs (f2 :: fs2) _ hlen' (List.Pairwise.of_cons hrs) hv2,
              List.filter_cons]
            have hkey : key r ∈ f2 :: fs2 ↔ key r = f2 := by
              constructor
              · intro h
                rcases List.mem_cons.1 h with h | h
                · exact h
                · exact Nat.le_antisymm hf2 (List.rel_of_pairwise_cons hv2 h)
              · intro h; rw [h]; exact List.mem_cons_self _ _
            by_cases hk : key r = f2
            · by_cases hval : validRow q r = true
              · have : keepRow q key (f2 :: fs2) r = true := by
                  simp [keepRow, hkey, hk, hval]
                simp [this, hk, emitIfValid, hval, addRow, toRows]
              · have : keepRow q key (f2 :: fs2) r = false := by
                  simp [keepRow, hval]
                simp [this, hk, emitIfValid, hval, toRows]
            · have : keepRow q key (f2 :: fs2) r = false := by
                simp [keepRow, hkey, hk]
              simp [this, hk, toRows]

/-- C3: without a filter (`posToFilter` null or empty) the arity-2 query adds, in
the order of `twoColumn1`, exactly the rows whose entries agree at every
repeated-variable pair of the descriptor; for `{(1,2),(2,3),(3,1)}` and `p(X,X)`
it adds nothing. -/
theorem query_no_filter (rel : IndexedTupleTable) (q : QSQQuery) (out : TupleTable)
    (vals : List Nat) (h2 : rel.sizeTuple = 2) :
    (∀ pf, pf = none ∨ pf = some [] →
      query rel q out pf vals = .ok (out ++ toRows (rel.twoColumn1.filter
        (fun r => decide (∀ rp ∈ q.repeatedVars, rowAt r rp.1 = rowAt r rp.2))))) ∧
    query relS1 queryXX [] none [] = .ok [] := by
  refine ⟨?_, by decide⟩
  intro pf hpf
  have hf : (fun r => decide (∀ rp ∈ q.repeatedVars, rowAt r rp.1 = rowAt r rp.2))
      = validRow q := by
    funext r
    by_cases h : validRow q r = true
    · rw [h]; exact decide_eq_true ((validRow_iff q r).1 h)
    · have h' : validRow q r = false := by simpa using h
      rw [h']; exact decide_eq_false (fun hh => h ((validRow_iff q r).2 hh))
  rw [hf]
  rcases hpf with rfl | rfl <;> simp [query, h2, scanAll_eq]

/-- Witness for C3: the relation `{(1,2),(2,3),(3,1)}` has arity 2. -/
theorem query_no_filter_witness :
    (∀ pf, pf = none ∨ pf = some [] →
      query relS1 queryXY [] pf [] = .ok ([] ++ toRows (relS1.twoColumn1.filter
        (fun r => decide (∀ rp ∈ queryXY.repeatedVars, rowAt r rp.1 = rowAt r rp.2))))) ∧
    query relS1 queryXX [] none [] = .ok [] :=
  query_no_filter relS1 queryXY [] [] rfl

/-! ## Normalisation of the filter values -/

theorem normalizeLoop_mem (x : Nat) :
    ∀ (rest : List Nat) (prev : Nat) (fv : List Nat) (sorted : Bool), prev ∈ fv →
      (x ∈ (normalizeLoop prev rest fv sorted).1 ↔ x ∈ fv ∨ x ∈ rest) := by
  intro rest
  induction rest with
  | nil => intro prev fv sorted _; simp [normalizeLoop]
  | cons y ys ih =>
    intro prev fv sorted hprev
    unfold normalizeLoop
    by_cases h1 : y < prev
    · rw [if_pos h1, ih y (fv ++ [y]) false (by simp)]
      simp only [List.mem_append, List.mem_singleton, List.mem_cons]
      tauto
    · rw [if_neg h1]
      by_cases h2 : y > prev
      · rw [if_pos h2, ih y (fv ++ [y]) sorted (by simp)]
        simp only [List.mem_append, List.mem_singleton, List.mem_cons]
        tauto
      · rw [if_neg h2]
        have hy : y = prev := Nat.le_antisymm (Nat.le_of_not_lt h2) (Nat.le_of_not_lt h1)
        subst hy
        rw [ih y fv sorted hprev]
        simp only [List.mem_cons]
        constructor
        · rintro (h | h)
          · exact Or.inl h
          · exact Or.inr (Or.inr h)
        · rintro (h | h | h)
          · exact Or.inl h
          · exact Or.inl (h ▸ hprev)
          · exact Or.inr h

theorem normalizeLoop_sorted :
    ∀ (rest : List Nat) (prev : Nat) (fv : List Nat) (sorted : Bool),
      (∀ y ∈ fv, y ≤ prev) → fv.Pairwise (fun a b => a < b) →
      (normalizeLoop prev rest fv sorted).2 = true →
      (normalizeLoop prev rest fv sorted).1.Pairwise (fun a b => a < b) := by
  intro rest
  induction rest with
  | nil => intro prev fv sorted _ hp _; simpa [normalizeLoop] using hp
  | cons y ys ih =>
    intro prev fv sorted hle hp
    unfold normalizeLoop
    by_cases h1 : y < prev
    · rw [if_pos h1]
      intro hs
      exfalso
      have : ∀ (rest : List Nat) (prev : Nat) (fv : List Nat),
          (normalizeLoop prev rest fv false).2 = false := by
        intro rest
        induction rest with
        | nil => intro prev fv; simp [normalizeLoop]
        | cons z zs ihz =>
          intro prev fv
          unfold normalizeLoop
          split_ifs <;> exact ihz _ _
      rw [this] at hs
      exact Bool.false_ne_true hs
    · rw [if_neg h1]
      by_cases h2 : y > prev
      · rw [if_pos h2]
        apply ih
        · intro z hz
          rcases List.mem_append.1 hz with hz | hz
          · exact Nat.le_trans (hle z hz) (Nat.le_of_lt h2)
          · rw [List.mem_singleton.1 hz]
        · rw [List.pairwise_append]
          refine ⟨hp, List.pairwise_singleton _ _, ?_⟩
          intro a ha b hb
          rw [List.mem_singleton.1 hb]
          exact Nat.lt_of_le_of_lt (hle a ha) h2
      · rw [if_neg h2]
        have hy : y = prev := Nat.le_antisymm (Nat.le_of_not_lt h2) (Nat.le_of_not_lt h1)
        subst hy
        exact ih y fv sorted hle hp

theorem sortTerms_sorted (l : List Nat) : (sortTerms l).Pairwise (fun a b => a ≤ b) :=
  List.sorted_insertionSort (fun a b : Nat => a ≤ b) l

theorem mem_sortTerms (x : Nat) (l : List Nat) : x ∈ sortTerms l ↔ x ∈ l :=
  (List.perm_insertionSort (fun a b : Nat => a ≤ b) l).mem_iff

theorem normalizeFilter_mem (x : Nat) (vals : List Nat) :
    x ∈ normalizeFilter vals ↔ x ∈ vals := by
  cases vals with
  | nil => simp [normalizeFilter]
  | cons y ys =>
    have h := normalizeLoop_mem x ys y [y] true (by simp)
    simp only [normalizeFilter]
    split_ifs
    · rw [mem_sortTerms, h]; simp
    · rw [h]; simp

theorem normalizeFilter_sorted (vals : List Nat) :
    (normalizeFilter vals).Pairwise (fun a b => a ≤ b) := by
  cases vals with
  | nil => simp [normalizeFilter]
  | cons y ys =>
    simp only [normalizeFilter]
    split_ifs with hs
    · exact sortTerms_sorted _
    · have hs' : (normalizeLoop y ys [y] true).2 = true := by simpa using hs
      have h := normalizeLoop_sorted ys y [y] true (by simp) (by simp) hs'
      exact h.imp (fun hab => Nat.le_of_lt hab)

theorem sortedBy_ltPair_first {l : List Row} (h : SortedBy ltPair l) :
    l.Pairwise (fun a b => a.1 ≤ b.1) := by
  refine List.Pairwise.imp ?_ h
  intro a b hab
  simp only [ltPair, Bool.or_eq_false_iff, decide_eq_false_iff_not] at hab
  exact Nat.le_of_not_lt hab.1

theorem sortedBy_ltSecond_second {l : List Row} (h : SortedBy ltSecond l) :
    l.Pairwise (fun a b => a.2 ≤ b.2) := by
  refine List.Pairwise.imp ?_ h
  intro a b hab
  simp only [ltSecond, Bool.or_eq_false_iff, decide_eq_false_iff_not] at hab
  exact Nat.le_of_not_lt hab.1

theorem decide_repeated_eq (q : QSQQuery) (r : Row) :
    decide (∀ rp ∈ q.repeatedVars, rowAt r rp.1 = rowAt r rp.2) = validRow q r := by
  by_cases h : validRow q r = true
  · rw [h]; exact decide_eq_true ((validRow_iff q r).1 h)
  · have h' : validRow q r = false := by simpa using h
    rw [h']; exact decide_eq_false (fun hh => h ((validRow_iff q r).2 hh))

theorem query_one_eq (rel : IndexedTupleTable) (q : QSQQuery) (out : TupleTable)
    (p : Nat) (vals : List Nat) (h2 : rel.sizeTuple = 2) (hp : p = 0 ∨ p = 1)
    (hs1 : SortedBy ltPair rel.twoColumn1) (hs2 : SortedBy ltSecond rel.twoColumn2) :
    query rel q out (some [p]) vals
      = .ok (out ++ toRows ((if p = 0 then rel.twoColumn1 else rel.twoColumn2).filter
          (fun r => decide (rowAt r p ∈ vals) &&
            decide (∀ rp ∈ q.repeatedVars, rowAt r rp.1 = rowAt r rp.2)))) := by
  rcases hp with rfl | rfl
  · have hm := mergeLoop_eq q (fun r => r.1) (rel.twoColumn1.length + 1) rel.twoColumn1
      (normalizeFilter vals) out (Nat.lt_succ_self _) (sortedBy_ltPair_first hs1)
      (normalizeFilter_sorted vals)
    simp only [query, h2, if_true, hm]
    simp only [Nat.succ_ne_self, if_false, if_true]
    congr 4
    funext r
    rw [decide_repeated_eq q r]
    simp [keepRow, normalizeFilter_mem, rowAt]
  · have hm := mergeLoop_eq q (fun r => r.2) (rel.twoColumn2.length + 1) rel.twoColumn2
      (normalizeFilter vals) out (Nat.lt_succ_self _) (sortedBy_ltSecond_second hs2)
      (normalizeFilter_sorted vals)
    simp only [query, h2, if_true, hm]
    simp only [Nat.succ_ne_self, if_false, if_true]
    congr 4
    funext r
    rw [decide_repeated_eq q r]
    simp [keepRow, normalizeFilter_mem, rowAt]

/-- C2: with a filter on one position `p` the arity-2 query adds exactly the rows
of the chosen index (`twoColumn1` for `p = 0`, `twoColumn2` for `p = 1`) whose
column `p` is one of the filter values and that pass the repeated-variable
check, in the order of that index and each row once; for `{(1,2),(2,3),(3,1)}`,
`p = 0` and values `[3,1]` it adds `(1,2),(3,1)`. -/
theorem query_one_position (rel : IndexedTupleTable) (q : QSQQuery) (out : TupleTable)
    (p : Nat) (vals : List Nat) (h2 : rel.sizeTuple = 2) (hp : p = 0 ∨ p = 1)
    (hs1 : SortedBy ltPair rel.twoColumn1) (hs2 : SortedBy ltSecond rel.twoColumn2) :
    query rel q out (some [p]) vals
      = .ok (out ++ toRows ((if p = 0 then rel.twoColumn1 else rel.twoColumn2).filter
          (fun r => decide (rowAt r p ∈ vals) &&
            decide (∀ rp ∈ q.repeatedVars, rowAt r rp.1 = rowAt r rp.2)))) ∧
    query relS1 queryXY [] (some [0]) [3, 1] = .ok [[1, 2], [3, 1]] :=
  ⟨query_one_eq rel q out p vals h2 hp hs1 hs2, by decide⟩

/-! ## Binary searches -/

theorem lowerBoundLoop_eq {α : Type} (lt : α → α → Bool) (v : List α) (val : α) :
    ∀ fuel first len,
      lowerBoundLoop lt v val fuel first len = partitionLoop (fun x => lt x val) v fuel first len := by
  intro fuel
  induction fuel with
  | zero => intro first len; rfl
  | succ fuel ih =>
    intro first len
    simp only [lowerBoundLoop, partitionLoop]
    split_ifs with h
    · rfl
    · cases v[first + len / 2]? with
      | none => rfl
      | some x => simp only [ih]

theorem upperBoundLoop_eq {α : Type} (lt : α → α → Bool) (v : List α) (val : α) :
    ∀ fuel first len,
      upperBoundLoop lt v val fuel first len
        = partitionLoop (fun x => !(lt val x)) v fuel first len := by
  intro fuel
  induction fuel with
  | zero => intro first len; rfl
  | succ fuel ih =>
    intro first len
    simp only [upperBoundLoop, partitionLoop]
    split_ifs with h
    · rfl
    · cases v[first + len / 2]? with
      | none => rfl
      | some x =>
        simp only [ih]
        by_cases hx : lt val x = true
        · simp [hx]
        · simp [hx]

theorem partitionLoop_spec {α : Type} (P : α → Bool) (v : List α) (hmono : Partitioned P v) :
    ∀ fuel first len, len ≤ fuel → first + len ≤ v.length →
      first ≤ partitionLoop P v fuel first len ∧
      partitionLoop P v fuel first len ≤ first + len ∧
      (∀ i x, first ≤ i → i < partitionLoop P v fuel first len → v[i]? = some x → P x = true) ∧
      (∀ i x, partitionLoop P v fuel first len ≤ i → i < first + len → v[i]? = some x →
        P x = false) := by
  intro fuel
  induction fuel with
  | zero =>
    intro first len hlen _
    have : len = 0 := Nat.le_zero.1 hlen
    subst this
    refine ⟨Nat.le_refl _, Nat.le_refl _, ?_, ?_⟩
    · intro i x h1 h2; simp only [partitionLoop] at h2; omega
    · intro i x h1 h2; simp only [partitionLoop] at h1; omega
  | succ fuel ih =>
    intro first len hlen hbound
    by_cases h0 : len = 0
    · subst h0
      simp only [partitionLoop, if_true]
      refine ⟨Nat.le_refl _, Nat.le_refl _, ?_, ?_⟩
      · intro i x h1 h2; omega
      · intro i x h1 h2; omega
    · have hhalf : len / 2 < len := Nat.div_lt_self (Nat.pos_of_ne_zero h0) (by decide)
      have hmid : first + len / 2 < v.length := by omega
      simp only [partitionLoop, if_neg h0, List.getElem?_eq_getElem hmid]
      have hget : v[first + len / 2]? = some v[first + len / 2] := List.getElem?_eq_getElem hmid
      by_cases hP : P v[first + len / 2] = true
      · rw [if_pos hP]
        obtain ⟨h1, h2, h3, h4⟩ := ih (first + len / 2 + 1) (len - len / 2 - 1)
          (by omega) (by omega)
        refine ⟨by omega, by omega, ?_, ?_⟩
        · intro i x hi1 hi2 hx
          by_cases hi : i ≤ first + len / 2
          · exact hmono i _ x _ hi hx hget hP
          · exact h3 i x (by omega) hi2 hx
        · intro i x hi1 hi2 hx
          exact h4 i x hi1 (by omega) hx
      · rw [if_neg hP]
        obtain ⟨h1, h2, h3, h4⟩ := ih first (len / 2) (by omega) (by omega)
        refine ⟨h1, by omega, h3, ?_⟩
        intro i x hi1 hi2 hx
        by_cases hi : i < first + len / 2
        · exact h4 i x hi1 hi hx
        · cases hPx : P x with
          | false => rfl
          | true => exact absurd (hmono _ i _ x (by omega) hget hx hPx) hP

/-! ## Correctness of the binary searches on sorted vectors -/

theorem ltPair_iff (a b : Row) :
    ltPair a b = true ↔ a.1 < b.1 ∨ (a.1 = b.1 ∧ a.2 < b.2) := by
  simp [ltPair]

theorem ltPair_eq_false_iff (a b : Row) :
    ltPair a b = false ↔ b.1 < a.1 ∨ (b.1 = a.1 ∧ b.2 ≤ a.2) := by
  rw [← Bool.not_eq_true, ltPair_iff]
  omega

theorem ltSecond_iff (a b : Row) :
    ltSecond a b = true ↔ a.2 < b.2 ∨ (a.2 = b.2 ∧ a.1 < b.1) := by
  simp [ltSecond]

theorem ltSecond_eq_false_iff (a b : Row) :
    ltSecond a b = false ↔ b.2 < a.2 ∨ (b.2 = a.2 ∧ b.1 ≤ a.1) := by
  rw [← Bool.not_eq_true, ltSecond_iff]
  omega

theorem sortedBy_getElem {lt : Row → Row → Bool} {v : List Row} (h : SortedBy lt v)
    (hrefl : ∀ a, lt a a = false) (i j : Nat) (x y : Row) (hij : i ≤ j)
    (hx : v[i]? = some x) (hy : v[j]? = some y) : lt y x = false := by
  obtain ⟨hi, rfl⟩ := List.getElem?_eq_some.1 hx
  obtain ⟨hj, rfl⟩ := List.getElem?_eq_some.1 hy
  rcases Nat.lt_or_eq_of_le hij with hlt | rfl
  · exact (List.pairwise_iff_getElem.1 h) i j hi hj hlt
  · exact hrefl _

theorem ltPair_irrefl (a : Row) : ltPair a a = false := by
  rw [ltPair_eq_false_iff]; omega

theorem ltSecond_irrefl (a : Row) : ltSecond a a = false := by
  rw [ltSecond_eq_false_iff]; omega

theorem partitioned_lower {lt : Row → Row → Bool} {v : List Row} (h : SortedBy lt v)
    (hrefl : ∀ a, lt a a = false)
    (htrans : ∀ a b c, lt b a = false → lt b c = true → lt a c = true) (val : Row) :
    Partitioned (fun x => lt x val) v := by
  intro i j x y hij hx hy hP
  exact htrans x y val (sortedBy_getElem h hrefl i j x y hij hx hy) hP

theorem partitioned_upper {lt : Row → Row → Bool} {v : List Row} (h : SortedBy lt v)
    (hrefl : ∀ a, lt a a = false)
    (htrans : ∀ a b c, lt b a = false → lt c a = true → lt c b = true) (val : Row) :
    Partitioned (fun x => !(lt val x)) v := by
  intro i j x y hij hx hy hP
  have hyx := sortedBy_getElem h hrefl i j x y hij hx hy
  cases hvx : lt val x with
  | false => simp [hvx]
  | true =>
    have := htrans x y val hyx hvx
    simp [this] at hP

theorem ltPair_trans_left (a b c : Row) (h1 : ltPair b a = false) (h2 : ltPair b c = true) :
    ltPair a c = true := by
  rw [ltPair_eq_false_iff] at h1
  rw [ltPair_iff] at h2 ⊢
  omega

theorem ltPair_trans_right (a b c : Row) (h1 : ltPair b a = false) (h2 : ltPair c a = true) :
    ltPair c b = true := by
  rw [ltPair_eq_false_iff] at h1
  rw [ltPair_iff] at h2 ⊢
  omega

theorem ltSecond_trans_left (a b c : Row) (h1 : ltSecond b a = false)
    (h2 : ltSecond b c = true) : ltSecond a c = true := by
  rw [ltSecond_eq_false_iff] at h1
  rw [ltSecond_iff] at h2 ⊢
  omega

theorem ltSecond_trans_right (a b c : Row) (h1 : ltSecond b a = false)
    (h2 : ltSecond c a = true) : ltSecond c b = true := by
  rw [ltSecond_eq_false_iff] at h1
  rw [ltSecond_iff] at h2 ⊢
  omega

theorem lower_bound_spec {α : Type} (lt : α → α → Bool) (v : List α) (val : α)
    (hmono : Partitioned (fun x => lt x val) v) (first last : Nat) (h1 : first ≤ last)
    (h2 : last ≤ v.length) :
    first ≤ lower_bound lt v first last val ∧ lower_bound lt v first last val ≤ last ∧
    (∀ i x, first ≤ i → i < lower_bound lt v first last val → v[i]? = some x →
      lt x val = true) ∧
    (∀ i x, lower_bound lt v first last val ≤ i → i < last → v[i]? = some x →
      lt x val = false) := by
  have h := partitionLoop_spec (fun x => lt x val) v hmono (last - first) first (last - first)
    (Nat.le_refl _) (by omega)
  have e : first + (last - first) = last := by omega
  rw [e] at h
  unfold lower_bound
  rw [lowerBoundLoop_eq]
  exact h

theorem upper_bound_spec {α : Type} (lt : α → α → Bool) (v : List α) (val : α)
    (hmono : Partitioned (fun x => !(lt val x)) v) (first last : Nat) (h1 : first ≤ last)
    (h2 : last ≤ v.length) :
    first ≤ upper_bound lt v first last val ∧ upper_bound lt v first last val ≤ last ∧
    (∀ i x, first ≤ i → i < upper_bound lt v first last val → v[i]? = some x →
      lt val x = false) ∧
    (∀ i x, upper_bound lt v first last val ≤ i → i < last → v[i]? = some x →
      lt val x = true) := by
  have h := partitionLoop_spec (fun x => !(lt val x)) v hmono (last - first) first
    (last - first) (Nat.le_refl _) (by omega)
  have e : first + (last - first) = last := by omega
  rw [e] at h
  unfold upper_bound
  rw [upperBoundLoop_eq]
  obtain ⟨a, b, c, d⟩ := h
  refine ⟨a, b, ?_, ?_⟩
  · intro i x hi1 hi2 hx
    have := c i x hi1 hi2 hx
    simpa using this
  · intro i x hi1 hi2 hx
    have := d i x hi1 hi2 hx
    simpa using this

theorem binary_search_ltPair (v : List Row) (val : Row) (h : SortedBy ltPair v) :
    binary_search ltPair v val = decide (val ∈ v) := by
  obtain ⟨_, hk2, hk3, hk4⟩ := lower_bound_spec ltPair v val
    (partitioned_lower h ltPair_irrefl ltPair_trans_left val) 0 v.length (Nat.zero_le _)
    (Nat.le_refl _)
  unfold binary_search
  generalize lower_bound ltPair v 0 v.length val = k at *
  dsimp only
  by_cases hmem : val ∈ v
  · rw [decide_eq_true hmem]
    obtain ⟨j, hj⟩ := List.mem_iff_getElem?.1 hmem
    have hjlen : j < v.length := (List.getElem?_eq_some.1 hj).1
    have hkj : k ≤ j := by
      by_contra hc
      have := hk3 j val (Nat.zero_le _) (by omega) hj
      rw [ltPair_irrefl] at this
      exact Bool.false_ne_true this
    have hklen : k < v.length := by omega
    have := sortedBy_getElem h ltPair_irrefl k j _ val hkj (List.getElem?_eq_getElem hklen) hj
    rw [List.getElem?_eq_getElem hklen]
    simp [this]
  · rw [decide_eq_false hmem]
    cases hx : v[k]? with
    | none => rfl
    | some x =>
      have hklen : k < v.length := (List.getElem?_eq_some.1 hx).1
      have h1 := hk4 k x (Nat.le_refl _) hklen hx
      cases h2 : ltPair val x with
      | true => simp [h2]
      | false =>
        exfalso
        apply hmem
        have hxv : x = val := by
          rw [ltPair_eq_false_iff] at h1 h2
          apply Prod.ext <;> omega
        rw [← hxv]
        exact List.mem_iff_getElem?.2 ⟨k, hx⟩

theorem searchPairs_eq (q : QSQQuery) (pairs : List Row) (hs : SortedBy ltPair pairs) :
    ∀ (fv : List Row) (out : TupleTable),
      searchPairs q pairs fv out
        = out ++ toRows (fv.filter (fun f => decide (f ∈ pairs) && validRow q f)) := by
  intro fv
  induction fv with
  | nil => intro out; simp [searchPairs, toRows]
  | cons f fs ih =>
    intro out
    rw [searchPairs, ih, binary_search_ltPair pairs f hs, List.filter_cons]
    by_cases hm : f ∈ pairs
    · by_cases hv : validRow q f = true
      · simp [hm, hv, emitIfValid, addRow, toRows]
      · simp [hm, hv, emitIfValid, toRows]
    · simp [hm, toRows]

/-! ## Normalisation of the filter pairs -/

theorem list_two_step {P : List Nat → Prop} (h0 : P []) (h1 : ∀ a, P [a])
    (h2 : ∀ a b rest, P rest → P (a :: b :: rest)) : ∀ l, P l := by
  intro l
  have : P l ∧ ∀ a, P (a :: l) := by
    induction l with
    | nil => exact ⟨h0, h1⟩
    | cons b rest ih => exact ⟨ih.2 b, fun a => h2 a b rest ih.1⟩
  exact this.1

theorem mem_pairsOf (x : Row) (vals : List Nat) :
    x ∈ pairsOf vals ↔ ∃ k, vals[2 * k]? = some x.1 ∧ vals[2 * k + 1]? = some x.2 := by
  induction vals using list_two_step with
  | h0 => simp [pairsOf]
  | h1 a =>
    simp only [pairsOf, List.not_mem_nil, false_iff, not_exists, not_and]
    intro k _ h
    have := (List.getElem?_eq_some.1 h).1
    simp at this
  | h2 a b rest ih =>
    simp only [pairsOf, List.mem_cons, ih]
    constructor
    · rintro (h | ⟨k, hk1, hk2⟩)
      · exact ⟨0, by simp [h]⟩
      · refine ⟨k + 1, ?_, ?_⟩
        · rw [show 2 * (k + 1) = 2 * k + 1 + 1 by omega]
          simpa using hk1
        · rw [show 2 * (k + 1) + 1 = 2 * k + 1 + 1 + 1 by omega]
          simpa using hk2
    · rintro ⟨k, hk1, hk2⟩
      cases k with
      | zero =>
        left
        simp at hk1 hk2
        exact Prod.ext hk1.symm hk2.symm
      | succ k =>
        right
        refine ⟨k, ?_, ?_⟩
        · rw [show 2 * (k + 1) = 2 * k + 1 + 1 by omega] at hk1
          simpa using hk1
        · rw [show 2 * (k + 1) + 1 = 2 * k + 1 + 1 + 1 by omega] at hk2
          simpa using hk2

theorem pairLoop_false (rest : List Nat) :
    ∀ (p1 p2 : Nat) (fv : List Row) (r : List Row × Bool),
      pairLoop p1 p2 rest fv false = .ok r → r.2 = false := by
  induction rest using list_two_step with
  | h0 => intro p1 p2 fv r h; simp only [pairLoop, Except.ok.injEq] at h; rw [← h]
  | h1 a => intro p1 p2 fv r h; simp [pairLoop] at h
  | h2 a b rest ih =>
    intro p1 p2 fv r h
    simp only [pairLoop, Bool.false_and, Bool.false_eq_true, if_false] at h
    exact ih _ _ _ _ h

theorem pairLoop_spec (rest : List Nat) :
    ∀ (p1 p2 : Nat) (fv : List Row) (sorted : Bool), rest.length % 2 = 0 →
      ∃ r, pairLoop p1 p2 rest fv sorted = .ok r ∧
        (∀ x, x ∈ r.1 ↔ x ∈ fv ∨ x ∈ pairsOf rest) ∧
        (r.2 = true → (∀ y ∈ fv, ltPair (p1, p2) y = false) → SortedBy ltPair fv →
          SortedBy ltPair r.1) := by
  induction rest using list_two_step with
  | h0 =>
    intro p1 p2 fv sorted _
    exact ⟨(fv, sorted), rfl, by simp [pairsOf], fun _ _ h => h⟩
  | h1 a => intro p1 p2 fv sorted h; simp at h
  | h2 a b rest ih =>
    intro p1 p2 fv sorted hlen
    have hlen' : rest.length % 2 = 0 := by
      simp only [List.length_cons] at hlen; omega
    have hmem : ∀ (x : Row) (l : List Row),
        (x ∈ l ↔ x ∈ fv ++ [(a, b)] ∨ x ∈ pairsOf rest) →
        (x ∈ l ↔ x ∈ fv ∨ x ∈ pairsOf (a :: b :: rest)) := by
      intro x l h
      rw [h]
      simp only [pairsOf, List.mem_append, List.mem_singleton, List.mem_cons]
      tauto
    by_cases hc : (sorted && ltPair (a, b) (p1, p2)) = true
    · obtain ⟨r, hr, hr1, _⟩ := ih p1 p2 (fv ++ [(a, b)]) false hlen'
      refine ⟨r, ?_, fun x => hmem x _ (hr1 x), ?_⟩
      · have : pairLoop p1 p2 (a :: b :: rest) fv sorted
            = pairLoop p1 p2 rest (fv ++ [(a, b)]) false := by
          simp only [pairLoop]
          exact if_pos hc
        rw [this, hr]
      · intro h
        rw [pairLoop_false rest _ _ _ r hr] at h
        exact absurd h Bool.false_ne_true
    · obtain ⟨r, hr, hr1, hr2⟩ := ih a b (fv ++ [(a, b)]) sorted hlen'
      refine ⟨r, ?_, fun x => hmem x _ (hr1 x), ?_⟩
      · have : pairLoop p1 p2 (a :: b :: rest) fv sorted
            = pairLoop a b rest (fv ++ [(a, b)]) sorted := by
          simp only [pairLoop]
          exact if_neg hc
        rw [this, hr]
      · intro h hle hs
        have hsorted : sorted = true := by
          cases sorted with
          | true => rfl
          | false => rw [pairLoop_false rest _ _ _ r hr] at h; exact absurd h Bool.false_ne_true
        have hab : ltPair (a, b) (p1, p2) = false := by
          simpa [hsorted] using hc
        have hall : ∀ y ∈ fv, ltPair (a, b) y = false := by
          intro y hy
          exact ltPair_isTrans.trans y (p1, p2) (a, b) (hle y hy) hab
        apply hr2 h
        · intro y hy
          rcases List.mem_append.1 hy with hy | hy
          · exact hall y hy
          · rw [List.mem_singleton.1 hy]; exact ltPair_irrefl _
        · unfold SortedBy
          rw [List.pairwise_append]
          refine ⟨hs, List.pairwise_singleton _ _, ?_⟩
          intro x hx y hy
          rw [List.mem_singleton.1 hy]
          exact hall x hx

theorem sortPairs_sorted (l : List Row) : SortedBy ltPair (sortPairs l) :=
  List.sorted_insertionSort (fun a b : Row => ltPair b a = false) l

theorem mem_sortPairs (x : Row) (l : List Row) : x ∈ sortPairs l ↔ x ∈ l :=
  (List.perm_insertionSort (fun a b : Row => ltPair b a = false) l).mem_iff

theorem normalizePairs_spec (vals : List Nat) (heven : vals.length % 2 = 0) :
    ∃ fv, normalizePairs vals = .ok fv ∧ SortedBy ltPair fv ∧
      ∀ x, x ∈ fv ↔ x ∈ pairsOf vals := by
  match vals, heven with
  | [], _ => exact ⟨[], rfl, List.Pairwise.nil, fun x => by simp [pairsOf]⟩
  | [a], h => simp at h
  | a :: b :: rest, h =>
    have hlen' : rest.length % 2 = 0 := by
      simp only [List.length_cons] at h; omega
    obtain ⟨r, hr, hr1, hr2⟩ := pairLoop_spec rest a b [(a, b)] true hlen'
    simp only [normalizePairs, hr]
    refine ⟨_, rfl, ?_, ?_⟩
    · by_cases hs : r.2 = true
      · simp only [hs, Bool.not_true, Bool.false_eq_true, if_false]
        apply hr2 hs
        · intro y hy
          rw [List.mem_singleton.1 hy]; exact ltPair_irrefl _
        · exact List.pairwise_singleton _ _
      · have : r.2 = false := by simpa using hs
        simp only [this, Bool.not_false, if_true]
        exact sortPairs_sorted _
    · intro x
      have hx : x ∈ r.1 ↔ x ∈ pairsOf (a :: b :: rest) := by
        rw [hr1 x]; simp [pairsOf]
      split_ifs
      · rw [mem_sortPairs, hx]
      · exact hx

/-! ## The filter on both positions -/

theorem query_pairs_eq (rel : IndexedTupleTable) (q : QSQQuery) (out : TupleTable)
    (vals : List Nat) (h2 : rel.sizeTuple = 2) (hs1 : SortedBy ltPair rel.twoColumn1)
    (heven : vals.length % 2 = 0) :
    ∃ fv, normalizePairs vals = .ok fv ∧ SortedBy ltPair fv ∧
      (∀ x, x ∈ fv ↔ x ∈ pairsOf vals) ∧
      query rel q out (some [0, 1]) vals = .ok (out ++ toRows
        (fv.filter (fun f => decide (f ∈ rel.twoColumn1) && validRow q f))) := by
  obtain ⟨fv, hfv, hsorted, hmem⟩ := normalizePairs_spec vals heven
  refine ⟨fv, hfv, hsorted, hmem, ?_⟩
  simp only [query, h2, hfv, if_true]
  simp only [Nat.succ_ne_self, if_false, if_true]
  rw [searchPairs_eq q _ hs1]

/-- C4: with the both-position filter `posToFilter = [0,1]` and an even number of
filter values, the rows added by the arity-2 query are, as a set, the pairs
`(valuesToFilter[2k], valuesToFilter[2k+1])` that are rows of the relation and
pass the repeated-variable check, and they are added in ascending
(first, second) order. -/
theorem query_both_positions (rel : IndexedTupleTable) (q : QSQQuery) (out : TupleTable)
    (vals : List Nat) (h2 : rel.sizeTuple = 2) (hs1 : SortedBy ltPair rel.twoColumn1)
    (heven : vals.length % 2 = 0) :
    ∃ emitted : List Row,
      query rel q out (some [0, 1]) vals = .ok (out ++ toRows emitted) ∧
      (∀ r, r ∈ emitted ↔
        (∃ k, vals[2 * k]? = some r.1 ∧ vals[2 * k + 1]? = some r.2) ∧
        r ∈ rel.twoColumn1 ∧ ∀ rp ∈ q.repeatedVars, rowAt r rp.1 = rowAt r rp.2) ∧
      emitted.Pairwise (fun a b => a.1 < b.1 ∨ (a.1 = b.1 ∧ a.2 ≤ b.2)) := by
  obtain ⟨fv, _, hsorted, hmem, hq⟩ := query_pairs_eq rel q out vals h2 hs1 heven
  refine ⟨_, hq, ?_, ?_⟩
  · intro r
    rw [List.mem_filter, hmem, mem_pairsOf, Bool.and_eq_true, decide_eq_true_iff,
      validRow_iff]
  · apply List.Pairwise.sublist (List.filter_sublist _)
    refine List.Pairwise.imp ?_ hsorted
    intro a b hab
    exact (ltPair_eq_false_iff b a).1 hab

/-- Witness for C4: the relation `{(1,2),(2,3),(3,1)}` filtered by the pairs
`(3,1)`, `(1,2)`, `(3,1)`. -/
theorem query_both_positions_witness :
    ∃ emitted : List Row,
      query relS1 queryXY [] (some [0, 1]) [3, 1, 1, 2, 3, 1] = .ok ([] ++ toRows emitted) ∧
      (∀ r, r ∈ emitted ↔
        (∃ k, [3, 1, 1, 2, 3, 1][2 * k]? = some r.1 ∧
          [3, 1, 1, 2, 3, 1][2 * k + 1]? = some r.2) ∧
        r ∈ relS1.twoColumn1 ∧ ∀ rp ∈ queryXY.repeatedVars, rowAt r rp.1 = rowAt r rp.2) ∧
      emitted.Pairwise (fun a b => a.1 < b.1 ∨ (a.1 = b.1 ∧ a.2 ≤ b.2)) :=
  query_both_positions relS1 queryXY [] [3, 1, 1, 2, 3, 1] rfl (by decide) (by decide)

/-- Witness for C2: the relation `{(1,2),(2,3),(3,1)}` filtered on position 1. -/
theorem query_one_position_witness :
    query relS1 queryXY [] (some [1]) [3, 1, 1]
      = .ok ([] ++ toRows ((if 1 = 0 then relS1.twoColumn1 else relS1.twoColumn2).filter
          (fun r => decide (rowAt r 1 ∈ [3, 1, 1]) &&
            decide (∀ rp ∈ queryXY.repeatedVars, rowAt r rp.1 = rowAt r rp.2)))) ∧
    query relS1 queryXY [] (some [0]) [3, 1] = .ok [[1, 2], [3, 1]] :=
  query_one_position relS1 queryXY [] 1 [3, 1, 1] rfl (Or.inr rfl) (by decide) (by decide)

/-- C5: with `posToFilter = [1,0]` the query searches `twoColumn2` with the order
of `twoColumn1` and reads each filter pair as a row: on `{(1,2),(2,3),(3,1)}` the
pair "column 1 is 2, column 0 is 1" does not find the row `(1,2)`, and the pair
`(1,2)` read as a row is missed as well. -/
theorem query_inverted_pairs_miss :
    query relS1 queryXY [] (some [1, 0]) [2, 1] = .ok [] ∧
    query relS1 queryXY [] (some [1, 0]) [1, 2] = .ok [] ∧
    (1, 2) ∈ relS1.twoColumn1 := by decide

/-- C6: the both-position filter keeps duplicate filter pairs: the pair `(1,2)`
given twice makes the row `(1,2)` be added twice. -/
theorem query_pairs_keep_duplicates :
    query relS1 queryXY [] (some [0, 1]) [1, 2, 1, 2] = .ok [[1, 2], [1, 2]] := by decide

/-! ## The rows added by the query -/

theorem repeatedEq_pair (pred : Nat) (t0 t1 : VTerm) (r : Row) :
    repeatedEq ⟨pred, [t0, t1]⟩ r ↔
      (t0.isVariable = true → t1.isVariable = true → t0.id = t1.id → r.1 = r.2) := by
  constructor
  · intro h a b c
    exact h 0 1 t0 t1 (by decide) rfl rfl a b c
  · intro h i j ti tj hij hi hj a b c
    have hjlt : j < 2 := (List.getElem?_eq_some.1 hj).1
    have hi0 : i = 0 := by omega
    have hj1 : j = 1 := by omega
    subst hi0 hj1
    simp only [List.getElem?_cons_zero, List.getElem?_cons_succ, Option.some.injEq] at hi hj
    subst hi hj
    exact h a b c

theorem validRow_ofLiteral (l : Literal) (hl : l.tuple.length = 2) (r : Row) :
    validRow (QSQQuery.ofLiteral l) r = true ↔ repeatedEq l r := by
  obtain ⟨pred, tuple⟩ := l
  match tuple, hl with
  | [t0, t1], _ =>
    rw [repeatedEq_pair]
    by_cases h0 : t0.isVariable = true
    · by_cases h1 : t1.isVariable = true
      · by_cases hid : t1.id = t0.id
        · simp [QSQQuery.ofLiteral, qsqLoop, qsqStep, validRow, validLoop, rowAt, h0, h1, hid]
        · have hid' : ¬ t0.id = t1.id := fun h => hid h.symm
          simp [QSQQuery.ofLiteral, qsqLoop, qsqStep, validRow, validLoop, h0, h1, hid, hid']
      · simp [QSQQuery.ofLiteral, qsqLoop, qsqStep, validRow, validLoop, h0, h1]
    · by_cases h1 : t1.isVariable = true
      · simp [QSQQuery.ofLiteral, qsqLoop, qsqStep, validRow, validLoop, h0, h1]
      · simp [QSQQuery.ofLiteral, qsqLoop, qsqStep, validRow, validLoop, h0, h1]

/-- C1: for `{(1,2),(2,3),(3,1)}` and the literal `p(1,Y)` the query without a
filter adds all three rows, also `(2,3)`, which does not match the constant 1 of
the literal, while `getIterator`, `getSortedIterator` and `getCardinality` bind
the constant and yield or count the one row `(1,2)`; for `p(5,Y)`, `isEmpty`
answers true and the query adds the three rows. -/
theorem query_ignores_constants :
    query relS1 (QSQQuery.ofLiteral literalOneY) [] none [] = .ok [[1, 2], [2, 3], [3, 1]] ∧
    ¬ matchesConstants literalOneY (2, 3) ∧
    (getIterator blankIterator relS1 literalOneY).map (drain 4) = .ok (some (.ok [(1, 2)])) ∧
    (getSortedIterator blankIterator relS1 literalOneY [0]).map (drain 4)
      = .ok (some (.ok [(1, 2)])) ∧
    getCardinality blankIterator relS1 literalOneY = some (.ok 1) ∧
    isEmpty relS1 literalFiveY none [] = .ok true ∧
    query relS1 (QSQQuery.ofLiteral literalFiveY) [] none []
      = .ok [[1, 2], [2, 3], [3, 1]] := by
  refine ⟨by decide, ?_, by decide, by decide, by decide, by decide, by decide⟩
  intro h
  have := h 0 (VTerm.const 1) rfl rfl
  simp [rowAt, VTerm.const] at this

/-- The rows that `query` adds: for an arity-2 relation with sorted indexes and a
literal of arity 2, without a filter, with a filter on position 0 or on position
1, or with the filter `[0,1]` and an even number of values, the query adds
exactly the rows of the relation that satisfy every repeated-variable equality
of the literal and lie in the filter; the constants of the literal are not
compared. -/
theorem query_exact_rows (rel : IndexedTupleTable) (l : Literal) (out : TupleTable)
    (pf : Option (List Nat)) (vals : List Nat) (h2 : rel.sizeTuple = 2)
    (hwf : rel.WellFormed) (hl : l.tuple.length = 2)
    (hpf : pf = none ∨ pf = some [] ∨ pf = some [0] ∨ pf = some [1] ∨
      (pf = some [0, 1] ∧ vals.length % 2 = 0)) :
    ∃ emitted : List Row,
      query rel (QSQQuery.ofLiteral l) out pf vals = .ok (out ++ toRows emitted) ∧
      ∀ r, r ∈ emitted ↔ r ∈ rel.twoColumn1 ∧ repeatedEq l r ∧ inFilter pf vals r := by
  have hscan : query rel (QSQQuery.ofLiteral l) out none vals
      = .ok (out ++ toRows (rel.twoColumn1.filter (validRow (QSQQuery.ofLiteral l)))) := by
    simp [query, h2, scanAll_eq]
  have hscan' : query rel (QSQQuery.ofLiteral l) out (some []) vals
      = .ok (out ++ toRows (rel.twoColumn1.filter (validRow (QSQQuery.ofLiteral l)))) := by
    simp [query, h2, scanAll_eq]
  rcases hpf with rfl | rfl | rfl | rfl | ⟨rfl, heven⟩
  · refine ⟨_, hscan, fun r => ?_⟩
    rw [List.mem_filter, validRow_ofLiteral l hl]
    simp [inFilter]
  · refine ⟨_, hscan', fun r => ?_⟩
    rw [List.mem_filter, validRow_ofLiteral l hl]
    simp [inFilter]
  · refine ⟨_, query_one_eq rel _ out 0 vals h2 (Or.inl rfl) hwf.sorted1
      hwf.sorted2, fun r => ?_⟩
    rw [if_pos rfl, List.mem_filter, Bool.and_eq_true, decide_eq_true_iff,
      decide_repeated_eq, validRow_ofLiteral l hl]
    simp only [inFilter]
    tauto
  · refine ⟨_, query_one_eq rel _ out 1 vals h2 (Or.inr rfl) hwf.sorted1
      hwf.sorted2, fun r => ?_⟩
    rw [if_neg (by decide), List.mem_filter, Bool.and_eq_true, decide_eq_true_iff,
      decide_repeated_eq, validRow_ofLiteral l hl, hwf.perm.mem_iff]
    simp only [inFilter]
    tauto
  · obtain ⟨fv, _, _, hmem, hq⟩ := query_pairs_eq rel (QSQQuery.ofLiteral l) out
      vals h2 hwf.sorted1 heven
    refine ⟨_, hq, fun r => ?_⟩
    rw [List.mem_filter, hmem, mem_pairsOf, Bool.and_eq_true, decide_eq_true_iff,
      validRow_ofLiteral l hl]
    simp only [inFilter, rowAt]
    simp only [if_true, Nat.succ_ne_zero, if_false]
    tauto

/-- An instance of `query_exact_rows`: the relation `{(1,2),(2,3),(3,1)}`, the
literal `p(1,Y)` and a filter on position 1. -/
theorem query_exact_rows_witness :
    ∃ emitted : List Row,
      query relS1 (QSQQuery.ofLiteral literalOneY) [] (some [1]) [3, 2]
        = .ok ([] ++ toRows emitted) ∧
      ∀ r, r ∈ emitted ↔
        r ∈ relS1.twoColumn1 ∧ repeatedEq literalOneY r ∧ inFilter (some [1]) [3, 2] r :=
  query_exact_rows relS1 literalOneY [] (some [1]) [3, 2] rfl
    ⟨by decide, by decide, by decide⟩ rfl (Or.inr (Or.inr (Or.inr (Or.inl rfl))))

/-! ## Plain iteration over a range of the index -/

theorem take_drop_step (v : List Row) (i hi : Nat) (h1 : i < hi) (h3 : i < v.length) :
    (v.drop i).take (hi - i) = v[i] :: (v.drop (i + 1)).take (hi - (i + 1)) := by
  rw [List.drop_eq_getElem_cons h3]
  have : hi - i = (hi - (i + 1)) + 1 := by omega
  rw [this, List.take_succ_cons]

theorem drain_plain_rest :
    ∀ (fuel : Nat) (s : EDBMemIterator), s.equalFields = false →
      s.ignoreSecondColumn = false → s.nfields = 2 → s.isFirst = false →
      s.twoColumns < s.endTwoColumns → s.endTwoColumns ≤ s.pairs.length →
      s.endTwoColumns - s.twoColumns ≤ fuel →
      drain fuel s = some (.ok ((s.pairs.drop (s.twoColumns + 1)).take
        (s.endTwoColumns - (s.twoColumns + 1)))) := by
  intro fuel
  induction fuel with
  | zero => intro s _ _ _ _ h1 _ h2; omega
  | succ fuel ih =>
    intro s heq hig hn hf hlt hend hfuel
    have hhas : hasNext s = .ok (s.twoColumns + 1 != s.endTwoColumns, s) := by
      simp [hasNext, heq, hig, hn, hf]
    by_cases hlast : s.twoColumns + 1 = s.endTwoColumns
    · simp only [drain, hhas, hlast, bne_self_eq_false]
      simp
    · have hb : (s.twoColumns + 1 != s.endTwoColumns) = true := by simpa using hlast
      have hnext : next s = { s with twoColumns := s.twoColumns + 1 } := by
        simp [next, heq, hig, hn, hf]
      have hlt' : s.twoColumns + 1 < s.endTwoColumns := by omega
      have hlen : s.twoColumns + 1 < s.pairs.length := by omega
      have hrow : currentRow (next s) = .ok s.pairs[s.twoColumns + 1] := by
        simp [hnext, currentRow, getElementAt, hn, List.getElem?_eq_getElem hlen]
      have hrec := ih (next s) (by simp [hnext, heq]) (by simp [hnext, hig])
        (by simp [hnext, hn]) (by simp [hnext, hf]) (by simp [hnext]; omega)
        (by simp [hnext]; omega) (by simp [hnext]; omega)
      simp only [drain, hhas, hb, hrow, hrec]
      rw [take_drop_step s.pairs (s.twoColumns + 1) s.endTwoColumns hlt' hlen]
      simp [hnext]

theorem drain_plain_first (fuel : Nat) (s : EDBMemIterator) (heq : s.equalFields = false)
    (hig : s.ignoreSecondColumn = false) (hn : s.nfields = 2) (hf : s.isFirst = true)
    (hhf : s.hasFirst = (s.twoColumns != s.endTwoColumns))
    (hle : s.twoColumns ≤ s.endTwoColumns) (hend : s.endTwoColumns ≤ s.pairs.length)
    (hfuel : s.endTwoColumns - s.twoColumns < fuel) :
    drain fuel s = some (.ok ((s.pairs.drop s.twoColumns).take
      (s.endTwoColumns - s.twoColumns))) := by
  cases fuel with
  | zero => omega
  | succ fuel =>
    have hhas : hasNext s = .ok (s.twoColumns != s.endTwoColumns, s) := by
      simp [hasNext, heq, hf, hhf]
    by_cases hempty : s.twoColumns = s.endTwoColumns
    · simp only [drain, hhas, hempty, bne_self_eq_false]
      simp
    · have hb : (s.twoColumns != s.endTwoColumns) = true := by simpa using hempty
      have hnext : next s = { s with isFirst := false } := by
        simp [next, heq, hig, hf]
      have hlt : s.twoColumns < s.endTwoColumns := by omega
      have hlen : s.twoColumns < s.pairs.length := by omega
      have hrow : currentRow (next s) = .ok s.pairs[s.twoColumns] := by
        simp [hnext, currentRow, getElementAt, hn, List.getElem?_eq_getElem hlen]
      have hrec := drain_plain_rest fuel (next s) (by simp [hnext, heq]) (by simp [hnext, hig])
        (by simp [hnext, hn]) (by simp [hnext]) (by simp [hnext]; omega)
        (by simp [hnext]; omega) (by simp [hnext]; omega)
      simp only [drain, hhas, hb, hrow, hrec]
      rw [take_drop_step s.pairs s.twoColumns s.endTwoColumns hlt hlen]
      simp [hnext]

theorem filter_eq_range (v : List Row) (P : Row → Bool) (lo hi : Nat) (h1 : lo ≤ hi)
    (hbefore : ∀ i x, i < lo → v[i]? = some x → P x = false)
    (hin : ∀ i x, lo ≤ i → i < hi → v[i]? = some x → P x = true)
    (hafter : ∀ i x, hi ≤ i → v[i]? = some x → P x = false) :
    v.filter P = (v.drop lo).take (hi - lo) := by
  have hsplit : v = v.take lo ++ ((v.drop lo).take (hi - lo) ++ (v.drop lo).drop (hi - lo)) := by
    rw [List.take_append_drop, List.take_append_drop]
  have hA : (v.take lo).filter P = [] := by
    rw [List.filter_eq_nil_iff]
    intro x hx
    obtain ⟨i, hi'⟩ := List.mem_iff_getElem?.1 hx
    rw [List.getElem?_take] at hi'
    split_ifs at hi' with hlt
    · simp [hbefore i x hlt hi']
  have hB : ((v.drop lo).take (hi - lo)).filter P = (v.drop lo).take (hi - lo) := by
    rw [List.filter_eq_self]
    intro x hx
    obtain ⟨i, hi'⟩ := List.mem_iff_getElem?.1 hx
    rw [List.getElem?_take] at hi'
    split_ifs at hi' with hlt
    · rw [List.getElem?_drop] at hi'
      exact hin (lo + i) x (by omega) (by omega) hi'
  have hC : ((v.drop lo).drop (hi - lo)).filter P = [] := by
    rw [List.filter_eq_nil_iff]
    intro x hx
    obtain ⟨i, hi'⟩ := List.mem_iff_getElem?.1 hx
    rw [List.getElem?_drop, List.getElem?_drop] at hi'
    simp [hafter (lo + (hi - lo + i)) x (by omega) hi']
  conv_lhs => rw [hsplit]
  rw [List.filter_append, List.filter_append, hA, hB, hC]
  simp

/-! ## The cursor of init2 with column 0 bound -/

theorem init2_first_bound (s0 : EDBMemIterator) (id : Nat) (v : List Row) (vc1 vc2 : Nat)
    (hs : SortedBy ltPair v) (hb : ∀ r ∈ v, r.2 ≤ TERM_MAX) :
    ∃ s, init2 s0 id true v true vc1 false vc2 false = .ok s ∧
      drain (v.length + 1) s = some (.ok (v.filter (fun r => decide (r.1 = vc1)))) := by
  obtain ⟨_, hlo2, hlo3, hlo4⟩ := lower_bound_spec ltPair v (vc1, 0)
    (partitioned_lower hs ltPair_irrefl ltPair_trans_left _) 0 v.length (Nat.zero_le _)
    (Nat.le_refl _)
  have hbound : ∀ (i : Nat) (x : Row), v[i]? = some x → x.2 ≤ TERM_MAX :=
    fun i x hx => hb x (List.mem_iff_getElem?.2 ⟨i, hx⟩)
  have hlen : ∀ (i : Nat) (x : Row), v[i]? = some x → i < v.length :=
    fun i x hx => (List.getElem?_eq_some.1 hx).1
  have hbefore : ∀ (i : Nat) (x : Row), i < lower_bound ltPair v 0 v.length (vc1, 0) → v[i]? = some x →
      decide (x.1 = vc1) = false := by
    intro i x hi hx
    have := (ltPair_iff _ _).1 (hlo3 i x (Nat.zero_le _) hi hx)
    simp only [decide_eq_false_iff_not]
    simp only at this
    omega
  have hge : ∀ (i : Nat) (x : Row), lower_bound ltPair v 0 v.length (vc1, 0) ≤ i → v[i]? = some x →
      vc1 ≤ x.1 := by
    intro i x hi hx
    have := (ltPair_eq_false_iff _ _).1 (hlo4 i x hi (hlen i x hx) hx)
    simp only at this
    omega
  simp only [init2, if_true, Bool.false_eq_true, if_false]
  generalize lower_bound ltPair v 0 v.length (vc1, 0) = lo at *
  by_cases hok : lowerOkFirst v lo vc1 false vc2 = true
  · rw [if_pos hok]
    have hlolt : lo < v.length := by
      unfold lowerOkFirst at hok
      cases hx : v[lo]? with
      | none => rw [hx] at hok; exact absurd hok Bool.false_ne_true
      | some x => exact hlen lo x hx
    obtain ⟨hhi1, hhi2, hhi3, hhi4⟩ := upper_bound_spec ltPair v (vc1, TERM_MAX)
      (partitioned_upper hs ltPair_irrefl ltPair_trans_right _) lo v.length
      (Nat.le_of_lt hlolt) (Nat.le_refl _)
    generalize upper_bound ltPair v lo v.length (vc1, TERM_MAX) = hi at *
    refine ⟨_, rfl, ?_⟩
    rw [drain_plain_first _ _ rfl rfl rfl rfl rfl hhi1 hhi2 (by simp; omega)]
    simp only
    rw [filter_eq_range v _ lo hi hhi1 hbefore]
    · intro i x h1 h2 hx
      have h3 := (ltPair_eq_false_iff _ _).1 (hhi3 i x h1 h2 hx)
      have h4 := hge i x h1 hx
      simp only at h3
      simp only [decide_eq_true_eq]
      omega
    · intro i x h1 hx
      have h3 := (ltPair_iff _ _).1 (hhi4 i x h1 (hlen i x hx) hx)
      have h4 := hbound i x hx
      simp only at h3
      simp only [decide_eq_false_iff_not]
      omega
  · rw [if_neg hok]
    refine ⟨_, rfl, ?_⟩
    rw [drain_plain_first _ _ rfl rfl rfl rfl rfl (Nat.le_refl _) (Nat.le_refl _)
      (by simp)]
    simp only
    rw [filter_eq_range v _ v.length v.length (Nat.le_refl _)]
    · intro i x hi hx
      by_cases hilo : i < lo
      · exact hbefore i x hilo hx
      · have hlolt : lo < v.length := by omega
        have hxlo : v[lo]? = some v[lo] := List.getElem?_eq_getElem hlolt
        have h1 : v[lo].1 ≠ vc1 := by
          intro h
          apply hok
          simp [lowerOkFirst, hxlo, h]
        have h2 := hge lo _ (Nat.le_refl _) hxlo
        have h3 := (ltPair_eq_false_iff _ _).1
          (sortedBy_getElem hs ltPair_irrefl lo i _ x (by omega) hxlo hx)
        simp only [decide_eq_false_iff_not]
        omega
    · intro i x h1 h2 hx
      have := hlen i x hx
      omega
    · intro i x h1 hx
      have := hlen i x hx
      omega

theorem init2_both_bound (s0 : EDBMemIterator) (id : Nat) (v : List Row) (vc1 vc2 : Nat)
    (hs : SortedBy ltPair v) :
    ∃ s, init2 s0 id true v true vc1 true vc2 false = .ok s ∧
      drain (v.length + 1) s = some (.ok (v.filter (fun r => decide (r = (vc1, vc2))))) := by
  obtain ⟨_, hlo2, hlo3, hlo4⟩ := lower_bound_spec ltPair v (vc1, vc2)
    (partitioned_lower hs ltPair_irrefl ltPair_trans_left _) 0 v.length (Nat.zero_le _)
    (Nat.le_refl _)
  have hlen : ∀ (i : Nat) (x : Row), v[i]? = some x → i < v.length :=
    fun i x hx => (List.getElem?_eq_some.1 hx).1
  have hbefore : ∀ (i : Nat) (x : Row), i < lower_bound ltPair v 0 v.length (vc1, vc2) → v[i]? = some x →
      decide (x = (vc1, vc2)) = false := by
    intro i x hi hx
    have := hlo3 i x (Nat.zero_le _) hi hx
    simp only [decide_eq_false_iff_not]
    intro h
    rw [h, ltPair_irrefl] at this
    exact Bool.false_ne_true this
  simp only [init2, if_true]
  generalize lower_bound ltPair v 0 v.length (vc1, vc2) = lo at *
  by_cases hok : lowerOkFirst v lo vc1 true vc2 = true
  · rw [if_pos hok]
    have hlolt : lo < v.length := by
      unfold lowerOkFirst at hok
      cases hx : v[lo]? with
      | none => rw [hx] at hok; exact absurd hok Bool.false_ne_true
      | some x => exact hlen lo x hx
    obtain ⟨hhi1, hhi2, hhi3, hhi4⟩ := upper_bound_spec ltPair v (vc1, vc2)
      (partitioned_upper hs ltPair_irrefl ltPair_trans_right _) lo v.length
      (Nat.le_of_lt hlolt) (Nat.le_refl _)
    generalize upper_bound ltPair v lo v.length (vc1, vc2) = hi at *
    refine ⟨_, rfl, ?_⟩
    rw [drain_plain_first _ _ rfl rfl rfl rfl rfl hhi1 hhi2 (by simp; omega)]
    simp only
    rw [filter_eq_range v _ lo hi hhi1 hbefore]
    · intro i x h1 h2 hx
      have h3 := (ltPair_eq_false_iff _ _).1 (hhi3 i x h1 h2 hx)
      have h4 := (ltPair_eq_false_iff _ _).1 (hlo4 i x h1 (hlen i x hx) hx)
      simp only at h3 h4
      simp only [decide_eq_true_eq]
      apply Prod.ext <;> simp only <;> omega
    · intro i x h1 hx
      have h3 := hhi4 i x h1 (hlen i x hx) hx
      simp only [decide_eq_false_iff_not]
      intro h
      rw [h, ltPair_irrefl] at h3
      exact Bool.false_ne_true h3
  · rw [if_neg hok]
    refine ⟨_, rfl, ?_⟩
    rw [drain_plain_first _ _ rfl rfl rfl rfl rfl (Nat.le_refl _) (Nat.le_refl _)
      (by simp)]
    simp only
    rw [filter_eq_range v _ v.length v.length (Nat.le_refl _)]
    · intro i x hi hx
      by_cases hilo : i < lo
      · exact hbefore i x hilo hx
      · have hlolt : lo < v.length := by omega
        have hxlo : v[lo]? = some v[lo] := List.getElem?_eq_getElem hlolt
        have h1 : v[lo] ≠ (vc1, vc2) := by
          intro h
          apply hok
          simp [lowerOkFirst, hxlo, h]
        have h2 := (ltPair_eq_false_iff _ _).1 (hlo4 lo _ (Nat.le_refl _) hlolt hxlo)
        have h3 := (ltPair_eq_false_iff _ _).1
          (sortedBy_getElem hs ltPair_irrefl lo i _ x (by omega) hxlo hx)
        simp only [decide_eq_false_iff_not]
        intro h
        apply h1
        rw [h] at h3
        simp only at h2 h3
        apply Prod.ext <;> simp only <;> omega
    · intro i x h1 h2 hx
      have := hlen i x hx
      omega
    · intro i x h1 hx
      have := hlen i x hx
      omega

/-- C7: for a vector sorted by (first, second) and an iterator set up by `init2`
with default sorting, column 0 bound to `vc1`, `equalFields` off (and
ignore-second-column off, as `init2` leaves it), the loop
`while (hasNext()) { next(); getElementAt(0), getElementAt(1) }` yields exactly
the rows whose first column is `vc1`, in index order; with column 1 bound to
`vc2` as well, exactly the rows equal to `(vc1, vc2)`. For
`{(1,2),(1,3),(1,4),(2,5)}` bound to 1 it yields `(1,2),(1,3),(1,4)`. -/
theorem init2_bound_yields (s0 : EDBMemIterator) (id : Nat) (v : List Row) (vc1 vc2 : Nat)
    (hs : SortedBy ltPair v) (hb : ∀ r ∈ v, r.2 ≤ TERM_MAX) :
    (∃ s, init2 s0 id true v true vc1 false vc2 false = .ok s ∧
      drain (v.length + 1) s = some (.ok (v.filter (fun r => decide (r.1 = vc1))))) ∧
    (∃ s, init2 s0 id true v true vc1 true vc2 false = .ok s ∧
      drain (v.length + 1) s = some (.ok (v.filter (fun r => decide (r = (vc1, vc2)))))) ∧
    (∃ s, init2 blankIterator 0 true rowsS3 true 1 false 0 false = .ok s ∧
      drain 5 s = some (.ok [(1, 2), (1, 3), (1, 4)])) :=
  ⟨init2_first_bound s0 id v vc1 vc2 hs hb, init2_both_bound s0 id v vc1 vc2 hs,
    ⟨_, rfl, by decide⟩⟩

/-- Witness for C7: the relation `{(1,2),(1,3),(1,4),(2,5)}` bound to 1 and to
`(1,3)`. -/
theorem init2_bound_yields_witness :
    (∃ s, init2 blankIterator 0 true rowsS3 true 1 false 3 false = .ok s ∧
      drain (rowsS3.length + 1) s = some (.ok (rowsS3.filter (fun r => decide (r.1 = 1))))) ∧
    (∃ s, init2 blankIterator 0 true rowsS3 true 1 true 3 false = .ok s ∧
      drain (rowsS3.length + 1) s
        = some (.ok (rowsS3.filter (fun r => decide (r = (1, 3)))))) ∧
    (∃ s, init2 blankIterator 0 true rowsS3 true 1 false 0 false = .ok s ∧
      drain 5 s = some (.ok [(1, 2), (1, 3), (1, 4)])) :=
  init2_bound_yields blankIterator 0 rowsS3 1 3 (by decide) (by decide)

/-! ## Iteration that skips duplicated first columns -/

theorem skipSameFirst_spec :
    ∀ (rest : List Row) (r : Row) (p : Nat),
      ∃ b p', skipSameFirst (r :: rest) p (p + 1 + rest.length) = .ok (b, p') ∧
        (b = false → yieldAfter r rest = []) ∧
        (b = true → p < p' ∧ ∃ r' rest', (r :: rest).drop (p' - p) = r' :: rest' ∧
          yieldAfter r rest = r' :: yieldAfter r' rest') := by
  intro rest
  induction rest with
  | nil =>
    intro r p
    refine ⟨false, p + 1, by simp [skipSameFirst], fun _ => rfl, fun h => ?_⟩
    exact absurd h Bool.false_ne_true
  | cons r2 rest2 ih =>
    intro r p
    have hne : p + 1 ≠ p + 1 + (r2 :: rest2).length := by simp
    by_cases h : r2.1 ≠ r.1
    · refine ⟨true, p + 1, ?_, fun hb => absurd hb (by decide), fun _ => ⟨by omega, ?_⟩⟩
      · simp only [skipSameFirst, hne, ne_eq, not_false_eq_true, if_true]
        rw [if_pos h]
      · refine ⟨r2, rest2, by simp, ?_⟩
        simp only [yieldAfter]
        rw [if_pos h]
    · obtain ⟨b, p', h1, h2, h3⟩ := ih r2 (p + 1)
      have hlast : p + 1 + (r2 :: rest2).length = p + 1 + 1 + rest2.length := by
        simp only [List.length_cons]; omega
      have hy : yieldAfter r (r2 :: rest2) = yieldAfter r2 rest2 := by
        simp only [yieldAfter]
        rw [if_neg h]
      refine ⟨b, p', ?_, ?_, ?_⟩
      · simp only [skipSameFirst, hne, ne_eq, not_false_eq_true, if_true]
        rw [if_neg h, hlast]
        exact h1
      · intro hb; rw [hy]; exact h2 hb
      · intro hb
        obtain ⟨hp, r', rest', hd, hyy⟩ := h3 hb
        refine ⟨by omega, r', rest', ?_, ?_⟩
        · have : p' - p = (p' - (p + 1)) + 1 := by omega
          rw [this, List.drop_succ_cons]
          exact hd
        · rw [hy]; exact hyy

theorem drain_ignore_rest :
    ∀ (fuel : Nat) (s : EDBMemIterator) (r : Row) (rest : List Row),
      s.equalFields = false → s.ignoreSecondColumn = true → s.nfields = 2 →
      s.isFirst = false → s.isNextCheck = false → s.endTwoColumns = s.pairs.length →
      s.pairs.drop s.twoColumns = r :: rest → rest.length < fuel →
      drain fuel s = some (.ok (yieldAfter r rest)) := by
  intro fuel
  induction fuel with
  | zero => intro s r rest _ _ _ _ _ _ _ h; omega
  | succ fuel ih =>
    intro s r rest heq hig hn hf hnc hend hdrop hfuel
    have hlen : s.twoColumns + 1 + rest.length = s.pairs.length := by
      have := congrArg List.length hdrop
      simp only [List.length_drop, List.length_cons] at this
      omega
    obtain ⟨b, p', h1, h2, h3⟩ := skipSameFirst_spec rest r s.twoColumns
    rw [hlen, ← hend] at h1
    have hhas : hasNext s
        = .ok (b, { s with isNextCheck := true, isNext := b, twoColumns := p' }) := by
      simp [hasNext, heq, hig, hn, hf, hnc, hdrop, h1]
    cases b with
    | false =>
      rw [h2 rfl]
      simp only [drain, hhas]
    | true =>
      obtain ⟨hp, r', rest', hd, hy⟩ := h3 rfl
      have hdrop' : s.pairs.drop p' = r' :: rest' := by
        have : p' = s.twoColumns + (p' - s.twoColumns) := by omega
        rw [this, ← List.drop_drop, hdrop]
        exact hd
      have hp'len : p' < s.pairs.length := by
        have := congrArg List.length hdrop'
        simp only [List.length_drop, List.length_cons] at this
        omega
      have hget : s.pairs[p']? = some r' := by
        have := congrArg (fun l => l[0]?) hdrop'
        simpa using this
      have hrestlen : rest'.length < rest.length := by
        have := congrArg List.length hdrop'
        simp only [List.length_drop, List.length_cons] at this
        omega
      have hnext : next { s with isNextCheck := true, isNext := true, twoColumns := p' }
          = { s with
              isNextCheck := false, isNext := true, twoColumns := p', isFirst := false } := by
        simp [next, heq, hig]
      have hrow : currentRow { s with
          isNextCheck := false, isNext := true, twoColumns := p', isFirst := false }
          = .ok r' := by
        simp [currentRow, getElementAt, hn, hget]
      have hrec := ih { s with
          isNextCheck := false, isNext := true, twoColumns := p', isFirst := false }
        r' rest' heq hig hn rfl rfl hend hdrop' (by omega)
      simp only [drain, hhas, hnext, hrow, hrec, hy]

theorem drain_ignore_first (s0 : EDBMemIterator) (id : Nat) (v : List Row) (vc1 vc2 : Nat) :
    ∃ s, init2 s0 id true v false vc1 false vc2 false = .ok s ∧
      drain (v.length + 1) (skipDuplicatedFirstColumn s) = some (.ok (runHeads v)) := by
  refine ⟨_, rfl, ?_⟩
  cases v with
  | nil => simp [drain, hasNext, skipDuplicatedFirstColumn, runHeads]
  | cons r rest =>
    obtain ⟨s, hs⟩ : ∃ s : EDBMemIterator, s = skipDuplicatedFirstColumn
        { s0 with
          predid := id, ignoreSecondColumn := false, isIgnoreAllowed := true,
          equalFields := false, nfields := 2, pairs := r :: rest, twoColumns := 0,
          endTwoColumns := (r :: rest).length, isFirst := true,
          hasFirst := (0 != (r :: rest).length) } := ⟨_, rfl⟩
    rw [← hs]
    have heq : s.equalFields = false := by rw [hs]; rfl
    have hig : s.ignoreSecondColumn = true := by rw [hs]; rfl
    have hn : s.nfields = 2 := by rw [hs]; rfl
    have hf : s.isFirst = true := by rw [hs]; rfl
    have hhf : s.hasFirst = true := by rw [hs]; rfl
    have hp : s.pairs = r :: rest := by rw [hs]; rfl
    have ht : s.twoColumns = 0 := by rw [hs]; rfl
    have he : s.endTwoColumns = s.pairs.length := by rw [hs]; rfl
    have hhas : hasNext s = .ok (true, s) := by
      simp [hasNext, heq, hf, hhf]
    have hnext : next s = { s with isFirst := false, isNextCheck := false } := by
      simp [next, heq, hig]
    have hrow : currentRow (next s) = .ok r := by
      simp [hnext, currentRow, getElementAt, hn, hp, ht]
    have hrec := drain_ignore_rest (rest.length + 1) (next s) r rest
      (by simp [hnext, heq]) (by simp [hnext, hig]) (by simp [hnext, hn]) (by simp [hnext])
      (by simp [hnext]) (by simp [hnext, he]) (by simp [hnext, hp, ht])
      (Nat.lt_succ_self _)
    simp only [List.length_cons, runHeads]
    rw [drain]
    simp only [hhas, hrow, hrec]

theorem yieldAfter_lt :
    ∀ (rest : List Row) (r : Row), (r :: rest).Pairwise (fun a b => a.1 ≤ b.1) →
      (∀ x ∈ yieldAfter r rest, r.1 < x.1) ∧
      (yieldAfter r rest).Pairwise (fun a b => a.1 < b.1) := by
  intro rest
  induction rest with
  | nil => intro r _; simp [yieldAfter]
  | cons r2 rest2 ih =>
    intro r hs
    have hle : r.1 ≤ r2.1 := List.rel_of_pairwise_cons hs (List.mem_cons_self _ _)
    obtain ⟨h1, h2⟩ := ih r2 (List.Pairwise.of_cons hs)
    by_cases h : r2.1 ≠ r.1
    · simp only [yieldAfter]
      rw [if_pos h]
      constructor
      · intro x hx
        rcases List.mem_cons.1 hx with rfl | hx
        · omega
        · have := h1 x hx
          omega
      · exact List.Pairwise.cons h1 h2
    · simp only [yieldAfter]
      rw [if_neg h]
      constructor
      · intro x hx
        have := h1 x hx
        omega
      · exact h2

theorem yieldAfter_mem (x : Nat) :
    ∀ (rest : List Row) (r : Row),
      (x = r.1 ∨ x ∈ (yieldAfter r rest).map Prod.fst) ↔ (x = r.1 ∨ x ∈ rest.map Prod.fst) := by
  intro rest
  induction rest with
  | nil => intro r; simp [yieldAfter]
  | cons r2 rest2 ih =>
    intro r
    have := ih r2
    by_cases h : r2.1 ≠ r.1
    · simp only [yieldAfter]
      rw [if_pos h]
      simp only [List.map_cons, List.mem_cons]
      tauto
    · simp only [yieldAfter]
      rw [if_neg h]
      have he : r2.1 = r.1 := by simpa using h
      simp only [List.map_cons, List.mem_cons]
      rw [he] at this ⊢
      tauto

theorem runHeads_sorted (v : List Row) (hs : v.Pairwise (fun a b => a.1 ≤ b.1)) :
    ((runHeads v).map Prod.fst).Pairwise (fun a b => a < b) ∧
    ∀ x, x ∈ (runHeads v).map Prod.fst ↔ x ∈ v.map Prod.fst := by
  cases v with
  | nil => simp [runHeads]
  | cons r rest =>
    obtain ⟨h1, h2⟩ := yieldAfter_lt rest r hs
    constructor
    · rw [List.pairwise_map]
      exact List.Pairwise.cons h1 h2
    · intro x
      have := yieldAfter_mem x rest r
      simpa [runHeads] using this

/-- C8, the counterexample: an unbound scan in default sorting with `equalFields`
on (the literal `p(X,X)`) over `{(1,2),(2,2)}` yields, after
`skipDuplicatedFirstColumn()`, the single row `(2,2)`: the first columns
yielded are `2`, not the projection `1,2` of the relation. -/
theorem skipDuplicated_equalFields :
    ∃ s, init2 blankIterator 0 true rowsEqual false 0 false 0 true = .ok s ∧
      (skipDuplicatedFirstColumn s).ignoreSecondColumn = true ∧
      drain 3 (skipDuplicatedFirstColumn s) = some (.ok [(2, 2)]) ∧
      rowsEqual.map Prod.fst = [1, 2] :=
  ⟨_, rfl, by decide, by decide, by decide⟩

/-- C8, as amended: for a vector sorted by (first, second), scanned with no bound
column in default sorting and `equalFields` off, after
`skipDuplicatedFirstColumn()` is called before the first `next()`, the loop
`while (hasNext()) { next(); read the row }` yields rows whose first columns
differ from one row to the next, are strictly increasing and are exactly the
values of the relation's first column; `{(1,2),(1,3),(1,4),(2,5)}` yields the
first columns `1,2`. -/
theorem skipDuplicated_yields (s0 : EDBMemIterator) (id : Nat) (v : List Row) (vc1 vc2 : Nat)
    (hs : SortedBy ltPair v) :
    (∃ s rows, init2 s0 id true v false vc1 false vc2 false = .ok s ∧
      drain (v.length + 1) (skipDuplicatedFirstColumn s) = some (.ok rows) ∧
      (rows.map Prod.fst).Chain' (fun a b => a ≠ b) ∧
      (rows.map Prod.fst).Pairwise (fun a b => a < b) ∧
      ∀ x, x ∈ rows.map Prod.fst ↔ x ∈ v.map Prod.fst) ∧
    (∃ s rows, init2 blankIterator 0 true rowsS3 false 0 false 0 false = .ok s ∧
      drain 5 (skipDuplicatedFirstColumn s) = some (.ok rows) ∧
      rows.map Prod.fst = [1, 2]) := by
  refine ⟨?_, ⟨_, [(1, 2), (2, 5)], rfl, by decide, by decide⟩⟩
  obtain ⟨s, h1, h2⟩ := drain_ignore_first s0 id v vc1 vc2
  obtain ⟨h3, h4⟩ := runHeads_sorted v (sortedBy_ltPair_first hs)
  refine ⟨s, runHeads v, h1, h2, ?_, h3, h4⟩
  exact (List.Pairwise.chain' h3).imp (fun a b hab => Nat.ne_of_lt hab)

/-- Witness for C8 as amended: the relation `{(1,2),(1,3),(1,4),(2,5)}`. -/
theorem skipDuplicated_yields_witness :
    (∃ s rows, init2 blankIterator 0 true rowsS3 false 0 false 0 false = .ok s ∧
      drain (rowsS3.length + 1) (skipDuplicatedFirstColumn s) = some (.ok rows) ∧
      (rows.map Prod.fst).Chain' (fun a b => a ≠ b) ∧
      (rows.map Prod.fst).Pairwise (fun a b => a < b) ∧
      ∀ x, x ∈ rows.map Prod.fst ↔ x ∈ rowsS3.map Prod.fst) ∧
    (∃ s rows, init2 blankIterator 0 true rowsS3 false 0 false 0 false = .ok s ∧
      drain 5 (skipDuplicatedFirstColumn s) = some (.ok rows) ∧
      rows.map Prod.fst = [1, 2]) :=
  skipDuplicated_yields blankIterator 0 rowsS3 0 0 (by decide)

/-! ## hasNext called twice -/

theorem scanEqual_defined :
    ∀ (mem : List Row) (p last : Nat), p ≤ last → last ≤ p + mem.length →
      ∃ r, scanEqual mem p last = .ok r := by
  intro mem
  induction mem with
  | nil =>
    intro p last h1 h2
    have : p = last := by simp at h2; omega
    exact ⟨(false, p), by unfold scanEqual; rw [if_pos this]⟩
  | cons r rest ih =>
    intro p last h1 h2
    unfold scanEqual
    by_cases hp : p = last
    · exact ⟨(false, p), by rw [if_pos hp]⟩
    · rw [if_neg hp]
      by_cases he : r.1 = r.2
      · exact ⟨(true, p), by simp [he]⟩
      · simp only [he, if_false]
        apply ih
        · omega
        · simp only [List.length_cons] at h2; omega

theorem skipSameFirst_defined :
    ∀ (mem : List Row) (p last : Nat), p < last → last ≤ p + mem.length →
      ∃ r, skipSameFirst mem p last = .ok r := by
  intro mem
  induction mem with
  | nil => intro p last h1 h2; simp at h2; omega
  | cons r rest ih =>
    intro p last h1 h2
    simp only [List.length_cons] at h2
    by_cases hp : p + 1 ≠ last
    · cases rest with
      | nil => simp at h2; omega
      | cons r2 rest2 =>
        by_cases he : r2.1 ≠ r.1
        · exact ⟨(true, p + 1), by simp only [skipSameFirst]; rw [if_pos hp, if_pos he]⟩
        · obtain ⟨x, hx⟩ := ih (p + 1) last (by omega) (by omega)
          exact ⟨x, by simp only [skipSameFirst]; rw [if_pos hp, if_neg he]; exact hx⟩
    · exact ⟨(false, p + 1), by
        cases rest <;> simp only [skipSameFirst] <;> rw [if_neg hp]⟩

theorem hasNext_defined (s : EDBMemIterator) (h : HasNextInRange s) :
    ∃ r, hasNext s = .ok r := by
  obtain ⟨hend, heqr, higr⟩ := h
  unfold hasNext
  by_cases heq : s.equalFields = true
  · rw [if_pos heq]
    by_cases hnc : s.isNextCheck = true
    · simp [hnc]
    · have hnc' : s.isNextCheck = false := by simpa using hnc
      have hstart := heqr heq hnc'
      obtain ⟨⟨b, p⟩, hr⟩ := scanEqual_defined
        (s.pairs.drop (if s.isFirst then s.twoColumns else s.twoColumns + 1))
        (if s.isFirst then s.twoColumns else s.twoColumns + 1) s.endTwoColumns hstart
        (by simp only [List.length_drop]; omega)
      simp only [hnc', Bool.not_false, if_true]
      rw [hr]
      exact ⟨_, rfl⟩
  · rw [if_neg heq]
    have heq' : s.equalFields = false := by simpa using heq
    by_cases hf : s.isFirst = true
    · exact ⟨_, if_pos hf⟩
    · rw [if_neg hf]
      by_cases hn : s.nfields = 1
      · exact ⟨_, if_pos hn⟩
      · rw [if_neg hn]
        by_cases hig : s.ignoreSecondColumn = true
        · rw [if_pos hig]
          by_cases hnc : s.isNextCheck = true
          · exact ⟨_, if_pos hnc⟩
          · rw [if_neg hnc]
            have hlt := higr heq' (by simpa using hf) hn hig (by simpa using hnc)
            obtain ⟨⟨b, p⟩, hr⟩ := skipSameFirst_defined (s.pairs.drop s.twoColumns)
              s.twoColumns s.endTwoColumns hlt (by simp only [List.length_drop]; omega)
            rw [hr]
            exact ⟨_, rfl⟩
        · exact ⟨_, if_neg hig⟩

theorem hasNext_twice (s : EDBMemIterator) (b : Bool) (s1 : EDBMemIterator)
    (h : hasNext s = .ok (b, s1)) : hasNext s1 = .ok (b, s1) := by
  unfold hasNext at h
  by_cases heq : s.equalFields = true
  · rw [if_pos heq] at h
    by_cases hnc : s.isNextCheck = true
    · simp only [hnc, Bool.not_true, Bool.false_eq_true, if_false, Except.ok.injEq,
        Prod.mk.injEq] at h
      obtain ⟨h1, h2⟩ := h
      subst h2
      simp [hasNext, heq, hnc, h1]
    · have hnc' : s.isNextCheck = false := by simpa using hnc
      simp only [hnc', Bool.not_false, if_true] at h
      cases hr : scanEqual (s.pairs.drop (if s.isFirst then s.twoColumns else s.twoColumns + 1))
          (if s.isFirst then s.twoColumns else s.twoColumns + 1) s.endTwoColumns with
      | error e => simp [hr] at h
      | ok r =>
        obtain ⟨b', p⟩ := r
        simp only [hr, Except.ok.injEq, Prod.mk.injEq] at h
        obtain ⟨h1, h2⟩ := h
        subst h1 h2
        simp [hasNext, heq]
  · rw [if_neg heq] at h
    by_cases hf : s.isFirst = true
    · rw [if_pos hf] at h
      simp only [Except.ok.injEq, Prod.mk.injEq] at h
      obtain ⟨h1, h2⟩ := h
      subst h2
      simp [hasNext, heq, hf, h1]
    · rw [if_neg hf] at h
      by_cases hn : s.nfields = 1
      · rw [if_pos hn] at h
        simp only [Except.ok.injEq, Prod.mk.injEq] at h
        obtain ⟨h1, h2⟩ := h
        subst h2
        simp [hasNext, heq, hf, hn, h1]
      · rw [if_neg hn] at h
        by_cases hig : s.ignoreSecondColumn = true
        · rw [if_pos hig] at h
          by_cases hnc : s.isNextCheck = true
          · rw [if_pos hnc] at h
            simp only [Except.ok.injEq, Prod.mk.injEq] at h
            obtain ⟨h1, h2⟩ := h
            subst h2
            simp [hasNext, heq, hf, hn, hig, hnc, h1]
          · rw [if_neg hnc] at h
            cases hr : skipSameFirst (s.pairs.drop s.twoColumns) s.twoColumns
                s.endTwoColumns with
            | error e => simp [hr] at h
            | ok r =>
              obtain ⟨b', p⟩ := r
              simp only [hr, Except.ok.injEq, Prod.mk.injEq] at h
              obtain ⟨h1, h2⟩ := h
              subst h1 h2
              simp [hasNext, heq, hf, hn, hig]
        · rw [if_neg hig] at h
          simp only [Except.ok.injEq, Prod.mk.injEq] at h
          obtain ⟨h1, h2⟩ := h
          subst h2
          simp [hasNext, heq, hf, hn, hig, h1]

/-- C9: `hasNext` is idempotent in every mode and from every state of the
iterator: where the reads of `hasNext` stay inside the vector the call returns,
and whenever a call returns, a second call right after it returns the same
boolean and leaves the iterator as the first call left it. -/
theorem hasNext_idempotent (s : EDBMemIterator) :
    (HasNextInRange s → ∃ b s1, hasNext s = .ok (b, s1) ∧ hasNext s1 = .ok (b, s1)) ∧
    (∀ b s1, hasNext s = .ok (b, s1) → hasNext s1 = .ok (b, s1)) := by
  refine ⟨fun h => ?_, hasNext_twice s⟩
  obtain ⟨⟨b, s1⟩, hr⟩ := hasNext_defined s h
  exact ⟨b, s1, hr, hasNext_twice s b s1 hr⟩

/-! ## hasNext and the cursor -/

/-- Witness for C9: the iterator positioned on the row `(1,2)` of
`{(1,2),(1,3),(1,4),(2,5)}` in ignore-second-column mode. -/
theorem hasNext_idempotent_witness :
    HasNextInRange cursorS3 ∧
    (∃ b s1, hasNext cursorS3 = .ok (b, s1) ∧ hasNext s1 = .ok (b, s1)) ∧
    hasNext cursorS3 = .ok (true, { cursorS3 with
      isNextCheck := true, isNext := true, twoColumns := 3 }) ∧
    hasNext { cursorS3 with isNextCheck := true, isNext := true, twoColumns := 3 }
      = .ok (true, { cursorS3 with isNextCheck := true, isNext := true, twoColumns := 3 }) :=
  ⟨by decide, (hasNext_idempotent cursorS3).1 (by decide), by decide,
    (hasNext_idempotent cursorS3).2 true _ (by decide)⟩

theorem partitionLoop_bounds {α : Type} (P : α → Bool) (v : List α) :
    ∀ fuel first len, len ≤ fuel →
      first ≤ partitionLoop P v fuel first len ∧ partitionLoop P v fuel first len ≤ first + len := by
  intro fuel
  induction fuel with
  | zero => intro first len _; simp [partitionLoop]
  | succ fuel ih =>
    intro first len hlen
    simp only [partitionLoop]
    split_ifs with h0
    · omega
    · have hhalf : len / 2 < len := Nat.div_lt_self (Nat.pos_of_ne_zero h0) (by decide)
      cases v[first + len / 2]? with
      | none => simp only; omega
      | some x =>
        simp only
        split_ifs
        · have := ih (first + len / 2 + 1) (len - len / 2 - 1) (by omega)
          omega
        · have := ih first (len / 2) (by omega)
          omega

theorem lower_bound_bounds {α : Type} (lt : α → α → Bool) (v : List α) (val : α)
    (first last : Nat) (h : first ≤ last) :
    first ≤ lower_bound lt v first last val ∧ lower_bound lt v first last val ≤ last := by
  unfold lower_bound
  rw [lowerBoundLoop_eq]
  have := partitionLoop_bounds (fun x => lt x val) v (last - first) first (last - first)
    (Nat.le_refl _)
  omega

theorem upper_bound_bounds {α : Type} (lt : α → α → Bool) (v : List α) (val : α)
    (first last : Nat) (h : first ≤ last) :
    first ≤ upper_bound lt v first last val ∧ upper_bound lt v first last val ≤ last := by
  unfold upper_bound
  rw [upperBoundLoop_eq]
  have := partitionLoop_bounds (fun x => !(lt val x)) v (last - first) first (last - first)
    (Nat.le_refl _)
  omega

theorem init2_fields (s0 : EDBMemIterator) (id : Nat) (ds : Bool) (v : List Row)
    (c1 : Bool) (vc1 : Nat) (c2 : Bool) (vc2 : Nat) (ef : Bool) (s : EDBMemIterator)
    (h : init2 s0 id ds v c1 vc1 c2 vc2 ef = .ok s) :
    s.twoColumns ≤ s.endTwoColumns ∧ s.endTwoColumns ≤ v.length ∧ s.pairs = v ∧
    s.nfields = 2 ∧ s.equalFields = ef ∧ s.isFirst = true ∧
    s.isNextCheck = s0.isNextCheck ∧ s.isNext = s0.isNext ∧
    s.ignoreSecondColumn = false ∧ s.isIgnoreAllowed = !c1 ∧
    s.hasFirst = (s.twoColumns != s.endTwoColumns) := by
  unfold init2 at h
  by_cases hc1 : c1 = true
  · rw [if_pos hc1] at h
    by_cases hds : ds = true
    · rw [if_pos hds] at h
      have hlo := lower_bound_bounds ltPair v (vc1, if c2 = true then vc2 else 0) 0 v.length
        (Nat.zero_le _)
      dsimp only at h
      by_cases hok : lowerOkFirst v
          (lower_bound ltPair v 0 v.length (vc1, if c2 = true then vc2 else 0)) vc1 c2 vc2 = true
      · rw [if_pos hok] at h
        have hhi := upper_bound_bounds ltPair v (vc1, if c2 = true then vc2 else TERM_MAX)
          (lower_bound ltPair v 0 v.length (vc1, if c2 = true then vc2 else 0)) v.length hlo.2
        injection h with h
        subst h
        subst hc1
        exact ⟨hhi.1, hhi.2, rfl, rfl, rfl, rfl, rfl, rfl, rfl, rfl, rfl⟩
      · rw [if_neg hok] at h
        injection h with h
        subst h
        subst hc1
        exact ⟨Nat.le_refl _, Nat.le_refl _, rfl, rfl, rfl, rfl, rfl, rfl, rfl, rfl, rfl⟩
    · rw [if_neg hds] at h
      exact absurd h (by simp)
  · rw [if_neg hc1] at h
    have hc1' : c1 = false := by simpa using hc1
    by_cases hc2 : c2 = true
    · rw [if_pos hc2] at h
      by_cases hds : (!ds) = true
      · rw [if_pos hds] at h
        have hlo := lower_bound_bounds ltSecond v (0, vc2) 0 v.length (Nat.zero_le _)
        dsimp only at h
        by_cases hok : lowerOkSecond v (lower_bound ltSecond v 0 v.length (0, vc2)) vc2 = true
        · rw [if_pos hok] at h
          have hhi := upper_bound_bounds ltSecond v (TERM_MAX, vc2)
            (lower_bound ltSecond v 0 v.length (0, vc2)) v.length hlo.2
          injection h with h
          subst h
          subst hc1'
          exact ⟨hhi.1, hhi.2, rfl, rfl, rfl, rfl, rfl, rfl, rfl, rfl, rfl⟩
        · rw [if_neg hok] at h
          injection h with h
          subst h
          subst hc1'
          exact ⟨Nat.le_refl _, Nat.le_refl _, rfl, rfl, rfl, rfl, rfl, rfl, rfl, rfl, rfl⟩
      · rw [if_neg hds] at h
        exact absurd h (by simp)
    · rw [if_neg hc2] at h
      injection h with h
      subst h
      subst hc1'
      exact ⟨Nat.zero_le _, Nat.le_refl _, rfl, rfl, rfl, rfl, rfl, rfl, rfl, rfl, rfl⟩

/-! ## Iteration in equal-fields mode -/

theorem scanEqual_spec :
    ∀ (mem : List Row) (p last : Nat), p ≤ last → last ≤ p + mem.length →
      ∃ b p', scanEqual mem p last = .ok (b, p') ∧
        (b = false → (mem.take (last - p)).filter (fun r => decide (r.1 = r.2)) = []) ∧
        (b = true → p ≤ p' ∧ p' < last ∧ ∃ r, mem[p' - p]? = some r ∧
          (mem.take (last - p)).filter (fun r => decide (r.1 = r.2))
            = r :: ((mem.drop (p' - p + 1)).take (last - (p' + 1))).filter
                (fun r => decide (r.1 = r.2))) := by
  intro mem
  induction mem with
  | nil =>
    intro p last h1 h2
    have : p = last := by simp at h2; omega
    refine ⟨false, p, by unfold scanEqual; rw [if_pos this], fun _ => by simp, fun h => ?_⟩
    exact absurd h (by decide)
  | cons r rest ih =>
    intro p last h1 h2
    simp only [List.length_cons] at h2
    by_cases hp : p = last
    · refine ⟨false, p, by unfold scanEqual; rw [if_pos hp], fun _ => ?_, fun h => ?_⟩
      · subst hp; simp
      · exact absurd h (by decide)
    · have hlast : last - p = (last - (p + 1)) + 1 := by omega
      by_cases he : r.1 = r.2
      · refine ⟨true, p, ?_, fun h => absurd h (by decide), fun _ => ⟨Nat.le_refl _, by omega, r, ?_, ?_⟩⟩
        · unfold scanEqual; rw [if_neg hp]; simp [he]
        · simp
        · rw [hlast, List.take_succ_cons, List.filter_cons]
          simp [he]
      · obtain ⟨b, p', h3, h4, h5⟩ := ih (p + 1) last (by omega) (by omega)
        have hfil : ((r :: rest).take (last - p)).filter (fun r => decide (r.1 = r.2))
            = (rest.take (last - (p + 1))).filter (fun r => decide (r.1 = r.2)) := by
          rw [hlast, List.take_succ_cons, List.filter_cons]
          simp [he]
        refine ⟨b, p', ?_, fun hb => ?_, fun hb => ?_⟩
        · unfold scanEqual; rw [if_neg hp]; simp only [he, if_false]; exact h3
        · rw [hfil]; exact h4 hb
        · obtain ⟨h6, h7, r', h8, h9⟩ := h5 hb
          refine ⟨by omega, h7, r', ?_, ?_⟩
          · have : p' - p = (p' - (p + 1)) + 1 := by omega
            rw [this, List.getElem?_cons_succ]
            exact h8
          · rw [hfil, h9]
            have : p' - p + 1 = (p' - (p + 1) + 1) + 1 := by omega
            rw [this, List.drop_succ_cons]

theorem drain_equal :
    ∀ (fuel : Nat) (s : EDBMemIterator), s.equalFields = true → s.isNextCheck = false →
      s.nfields = 2 → scanStart s ≤ s.endTwoColumns → s.endTwoColumns ≤ s.pairs.length →
      s.endTwoColumns - scanStart s < fuel →
      drain fuel s = some (.ok (((s.pairs.drop (scanStart s)).take
        (s.endTwoColumns - scanStart s)).filter (fun r => decide (r.1 = r.2)))) := by
  intro fuel
  induction fuel with
  | zero => intro s _ _ _ _ _ h; omega
  | succ fuel ih =>
    intro s heq hnc hn hstart hend hfuel
    obtain ⟨b, p', h1, h2, h3⟩ := scanEqual_spec (s.pairs.drop (scanStart s)) (scanStart s)
      s.endTwoColumns hstart (by simp only [List.length_drop]; omega)
    have hhas : hasNext s
        = .ok (b, { s with isNext := b, pointerEqualFieldsNext := p', isNextCheck := true }) := by
      unfold scanStart at h1
      simp [hasNext, heq, hnc, h1]
    cases b with
    | false =>
      rw [h2 rfl]
      simp only [drain, hhas]
    | true =>
      obtain ⟨h4, h5, r, h6, h7⟩ := h3 rfl
      have hget : s.pairs[p']? = some r := by
        rw [List.getElem?_drop] at h6
        have : scanStart s + (p' - scanStart s) = p' := by omega
        rw [this] at h6
        exact h6
      have hnext : next { s with
            isNext := true, pointerEqualFieldsNext := p', isNextCheck := true }
          = { s with
              isNext := true, pointerEqualFieldsNext := p', isNextCheck := false,
              isFirst := false, twoColumns := p' } := by
        simp [next, heq]
      have hrow : currentRow { s with
            isNext := true, pointerEqualFieldsNext := p', isNextCheck := false,
            isFirst := false, twoColumns := p' } = .ok r := by
        simp [currentRow, getElementAt, hn, hget]
      have hrec := ih { s with
            isNext := true, pointerEqualFieldsNext := p', isNextCheck := false,
            isFirst := false, twoColumns := p' }
        heq rfl hn (by simp [scanStart]; omega) hend (by simp [scanStart]; omega)
      simp only [scanStart, Bool.false_eq_true, if_false] at hrec
      simp only [drain, hhas, hnext, hrow, hrec, h7]
      simp only [List.drop_drop]
      have : scanStart s + (p' - scanStart s + 1) = p' + 1 := by omega
      rw [this]

theorem hasNext_equal (t : EDBMemIterator) (heq : t.equalFields = true)
    (hnc : t.isNextCheck = false) (hstart : scanStart t ≤ t.endTwoColumns)
    (hend : t.endTwoColumns ≤ t.pairs.length) :
    ∃ b t1, hasNext t = .ok (b, t1) ∧
      (b = false ↔ ∀ r ∈ (t.pairs.drop (scanStart t)).take (t.endTwoColumns - scanStart t),
        r.1 ≠ r.2) := by
  obtain ⟨b, p', h1, h2, h3⟩ := scanEqual_spec (t.pairs.drop (scanStart t)) (scanStart t)
    t.endTwoColumns hstart (by simp only [List.length_drop]; omega)
  refine ⟨b, { t with isNext := b, pointerEqualFieldsNext := p', isNextCheck := true }, ?_, ?_⟩
  · unfold scanStart at h1
    simp [hasNext, heq, hnc, h1]
  · cases b with
    | false =>
      have := h2 rfl
      rw [List.filter_eq_nil_iff] at this
      simp only [true_iff]
      intro r hr
      simpa using this r hr
    | true =>
      obtain ⟨_, _, r, _, h7⟩ := h3 rfl
      simp only [Bool.true_eq_false, false_iff]
      intro hall
      have hmem : r ∈ ((t.pairs.drop (scanStart t)).take (t.endTwoColumns - scanStart t)).filter
          (fun r => decide (r.1 = r.2)) := by
        rw [h7]; exact List.mem_cons_self _ _
      rw [List.mem_filter] at hmem
      exact hall r hmem.1 (by simpa using hmem.2)

theorem init2_equal_drain (s0 : EDBMemIterator) (id : Nat) (ds : Bool) (v : List Row)
    (c1 : Bool) (vc1 : Nat) (c2 : Bool) (vc2 : Nat) (hnc : s0.isNextCheck = false)
    (s : EDBMemIterator) (h : init2 s0 id ds v c1 vc1 c2 vc2 true = .ok s) :
    drain (v.length + 1) s = some (.ok (((v.drop s.twoColumns).take
      (s.endTwoColumns - s.twoColumns)).filter (fun r => decide (r.1 = r.2)))) := by
  obtain ⟨h1, h2, h3, h4, h5, h6, h7, _⟩ := init2_fields s0 id ds v c1 vc1 c2 vc2 true s h
  have hstart : scanStart s = s.twoColumns := by simp [scanStart, h6]
  have := drain_equal (v.length + 1) s h5 (by rw [h7, hnc]) h4 (by rw [hstart]; exact h1)
    (by rw [h3]; exact h2) (by rw [hstart]; omega)
  rw [hstart, h3] at this
  exact this

/-- C11: for every vector and an iterator set up by `init2` with `equalFields`
on, on an object that carries no cached look-ahead, the loop
`while (hasNext()) { next(); read the row }` yields exactly the rows of the
cursor's range whose two columns are equal, in index order (for an unbound scan
the range is the whole vector); and in equal-fields mode a call of `hasNext`
without a cached answer returns false exactly when no row with equal columns
remains in the range. -/
theorem init2_equalFields_yields (s0 : EDBMemIterator) (id : Nat) (ds : Bool) (v : List Row)
    (c1 : Bool) (vc1 : Nat) (c2 : Bool) (vc2 : Nat) (hnc : s0.isNextCheck = false) :
    (∀ s, init2 s0 id ds v c1 vc1 c2 vc2 true = .ok s →
      drain (v.length + 1) s = some (.ok (((v.drop s.twoColumns).take
        (s.endTwoColumns - s.twoColumns)).filter (fun r => decide (r.1 = r.2))))) ∧
    (∃ s, init2 s0 id ds v false vc1 false vc2 true = .ok s ∧
      drain (v.length + 1) s = some (.ok (v.filter (fun r => decide (r.1 = r.2))))) ∧
    (∀ t : EDBMemIterator, t.equalFields = true → t.isNextCheck = false →
      scanStart t ≤ t.endTwoColumns → t.endTwoColumns ≤ t.pairs.length →
      ∃ b t1, hasNext t = .ok (b, t1) ∧
        (b = false ↔ ∀ r ∈ (t.pairs.drop (scanStart t)).take (t.endTwoColumns - scanStart t),
          r.1 ≠ r.2)) := by
  refine ⟨fun s h => init2_equal_drain s0 id ds v c1 vc1 c2 vc2 hnc s h, ?_,
    fun t h1 h2 h3 h4 => hasNext_equal t h1 h2 h3 h4⟩
  refine ⟨_, rfl, ?_⟩
  have := init2_equal_drain s0 id ds v false vc1 false vc2 hnc _ rfl
  simpa [init2] using this

/-- Witness for C11: the relation `{(1,1),(1,2),(2,2),(3,4)}` scanned with column
0 bound to 1. -/
theorem init2_equalFields_yields_witness :
    (∃ s, init2 blankIterator 0 true rowsDiag true 1 false 0 true = .ok s ∧
      drain 5 s = some (.ok [(1, 1)])) ∧
    (∃ s, init2 blankIterator 0 true rowsDiag false 0 false 0 true = .ok s ∧
      drain (rowsDiag.length + 1) s
        = some (.ok (rowsDiag.filter (fun r => decide (r.1 = r.2))))) :=
  ⟨⟨_, rfl, ((init2_equalFields_yields blankIterator 0 true rowsDiag true 1 false 0 rfl).1 _
      rfl).trans (by decide)⟩,
    (init2_equalFields_yields blankIterator 0 true rowsDiag false 0 false 0 rfl).2.1⟩

/-! ## The cursor of init2 with only column 1 bound -/

theorem init2_second_bound (s0 : EDBMemIterator) (id : Nat) (v : List Row) (vc1 vc2 : Nat)
    (hs : SortedBy ltSecond v) (hb : ∀ r ∈ v, r.1 ≤ TERM_MAX) :
    ∃ s, init2 s0 id false v false vc1 true vc2 false = .ok s ∧
      drain (v.length + 1) s = some (.ok (v.filter (fun r => decide (r.2 = vc2)))) := by
  obtain ⟨_, hlo2, hlo3, hlo4⟩ := lower_bound_spec ltSecond v (0, vc2)
    (partitioned_lower hs ltSecond_irrefl ltSecond_trans_left _) 0 v.length (Nat.zero_le _)
    (Nat.le_refl _)
  have hbound : ∀ (i : Nat) (x : Row), v[i]? = some x → x.1 ≤ TERM_MAX :=
    fun i x hx => hb x (List.mem_iff_getElem?.2 ⟨i, hx⟩)
  have hlen : ∀ (i : Nat) (x : Row), v[i]? = some x → i < v.length :=
    fun i x hx => (List.getElem?_eq_some.1 hx).1
  have hbefore : ∀ (i : Nat) (x : Row), i < lower_bound ltSecond v 0 v.length (0, vc2) → v[i]? = some x →
      decide (x.2 = vc2) = false := by
    intro i x hi hx
    have := (ltSecond_iff _ _).1 (hlo3 i x (Nat.zero_le _) hi hx)
    simp only [decide_eq_false_iff_not]
    simp only at this
    omega
  have hge : ∀ (i : Nat) (x : Row), lower_bound ltSecond v 0 v.length (0, vc2) ≤ i → v[i]? = some x →
      vc2 ≤ x.2 := by
    intro i x hi hx
    have := (ltSecond_eq_false_iff _ _).1 (hlo4 i x hi (hlen i x hx) hx)
    simp only at this
    omega
  simp only [init2, if_true, Bool.false_eq_true, if_false, Bool.not_false]
  generalize lower_bound ltSecond v 0 v.length (0, vc2) = lo at *
  by_cases hok : lowerOkSecond v lo vc2 = true
  · rw [if_pos hok]
    have hlolt : lo < v.length := by
      unfold lowerOkSecond at hok
      cases hx : v[lo]? with
      | none => rw [hx] at hok; exact absurd hok Bool.false_ne_true
      | some x => exact hlen lo x hx
    obtain ⟨hhi1, hhi2, hhi3, hhi4⟩ := upper_bound_spec ltSecond v (TERM_MAX, vc2)
      (partitioned_upper hs ltSecond_irrefl ltSecond_trans_right _) lo v.length
      (Nat.le_of_lt hlolt) (Nat.le_refl _)
    generalize upper_bound ltSecond v lo v.length (TERM_MAX, vc2) = hi at *
    refine ⟨_, rfl, ?_⟩
    rw [drain_plain_first _ _ rfl rfl rfl rfl rfl hhi1 hhi2 (by simp; omega)]
    simp only
    rw [filter_eq_range v _ lo hi hhi1 hbefore]
    · intro i x h1 h2 hx
      have h3 := (ltSecond_eq_false_iff _ _).1 (hhi3 i x h1 h2 hx)
      have h4 := hge i x h1 hx
      simp only at h3
      simp only [decide_eq_true_eq]
      omega
    · intro i x h1 hx
      have h3 := (ltSecond_iff _ _).1 (hhi4 i x h1 (hlen i x hx) hx)
      have h4 := hbound i x hx
      simp only at h3
      simp only [decide_eq_false_iff_not]
      omega
  · rw [if_neg hok]
    refine ⟨_, rfl, ?_⟩
    rw [drain_plain_first _ _ rfl rfl rfl rfl rfl (Nat.le_refl _) (Nat.le_refl _)
      (by simp)]
    simp only
    rw [filter_eq_range v _ v.length v.length (Nat.le_refl _)]
    · intro i x hi hx
      by_cases hilo : i < lo
      · exact hbefore i x hilo hx
      · have hlolt : lo < v.length := by omega
        have hxlo : v[lo]? = some v[lo] := List.getElem?_eq_getElem hlolt
        have h1 : v[lo].2 ≠ vc2 := by
          intro h
          apply hok
          simp [lowerOkSecond, hxlo, h]
        have h2 := hge lo _ (Nat.le_refl _) hxlo
        have h3 := (ltSecond_eq_false_iff _ _).1
          (sortedBy_getElem hs ltSecond_irrefl lo i _ x (by omega) hxlo hx)
        simp only [decide_eq_false_iff_not]
        omega
    · intro i x h1 h2 hx
      have := hlen i x hx
      omega
    · intro i x h1 hx
      have := hlen i x hx
      omega

/-! ## skipDuplicatedFirstColumn and getIterator -/

/-- C14, the counterexample: after `init2` with non-default sorting and no bound
column over the vector `[(1,2),(1,3)]`, `skipDuplicatedFirstColumn()` sets
`ignoreSecondColumn` and the rows yielded change from `(1,2),(1,3)` to `(1,2)`;
with only column 1 bound (to 2) the call sets `ignoreSecondColumn` as well. -/
theorem skipDuplicated_nondefault :
    (∃ s, init2 blankIterator 0 false rowsBySecond false 0 false 0 false = .ok s ∧
      (skipDuplicatedFirstColumn s).ignoreSecondColumn = true ∧
      drain 3 s = some (.ok [(1, 2), (1, 3)]) ∧
      drain 3 (skipDuplicatedFirstColumn s) = some (.ok [(1, 2)])) ∧
    (∃ s, init2 blankIterator 0 false rowsBySecond false 0 true 2 false = .ok s ∧
      (skipDuplicatedFirstColumn s).ignoreSecondColumn = true) :=
  ⟨⟨_, rfl, by decide, by decide, by decide⟩, ⟨_, rfl, by decide⟩⟩

/-- C14, as amended: `skipDuplicatedFirstColumn()` takes effect for every
iterator set up by `init2` with column 0 unbound, whatever the sorting and
whether or not column 1 is bound: it sets `ignoreSecondColumn`. For an iterator
set up by `init2` with column 0 bound, or by `init1`, the call is a no-op:
`ignoreSecondColumn` stays false and the iterator, hence the rows it yields, is
unchanged. -/
theorem skipDuplicated_effect (s0 : EDBMemIterator) (id : Nat) (ds : Bool) (v : List Row)
    (c1 : Bool) (vc1 : Nat) (c2 : Bool) (vc2 : Nat) (ef : Bool) (s : EDBMemIterator)
    (h : init2 s0 id ds v c1 vc1 c2 vc2 ef = .ok s) :
    (c1 = true → skipDuplicatedFirstColumn s = s ∧ s.ignoreSecondColumn = false) ∧
    (c1 = false → (skipDuplicatedFirstColumn s).ignoreSecondColumn = true) ∧
    (∀ (w : List Nat) (c : Bool) (vc : Nat),
      skipDuplicatedFirstColumn (init1 s0 id w c vc) = init1 s0 id w c vc ∧
      (init1 s0 id w c vc).ignoreSecondColumn = false) := by
  obtain ⟨_, _, _, _, _, _, _, _, h9, h10, _⟩ := init2_fields s0 id ds v c1 vc1 c2 vc2 ef s h
  refine ⟨fun hc => ?_, fun hc => ?_, fun w c vc => ?_⟩
  · rw [hc] at h10
    simp [skipDuplicatedFirstColumn, h10, h9]
  · rw [hc] at h10
    simp [skipDuplicatedFirstColumn, h10]
  · simp [skipDuplicatedFirstColumn, init1]

/-- Witness for C14 as amended: `{(1,2),(1,3),(1,4),(2,5)}` with column 0 bound
to 1. -/
theorem skipDuplicated_effect_witness :
    ∃ s, init2 blankIterator 0 true rowsS3 true 1 false 0 false = .ok s ∧
      ((true = true → skipDuplicatedFirstColumn s = s ∧ s.ignoreSecondColumn = false) ∧
      (true = false → (skipDuplicatedFirstColumn s).ignoreSecondColumn = true) ∧
      (∀ (w : List Nat) (c : Bool) (vc : Nat),
        skipDuplicatedFirstColumn (init1 blankIterator 0 w c vc) = init1 blankIterator 0 w c vc ∧
        (init1 blankIterator 0 w c vc).ignoreSecondColumn = false)) :=
  ⟨_, rfl, skipDuplicated_effect blankIterator 0 true rowsS3 true 1 false 0 false _ rfl⟩

/-- C12: for `{(1,2),(2,3),(3,1)}` and the literal `p(X,1)` the cursor of
`getIterator` is set up on `twoColumn1`, not on `twoColumn2`, and yields no row,
although the row `(3,1)` has second column 1; the cursor of `getSortedIterator`
for the same literal yields `(3,1)`. -/
theorem getIterator_second_bound :
    (∃ s, getIterator blankIterator relS1 literalXOne = .ok s ∧
      s.pairs = relS1.twoColumn1 ∧ drain 4 s = some (.ok [])) ∧
    (3, 1) ∈ relS1.twoColumn1 ∧
    (∃ s, getSortedIterator blankIterator relS1 literalXOne [0] = .ok s ∧
      s.pairs = relS1.twoColumn2 ∧ drain 4 s = some (.ok [(3, 1)])) :=
  ⟨⟨_, rfl, by decide, by decide⟩, by decide, ⟨_, rfl, by decide, by decide⟩⟩

/-! ## Literals of arity 2 and orderings -/

theorem hasRepeatedVars_pair (p : Nat) (t0 t1 : VTerm) :
    Literal.hasRepeatedVars ⟨p, [t0, t1]⟩
      = (t0.isVariable && t1.isVariable && decide (t0.id = t1.id)) := by
  by_cases h0 : t0.isVariable = true <;> by_cases h1 : t1.isVariable = true <;>
    simp [Literal.hasRepeatedVars, Literal.varIds, List.filter, h0, h1]

theorem bindingsOf_pair (p : Nat) (t0 t1 : VTerm) :
    bindingsOf ⟨p, [t0, t1]⟩
      = { c1 := !t0.isVariable, vc1 := if !t0.isVariable then t0.value else 0,
          c2 := !t1.isVariable, vc2 := if !t1.isVariable then t1.value else 0 } := by
  simp [bindingsOf, Literal.getTermAtPos, Literal.getTupleSize]

theorem matchesConstants_pair (p : Nat) (t0 t1 : VTerm) (r : Row) :
    matchesConstants ⟨p, [t0, t1]⟩ r ↔
      (t0.isVariable = false → r.1 = t0.value) ∧ (t1.isVariable = false → r.2 = t1.value) := by
  constructor
  · intro h
    exact ⟨fun h0 => h 0 t0 rfl h0, fun h1 => h 1 t1 rfl h1⟩
  · intro h i t hi ht
    have hlt : i < 2 := (List.getElem?_eq_some.1 hi).1
    rcases (by omega : i = 0 ∨ i = 1) with rfl | rfl
    · simp only [List.getElem?_cons_zero, Option.some.injEq] at hi
      subst hi
      exact h.1 ht
    · simp only [List.getElem?_cons_succ, List.getElem?_cons_zero, Option.some.injEq] at hi
      subst hi
      exact h.2 ht

theorem sorted_first_ord (f : Nat) (hf : f = 0 ∨ f = 1) (v : List Row) (P : Row → Bool)
    (c : Nat) (hs : SortedBy ltPair v) (hc : f = 1 → ∀ r, P r = true → r.1 = c) :
    (v.filter P).Pairwise (fun a b => rowAt a f < rowAt b f ∨
      (rowAt a f = rowAt b f ∧ rowAt a (1 - f) ≤ rowAt b (1 - f))) := by
  have hsub : SortedBy ltPair (v.filter P) := List.Pairwise.sublist (List.filter_sublist _) hs
  refine List.Pairwise.imp_of_mem ?_ hsub
  intro a b ha hb hab
  have h := (ltPair_eq_false_iff b a).1 hab
  rcases hf with rfl | rfl
  · simp only [rowAt, if_true, Nat.sub_zero, Nat.succ_ne_zero, if_false]
    exact h
  · have e1 := hc rfl a (List.mem_filter.1 ha).2
    have e2 := hc rfl b (List.mem_filter.1 hb).2
    simp only [rowAt, Nat.succ_ne_zero, if_false, Nat.sub_self, if_true]
    omega

theorem sorted_second_ord (f : Nat) (hf : f = 0 ∨ f = 1) (v : List Row) (P : Row → Bool)
    (c : Nat) (hs : SortedBy ltSecond v) (hc : f = 0 → ∀ r, P r = true → r.2 = c) :
    (v.filter P).Pairwise (fun a b => rowAt a f < rowAt b f ∨
      (rowAt a f = rowAt b f ∧ rowAt a (1 - f) ≤ rowAt b (1 - f))) := by
  have hsub : SortedBy ltSecond (v.filter P) := List.Pairwise.sublist (List.filter_sublist _) hs
  refine List.Pairwise.imp_of_mem ?_ hsub
  intro a b ha hb hab
  have h := (ltSecond_eq_false_iff b a).1 hab
  rcases hf with rfl | rfl
  · have e1 := hc rfl a (List.mem_filter.1 ha).2
    have e2 := hc rfl b (List.mem_filter.1 hb).2
    simp only [rowAt, if_true, Nat.sub_zero, Nat.succ_ne_zero, if_false]
    omega
  · simp only [rowAt, Nat.succ_ne_zero, if_false, Nat.sub_self, if_true]
    exact h

theorem drain_plain_all (s0 : EDBMemIterator) (id : Nat) (ds : Bool) (v : List Row)
    (vc1 vc2 : Nat) :
    ∃ s, init2 s0 id ds v false vc1 false vc2 false = .ok s ∧
      drain (v.length + 1) s = some (.ok v) := by
  refine ⟨_, rfl, ?_⟩
  rw [drain_plain_first _ _ rfl rfl rfl rfl rfl (Nat.zero_le _) (Nat.le_refl _) (by simp)]
  simp

/-! ## The cursor of getSortedIterator -/

theorem init2_equal_all (s0 : EDBMemIterator) (id : Nat) (ds : Bool) (v : List Row)
    (vc1 vc2 : Nat) (hnc : s0.isNextCheck = false) :
    ∃ s, init2 s0 id ds v false vc1 false vc2 true = .ok s ∧
      drain (v.length + 1) s = some (.ok (v.filter (fun r => decide (r.1 = r.2)))) := by
  refine ⟨_, rfl, ?_⟩
  have := init2_equal_drain s0 id ds v false vc1 false vc2 hnc _ rfl
  simpa [init2] using this

theorem getSortedIterator_rows (itr : EDBMemIterator) (rel : IndexedTupleTable) (l : Literal)
    (f : Nat) (rest : List Nat) (h2 : rel.sizeTuple = 2) (hwf : rel.WellFormed)
    (hl : l.tuple.length = 2) (hf : f = 0 ∨ f = 1)
    (hb : ∀ r ∈ rel.twoColumn1, r.1 ≤ TERM_MAX ∧ r.2 ≤ TERM_MAX)
    (hfresh : l.hasRepeatedVars = true → itr.isNextCheck = false) :
    ∃ (s : EDBMemIterator) (rows : List Row) (P : Row → Bool),
      getSortedIterator itr rel l (f :: rest) = .ok s ∧
      drain (rel.twoColumn1.length + 1) s = some (.ok rows) ∧
      (∀ r, P r = true ↔ matchesConstants l r ∧ repeatedEq l r) ∧
      rows.Perm (rel.twoColumn1.filter P) ∧
      rows.Pairwise (fun a b => rowAt a f < rowAt b f ∨
        (rowAt a f = rowAt b f ∧ rowAt a (1 - f) ≤ rowAt b (1 - f))) := by
  obtain ⟨pred, tuple⟩ := l
  match tuple, hl with
  | [t0, t1], _ =>
    have hlen2 : rel.twoColumn2.length = rel.twoColumn1.length := hwf.perm.length_eq
    have hb2 : ∀ r ∈ rel.twoColumn2, r.1 ≤ TERM_MAX :=
      fun r hr => (hb r (hwf.perm.mem_iff.1 hr)).1
    have hb1 : ∀ r ∈ rel.twoColumn1, r.2 ≤ TERM_MAX := fun r hr => (hb r hr).2
    rw [hasRepeatedVars_pair] at hfresh
    by_cases h0 : t0.isVariable = true
    · by_cases h1 : t1.isVariable = true
      · by_cases hid : t0.id = t1.id
        · -- the literal p(X,X)
          have hnc : itr.isNextCheck = false := hfresh (by simp [h0, h1, hid])
          have hP : ∀ r : Row, decide (r.1 = r.2) = true ↔
              matchesConstants ⟨pred, [t0, t1]⟩ r ∧ repeatedEq ⟨pred, [t0, t1]⟩ r := by
            intro r
            rw [matchesConstants_pair, repeatedEq_pair]
            simp [h0, h1, hid]
          rcases hf with rfl | rfl
          · obtain ⟨s, hs, hd⟩ := init2_equal_all itr pred true rel.twoColumn1 0 0 hnc
            refine ⟨s, _, _, ?_, hd, hP, List.Perm.refl _, ?_⟩
            · rw [← hs]
              simp [getSortedIterator, bindingsOf_pair, hasRepeatedVars_pair, h0, h1, h2, hid,
                Literal.getTupleSize]
            · exact sorted_first_ord 0 (Or.inl rfl) _ _ 0 hwf.sorted1 (by simp)
          · obtain ⟨s, hs, hd⟩ := init2_equal_all itr pred false rel.twoColumn2 0 0 hnc
            rw [hlen2] at hd
            refine ⟨s, _, _, ?_, hd, hP, hwf.perm.filter _, ?_⟩
            · rw [← hs]
              simp [getSortedIterator, bindingsOf_pair, hasRepeatedVars_pair, h0, h1, h2, hid,
                Literal.getTupleSize]
            · exact sorted_second_ord 1 (Or.inr rfl) _ _ 0 hwf.sorted2 (by simp)
        · -- the literal p(X,Y)
          have hP : ∀ r : Row, (fun _ : Row => true) r = true ↔
              matchesConstants ⟨pred, [t0, t1]⟩ r ∧ repeatedEq ⟨pred, [t0, t1]⟩ r := by
            intro r
            rw [matchesConstants_pair, repeatedEq_pair]
            simp [h0, h1, hid]
          rcases hf with rfl | rfl
          · obtain ⟨s, hs, hd⟩ := drain_plain_all itr pred true rel.twoColumn1 0 0
            refine ⟨s, _, _, ?_, hd, hP, ?_, ?_⟩
            · rw [← hs]
              simp [getSortedIterator, bindingsOf_pair, hasRepeatedVars_pair, h0, h1, h2, hid,
                Literal.getTupleSize]
            · simp
            · have := sorted_first_ord 0 (Or.inl rfl) rel.twoColumn1 (fun _ => true) 0
                hwf.sorted1 (by simp)
              simpa using this
          · obtain ⟨s, hs, hd⟩ := drain_plain_all itr pred false rel.twoColumn2 0 0
            rw [hlen2] at hd
            refine ⟨s, _, _, ?_, hd, hP, ?_, ?_⟩
            · rw [← hs]
              simp [getSortedIterator, bindingsOf_pair, hasRepeatedVars_pair, h0, h1, h2, hid,
                Literal.getTupleSize]
            · simpa using hwf.perm
            · have := sorted_second_ord 1 (Or.inr rfl) rel.twoColumn2 (fun _ => true) 0
                hwf.sorted2 (by simp)
              simpa using this
      · -- the literal p(X,c)
        have h1' : t1.isVariable = false := by simpa using h1
        obtain ⟨s, hs, hd⟩ := init2_second_bound itr pred rel.twoColumn2 0 t1.value
          hwf.sorted2 hb2
        rw [hlen2] at hd
        refine ⟨s, _, _, ?_, hd, ?_, hwf.perm.filter _, ?_⟩
        · rw [← hs]
          simp [getSortedIterator, bindingsOf_pair, hasRepeatedVars_pair, h0, h1', h2,
            Literal.getTupleSize]
        · intro r
          rw [matchesConstants_pair, repeatedEq_pair]
          simp [h0, h1']
        · exact sorted_second_ord f hf _ _ t1.value hwf.sorted2 (fun _ r hr => by simpa using hr)
    · have h0' : t0.isVariable = false := by simpa using h0
      by_cases h1 : t1.isVariable = true
      · -- the literal p(c,X)
        obtain ⟨s, hs, hd⟩ := init2_first_bound itr pred rel.twoColumn1 t0.value 0
          hwf.sorted1 hb1
        refine ⟨s, _, _, ?_, hd, ?_, List.Perm.refl _, ?_⟩
        · rw [← hs]
          simp [getSortedIterator, bindingsOf_pair, hasRepeatedVars_pair, h0', h1, h2,
            Literal.getTupleSize]
        · intro r
          rw [matchesConstants_pair, repeatedEq_pair]
          simp [h0', h1]
        · exact sorted_first_ord f hf _ _ t0.value hwf.sorted1 (fun _ r hr => by simpa using hr)
      · -- the literal p(c,d)
        have h1' : t1.isVariable = false := by simpa using h1
        obtain ⟨s, hs, hd⟩ := init2_both_bound itr pred rel.twoColumn1 t0.value t1.value
          hwf.sorted1
        refine ⟨s, _, _, ?_, hd, ?_, List.Perm.refl _, ?_⟩
        · rw [← hs]
          simp [getSortedIterator, bindingsOf_pair, hasRepeatedVars_pair, h0', h1', h2,
            Literal.getTupleSize]
        · intro r
          rw [matchesConstants_pair, repeatedEq_pair]
          simp only [h0', h1', decide_eq_true_eq]
          constructor
          · intro h; subst h; simp
          · intro h; exact Prod.ext (h.1.1 trivial) (h.1.2 trivial)
        · exact sorted_first_ord f hf _ _ t0.value hwf.sorted1
            (fun _ r hr => by
              have : r = (t0.value, t1.value) := by simpa using hr
              rw [this])

/-- The cursor of `getSortedIterator` on an object without a cached look-ahead:
for an arity-2 relation with sorted indexes, a literal of arity 2 and a fields
list that starts with the column `f` (0 or 1), the cursor yields, under the loop
`while (hasNext()) { next(); read the row }`, the rows of the relation that match
the constants and the repeated variable of the literal, each as often as it
occurs, in ascending order of column `f` with ties ordered by the other column.
The terms of the relation are 64-bit values. -/
theorem getSortedIterator_yields (itr : EDBMemIterator) (rel : IndexedTupleTable) (l : Literal)
    (f : Nat) (rest : List Nat) (h2 : rel.sizeTuple = 2) (hwf : rel.WellFormed)
    (hl : l.tuple.length = 2) (hf : f = 0 ∨ f = 1)
    (hb : ∀ r ∈ rel.twoColumn1, r.1 ≤ TERM_MAX ∧ r.2 ≤ TERM_MAX)
    (hfresh : l.hasRepeatedVars = true → itr.isNextCheck = false) :
    ∃ (s : EDBMemIterator) (rows : List Row) (P : Row → Bool),
      getSortedIterator itr rel l (f :: rest) = .ok s ∧
      drain (rel.twoColumn1.length + 1) s = some (.ok rows) ∧
      (∀ r, P r = true ↔ matchesConstants l r ∧ repeatedEq l r) ∧
      rows.Perm (rel.twoColumn1.filter P) ∧
      rows.Pairwise (fun a b => rowAt a f < rowAt b f ∨
        (rowAt a f = rowAt b f ∧ rowAt a (1 - f) ≤ rowAt b (1 - f))) :=
  getSortedIterator_rows itr rel l f rest h2 hwf hl hf hb hfresh

/-- An instance of `getSortedIterator_yields`: the relation
`{(1,2),(2,3),(3,1)}`, the literal `p(X,1)` and the fields `[0]`. -/
theorem getSortedIterator_yields_witness :
    ∃ (s : EDBMemIterator) (rows : List Row) (P : Row → Bool),
      getSortedIterator blankIterator relS1 literalXOne (0 :: []) = .ok s ∧
      drain (relS1.twoColumn1.length + 1) s = some (.ok rows) ∧
      (∀ r, P r = true ↔ matchesConstants literalXOne r ∧ repeatedEq literalXOne r) ∧
      rows.Perm (relS1.twoColumn1.filter P) ∧
      rows.Pairwise (fun a b => rowAt a 0 < rowAt b 0 ∨
        (rowAt a 0 = rowAt b 0 ∧ rowAt a (1 - 0) ≤ rowAt b (1 - 0))) :=
  getSortedIterator_yields blankIterator relS1 literalXOne 0 [] rfl
    ⟨by decide, by decide, by decide⟩ rfl (Or.inl rfl) (by decide) (by decide)

/-! ## Lookups of isEmpty -/

theorem noEqualRow_iff (v : List Row) : noEqualRow v = true ↔ ∀ r ∈ v, r.1 ≠ r.2 := by
  induction v with
  | nil => simp [noEqualRow]
  | cons r rs ih =>
    by_cases h : r.1 = r.2
    · simp [noEqualRow, h]
    · simp [noEqualRow, h, ih]

theorem existsAt_first (rel : IndexedTupleTable) (h2 : rel.sizeTuple = 2)
    (hs : SortedBy ltPair rel.twoColumn1) (v : Nat) :
    rel.existsAt 0 v = true ↔ ∃ r ∈ rel.twoColumn1, r.1 = v := by
  obtain ⟨_, hk2, hk3, hk4⟩ := lower_bound_spec ltPair rel.twoColumn1 (v, 0)
    (partitioned_lower hs ltPair_irrefl ltPair_trans_left _) 0 rel.twoColumn1.length
    (Nat.zero_le _) (Nat.le_refl _)
  simp only [IndexedTupleTable.existsAt, h2, Nat.succ_ne_self, if_false, if_true]
  generalize lower_bound ltPair rel.twoColumn1 0 rel.twoColumn1.length (v, 0) = k at *
  constructor
  · intro h
    cases hx : rel.twoColumn1[k]? with
    | none => rw [hx] at h; exact absurd h Bool.false_ne_true
    | some x =>
      rw [hx] at h
      exact ⟨x, List.mem_iff_getElem?.2 ⟨k, hx⟩, by simpa using h⟩
  · rintro ⟨r, hr, hrv⟩
    obtain ⟨j, hj⟩ := List.mem_iff_getElem?.1 hr
    have hjlen : j < rel.twoColumn1.length := (List.getElem?_eq_some.1 hj).1
    have hkj : k ≤ j := by
      by_contra hc
      have := (ltPair_iff _ _).1 (hk3 j r (Nat.zero_le _) (by omega) hj)
      simp only at this
      omega
    have hklen : k < rel.twoColumn1.length := by omega
    have hxk := List.getElem?_eq_getElem hklen
    have h1 := (ltPair_eq_false_iff _ _).1 (hk4 k _ (Nat.le_refl _) hklen hxk)
    have h3 := (ltPair_eq_false_iff _ _).1
      (sortedBy_getElem hs ltPair_irrefl k j _ r hkj hxk hj)
    rw [hxk]
    simp only [beq_iff_eq]
    simp only at h1
    omega

theorem existsAt_second (rel : IndexedTupleTable) (h2 : rel.sizeTuple = 2)
    (hs : SortedBy ltSecond rel.twoColumn2) (v : Nat) :
    rel.existsAt 1 v = true ↔ ∃ r ∈ rel.twoColumn2, r.2 = v := by
  obtain ⟨_, hk2, hk3, hk4⟩ := lower_bound_spec ltSecond rel.twoColumn2 (0, v)
    (partitioned_lower hs ltSecond_irrefl ltSecond_trans_left _) 0 rel.twoColumn2.length
    (Nat.zero_le _) (Nat.le_refl _)
  simp only [IndexedTupleTable.existsAt, h2, Nat.succ_ne_self, if_false, Nat.succ_ne_zero]
  generalize lower_bound ltSecond rel.twoColumn2 0 rel.twoColumn2.length (0, v) = k at *
  constructor
  · intro h
    cases hx : rel.twoColumn2[k]? with
    | none => rw [hx] at h; exact absurd h Bool.false_ne_true
    | some x =>
      rw [hx] at h
      exact ⟨x, List.mem_iff_getElem?.2 ⟨k, hx⟩, by simpa using h⟩
  · rintro ⟨r, hr, hrv⟩
    obtain ⟨j, hj⟩ := List.mem_iff_getElem?.1 hr
    have hjlen : j < rel.twoColumn2.length := (List.getElem?_eq_some.1 hj).1
    have hkj : k ≤ j := by
      by_contra hc
      have := (ltSecond_iff _ _).1 (hk3 j r (Nat.zero_le _) (by omega) hj)
      simp only at this
      omega
    have hklen : k < rel.twoColumn2.length := by omega
    have hxk := List.getElem?_eq_getElem hklen
    have h1 := (ltSecond_eq_false_iff _ _).1 (hk4 k _ (Nat.le_refl _) hklen hxk)
    have h3 := (ltSecond_eq_false_iff _ _).1
      (sortedBy_getElem hs ltSecond_irrefl k j _ r hkj hxk hj)
    rw [hxk]
    simp only [beq_iff_eq]
    simp only at h1
    omega

theorem existsTerm_iff (rel : IndexedTupleTable)
    (hs : rel.singleColumn.Pairwise (fun a b => a ≤ b)) (v : Nat) :
    rel.existsTerm v = true ↔ v ∈ rel.singleColumn := by
  have hget : ∀ (i j : Nat) (x y : Nat), i ≤ j → rel.singleColumn[i]? = some x →
      rel.singleColumn[j]? = some y → x ≤ y := by
    intro i j x y hij hx hy
    obtain ⟨hi, rfl⟩ := List.getElem?_eq_some.1 hx
    obtain ⟨hj, rfl⟩ := List.getElem?_eq_some.1 hy
    rcases Nat.lt_or_eq_of_le hij with hlt | rfl
    · exact (List.pairwise_iff_getElem.1 hs) i j hi hj hlt
    · exact Nat.le_refl _
  have hpart : Partitioned (fun x => decide (x < v)) rel.singleColumn := by
    intro i j x y hij hx hy hP
    have := hget i j x y hij hx hy
    simp only [decide_eq_true_eq] at hP ⊢
    omega
  obtain ⟨_, hk2, hk3, hk4⟩ := lower_bound_spec (fun a b => decide (a < b)) rel.singleColumn v
    hpart 0 rel.singleColumn.length (Nat.zero_le _) (Nat.le_refl _)
  simp only [IndexedTupleTable.existsTerm, binary_search]
  generalize lower_bound (fun a b => decide (a < b)) rel.singleColumn 0
    rel.singleColumn.length v = k at *
  constructor
  · intro h
    cases hx : rel.singleColumn[k]? with
    | none => rw [hx] at h; exact absurd h Bool.false_ne_true
    | some x =>
      rw [hx] at h
      have hklen : k < rel.singleColumn.length := (List.getElem?_eq_some.1 hx).1
      have h1 := hk4 k x (Nat.le_refl _) hklen hx
      simp only [Bool.not_eq_true', decide_eq_false_iff_not] at h h1
      have : x = v := by omega
      rw [← this]
      exact List.mem_iff_getElem?.2 ⟨k, hx⟩
  · intro hmem
    obtain ⟨j, hj⟩ := List.mem_iff_getElem?.1 hmem
    have hjlen : j < rel.singleColumn.length := (List.getElem?_eq_some.1 hj).1
    have hkj : k ≤ j := by
      by_contra hc
      have := hk3 j v (Nat.zero_le _) (by omega) hj
      simp at this
    have hklen : k < rel.singleColumn.length := by omega
    have hxk := List.getElem?_eq_getElem hklen
    have := hget k j _ v hkj hxk hj
    rw [hxk]
    simp only [Bool.not_eq_true', decide_eq_false_iff_not]
    omega

/-! ## Correctness of isEmpty without a filter -/

theorem isEmpty_pair (rel : IndexedTupleTable) (l : Literal) (vals : List Nat)
    (h2 : rel.sizeTuple = 2) (hwf : rel.WellFormed) (hl : l.tuple.length = 2) :
    ∃ b, isEmpty rel l none vals = .ok b ∧
      (b = true ↔ ¬ ∃ r ∈ rel.twoColumn1, matchesConstants l r ∧ repeatedEq l r) := by
  obtain ⟨pred, tuple⟩ := l
  match tuple, hl with
  | [t0, t1], _ =>
    simp only [matchesConstants_pair, repeatedEq_pair]
    by_cases h0 : t0.isVariable = true
    · by_cases h1 : t1.isVariable = true
      · by_cases hid : t0.id = t1.id
        · refine ⟨noEqualRow rel.twoColumn1, ?_, ?_⟩
          · simp [isEmpty, Literal.getNUniqueVars, Literal.varIds, Literal.getTupleSize,
              findConstant, List.filter, h0, h1, hid]
          · rw [noEqualRow_iff]
            simp only [h0, h1, hid, Bool.true_eq_false, false_implies, true_implies, true_and]
            constructor
            · rintro h ⟨r, hr, hrr⟩
              exact h r hr hrr
            · intro h r hr hrr
              exact h ⟨r, hr, hrr⟩
        · refine ⟨rel.getNTuples == 0, ?_, ?_⟩
          · simp [isEmpty, Literal.getNUniqueVars, Literal.varIds, Literal.getTupleSize,
              List.filter, h0, h1, hid]
          · simp [IndexedTupleTable.getNTuples, h2, h0, h1, hid, List.eq_nil_iff_forall_not_mem]
      · have h1' : t1.isVariable = false := by simpa using h1
        refine ⟨!rel.existsAt 1 t1.value, ?_, ?_⟩
        · simp [isEmpty, Literal.getNUniqueVars, Literal.varIds, Literal.getTupleSize,
            findConstant, List.filter, h0, h1']
        · rw [Bool.not_eq_true', ← Bool.not_eq_true, existsAt_second rel h2 hwf.sorted2]
          simp only [h0, h1', Bool.true_eq_false, false_implies, true_implies, true_and,
            and_true]
          constructor
          · rintro h ⟨r, hr, hrv, _⟩
            exact h ⟨r, hwf.perm.mem_iff.2 hr, hrv⟩
          · rintro h ⟨r, hr, hrv⟩
            exact h ⟨r, hwf.perm.mem_iff.1 hr, hrv, fun hf => absurd hf (by decide)⟩
    · have h0' : t0.isVariable = false := by simpa using h0
      by_cases h1 : t1.isVariable = true
      · refine ⟨!rel.existsAt 0 t0.value, ?_, ?_⟩
        · simp [isEmpty, Literal.getNUniqueVars, Literal.varIds, Literal.getTupleSize,
            findConstant, List.filter, h0', h1]
        · rw [Bool.not_eq_true', ← Bool.not_eq_true, existsAt_first rel h2 hwf.sorted1]
          simp [h0', h1]
      · have h1' : t1.isVariable = false := by simpa using h1
        refine ⟨!binary_search ltPair rel.twoColumn1 (t0.value, t1.value), ?_, ?_⟩
        · simp [isEmpty, Literal.getNUniqueVars, Literal.varIds, Literal.getTupleSize,
            Literal.getTermAtPos, List.filter, h0', h1']
        · rw [binary_search_ltPair _ _ hwf.sorted1]
          simp only [h0', h1', Bool.not_eq_true', decide_eq_false_iff_not, true_implies,
            Bool.false_eq_true, false_implies, and_true]
          constructor
          · rintro h ⟨r, hr, hr1, hr2⟩
            exact h ((Prod.ext hr1 hr2 : r = (t0.value, t1.value)) ▸ hr)
          · intro h hm
            exact h ⟨_, hm, rfl, rfl⟩

theorem isEmpty_single (rel : IndexedTupleTable) (l : Literal) (vals : List Nat)
    (h1 : rel.sizeTuple = 1) (hs : rel.singleColumn.Pairwise (fun a b => a ≤ b))
    (hl : l.tuple.length = 1) :
    ∃ b, isEmpty rel l none vals = .ok b ∧
      (b = true ↔ ¬ ∃ x ∈ rel.singleColumn, matchesTerm l x) := by
  obtain ⟨pred, tuple⟩ := l
  match tuple, hl with
  | [t], _ =>
    by_cases h0 : t.isVariable = true
    · refine ⟨rel.getNTuples == 0, ?_, ?_⟩
      · simp [isEmpty, Literal.getNUniqueVars, Literal.varIds, Literal.getTupleSize,
          List.filter, h0]
      · simp [IndexedTupleTable.getNTuples, h1, matchesTerm, h0,
          List.eq_nil_iff_forall_not_mem]
    · have h0' : t.isVariable = false := by simpa using h0
      refine ⟨!rel.existsAt 0 t.value, ?_, ?_⟩
      · simp [isEmpty, Literal.getNUniqueVars, Literal.varIds, Literal.getTupleSize,
          findConstant, List.filter, h0']
      · have he : rel.existsAt 0 t.value = rel.existsTerm t.value := by
          simp [IndexedTupleTable.existsAt, h1]
        rw [he, Bool.not_eq_true', ← Bool.not_eq_true, existsTerm_iff rel hs]
        simp [matchesTerm, h0']

/-- C17: for a relation of arity 1 or 2 with sorted indexes and a literal of that
arity, `isEmpty` without a filter returns, and returns true exactly when no row
of the relation matches the literal (agrees with its constants and has equal
entries where it repeats a variable). -/
theorem isEmpty_correct (rel : IndexedTupleTable) (l : Literal) (vals : List Nat) :
    (rel.sizeTuple = 2 → rel.WellFormed → l.tuple.length = 2 →
      ∃ b, isEmpty rel l none vals = .ok b ∧
        (b = true ↔ ¬ ∃ r ∈ rel.twoColumn1, matchesConstants l r ∧ repeatedEq l r)) ∧
    (rel.sizeTuple = 1 → rel.singleColumn.Pairwise (fun a b => a ≤ b) → l.tuple.length = 1 →
      ∃ b, isEmpty rel l none vals = .ok b ∧
        (b = true ↔ ¬ ∃ x ∈ rel.singleColumn, matchesTerm l x)) :=
  ⟨fun h2 hwf hl => isEmpty_pair rel l vals h2 hwf hl,
    fun h1 hs hl => isEmpty_single rel l vals h1 hs hl⟩

/-- Witness for C17: the relation `{(1,2),(2,3),(3,1)}` and the literal `p(X,X)`,
which no row matches. -/
theorem isEmpty_correct_witness :
    isEmpty relS1 literalXX none [] = .ok true ∧
    ∃ b, isEmpty relS1 literalXX none [] = .ok b ∧
      (b = true ↔ ¬ ∃ r ∈ relS1.twoColumn1, matchesConstants literalXX r ∧ repeatedEq literalXX r) :=
  ⟨by decide, (isEmpty_correct relS1 literalXX []).1 rfl ⟨by decide, by decide, by decide⟩ rfl⟩

/-- C18: `isEmpty` reads one value per filtered position, the first pattern only:
for `{(1,2),(2,3),(3,1)}`, the literal `p(X,Y)` and position 0 filtered by the two
patterns `5` and `1`, it returns true, although the literal bound to the pattern
`1` is not empty. -/
theorem isEmpty_first_pattern_only :
    isEmpty relS1 literalXY (some [0]) [5, 1] = .ok true ∧
    isEmpty relS1 literalXY (some [0]) [1] = .ok false ∧
    isEmpty relS1 literalXY (some [0]) [5] = .ok true := by decide

/-- C16: for `{(1,2),(2,2)}` and the literal `p(X,X)`, `getCardinality` returns 2,
the number of all rows, through its early return; one row has equal columns, and
the cursor of `getSortedIterator` for the same literal yields that one row. -/
theorem getCardinality_repeated :
    getCardinality blankIterator relEqual literalXX = some (.ok 2) ∧
    (relEqual.twoColumn1.filter (fun r => decide (r.1 = r.2))).length = 1 ∧
    (∃ s, getSortedIterator blankIterator relEqual literalXX [0] = .ok s ∧
      drain 3 s = some (.ok [(2, 2)])) ∧
    isEmpty relS1 literalXX none [] = .ok true ∧
    getCardinality blankIterator relS1 literalXX = some (.ok 3) :=
  ⟨by decide, by decide, ⟨_, rfl, by decide⟩, by decide, by decide⟩

/-! ## The empty relation -/

theorem init1_empty_hasNext (s0 : EDBMemIterator) (id : Nat) (c : Bool) (vc : Nat)
    (h : s0.equalFields = false) :
    hasNext (init1 s0 id [] c vc) = .ok (false, init1 s0 id [] c vc) := by
  cases c <;>
    simp [hasNext, init1, h, lower_bound, lowerBoundLoop, upper_bound, upperBoundLoop]

theorem init2_empty_hasNext (s0 : EDBMemIterator) (id : Nat) (ds : Bool) (c1 : Bool)
    (vc1 : Nat) (c2 : Bool) (vc2 : Nat) (ef : Bool) (s : EDBMemIterator)
    (hfresh : ef = true → s0.isNextCheck = false)
    (h : init2 s0 id ds [] c1 vc1 c2 vc2 ef = .ok s) :
    ∃ s1, hasNext s = .ok (false, s1) := by
  obtain ⟨h1, h2, h3, h4, h5, h6, h7, _, _, _, h11⟩ :=
    init2_fields s0 id ds [] c1 vc1 c2 vc2 ef s h
  have hend : s.endTwoColumns = 0 := by simpa using h2
  have htc : s.twoColumns = 0 := by omega
  cases ef with
  | true =>
    have hnc : s.isNextCheck = false := by rw [h7]; exact hfresh rfl
    refine ⟨{ s with isNext := false, pointerEqualFieldsNext := 0, isNextCheck := true }, ?_⟩
    simp [hasNext, h5, hnc, h6, htc, hend, h3, scanEqual]
  | false =>
    refine ⟨s, ?_⟩
    simp [hasNext, h5, h6, h11, htc, hend]

theorem isEmpty_empty (n : Nat) (l : Literal) (vals : List Nat)
    (h : (n = 1 ∧ l.tuple.length = 1) ∨ (n = 2 ∧ l.tuple.length = 2)) :
    isEmpty (emptyRelation n) l none vals = .ok true := by
  rcases h with ⟨rfl, hl⟩ | ⟨rfl, hl⟩
  · obtain ⟨b, hb, hiff⟩ := isEmpty_single (emptyRelation 1) l vals rfl List.Pairwise.nil hl
    have : b = true := hiff.2 (by simp [emptyRelation])
    rw [hb, this]
  · obtain ⟨b, hb, hiff⟩ := isEmpty_pair (emptyRelation 2) l vals rfl
      ⟨List.Pairwise.nil, List.Pairwise.nil, List.Perm.refl _⟩ hl
    have : b = true := hiff.2 (by simp [emptyRelation])
    rw [hb, this]

theorem getCardinality_empty (itr : EDBMemIterator) (n : Nat) (l : Literal)
    (hitr : itr.equalFields = false)
    (h : (n = 1 ∧ l.tuple.length = 1) ∨ (n = 2 ∧ l.tuple.length = 2)) :
    getCardinality itr (emptyRelation n) l = some (.ok 0) := by
  obtain ⟨pred, tuple⟩ := l
  rcases h with ⟨rfl, hl⟩ | ⟨rfl, hl⟩
  · match tuple, hl with
    | [t], _ =>
      by_cases h0 : t.isVariable = true
      · simp [getCardinality, Literal.getNVars, Literal.varIds, Literal.getTupleSize,
          List.filter, h0, IndexedTupleTable.getNTuples, emptyRelation]
      · have h0' : t.isVariable = false := by simpa using h0
        have hh := init1_empty_hasNext itr pred true t.value hitr
        simp [getCardinality, Literal.getNVars, Literal.varIds, Literal.getTupleSize,
          List.filter, h0', emptyRelation, bindingsOf, Literal.getTermAtPos, countLoop, hh]
  · match tuple, hl with
    | [t0, t1], _ =>
      by_cases h0 : t0.isVariable = true
      · by_cases h1 : t1.isVariable = true
        · simp [getCardinality, Literal.getNVars, Literal.varIds, Literal.getTupleSize,
            List.filter, h0, h1, IndexedTupleTable.getNTuples, emptyRelation]
        · have h1' : t1.isVariable = false := by simpa using h1
          simp [getCardinality, Literal.getNVars, Literal.varIds, Literal.getTupleSize,
            List.filter, h0, h1', emptyRelation, bindingsOf_pair, hasRepeatedVars_pair, init2,
            lower_bound, lowerBoundLoop, lowerOkSecond, countLoop, hasNext]
      · have h0' : t0.isVariable = false := by simpa using h0
        by_cases h1 : t1.isVariable = true
        · simp [getCardinality, Literal.getNVars, Literal.varIds, Literal.getTupleSize,
            List.filter, h0', h1, emptyRelation, bindingsOf_pair, hasRepeatedVars_pair, init2,
            lower_bound, lowerBoundLoop, lowerOkFirst, countLoop, hasNext]
        · have h1' : t1.isVariable = false := by simpa using h1
          simp [getCardinality, Literal.getNVars, Literal.varIds, Literal.getTupleSize,
            List.filter, h0', h1', emptyRelation, bindingsOf_pair, hasRepeatedVars_pair, init2,
            lower_bound, lowerBoundLoop, lowerOkFirst, countLoop, hasNext]

theorem init2_defined (s0 : EDBMemIterator) (id : Nat) (ds : Bool) (v : List Row)
    (c1 : Bool) (vc1 : Nat) (c2 : Bool) (vc2 : Nat) (ef : Bool)
    (h1 : c1 = true → ds = true) (h2 : c1 = false → c2 = true → ds = false) :
    ∃ s, init2 s0 id ds v c1 vc1 c2 vc2 ef = .ok s := by
  unfold init2
  cases c1 with
  | true =>
    rw [h1 rfl]
    simp only [if_true]
    split_ifs <;> exact ⟨_, rfl⟩
  | false =>
    cases c2 with
    | true =>
      rw [h2 rfl rfl]
      simp only [Bool.false_eq_true, if_false, if_true, Bool.not_false]
      split_ifs <;> exact ⟨_, rfl⟩
    | false =>
      simp only [Bool.false_eq_true, if_false]
      exact ⟨_, rfl⟩

/-- The empty relation on an object without a flag of an earlier use
(`equalFields` off before `init1`, no look-ahead cached before `init2` with
`equalFields`): for every literal of the relation's arity, an iterator set up
by `init1` or by `init2` answers false to its first `hasNext()`, `isEmpty`
returns true and `getCardinality` returns 0. -/
theorem empty_relation_exhausted (n : Nat) (l : Literal)
    (h : (n = 1 ∧ l.tuple.length = 1) ∨ (n = 2 ∧ l.tuple.length = 2)) :
    (∀ (s0 : EDBMemIterator) (id : Nat) (c : Bool) (vc : Nat), s0.equalFields = false →
      ∃ s1, hasNext (init1 s0 id (emptyRelation n).singleColumn c vc) = .ok (false, s1)) ∧
    (∀ (s0 : EDBMemIterator) (id : Nat) (ds c1 : Bool) (vc1 : Nat) (c2 : Bool) (vc2 : Nat)
        (ef : Bool) (v : List Row),
      v = (emptyRelation n).twoColumn1 ∨ v = (emptyRelation n).twoColumn2 →
      (ef = true → s0.isNextCheck = false) →
      (c1 = true → ds = true) → (c1 = false → c2 = true → ds = false) →
      ∃ s s1, init2 s0 id ds v c1 vc1 c2 vc2 ef = .ok s ∧ hasNext s = .ok (false, s1)) ∧
    (∀ vals, isEmpty (emptyRelation n) l none vals = .ok true) ∧
    (∀ itr : EDBMemIterator, itr.equalFields = false →
      getCardinality itr (emptyRelation n) l = some (.ok 0)) := by
  refine ⟨fun s0 id c vc hs0 => ⟨_, init1_empty_hasNext s0 id c vc hs0⟩, ?_,
    fun vals => isEmpty_empty n l vals h, fun itr hitr => getCardinality_empty itr n l hitr h⟩
  intro s0 id ds c1 vc1 c2 vc2 ef v hv hfresh ha1 ha2
  have hv' : v = [] := by rcases hv with rfl | rfl <;> rfl
  subst hv'
  obtain ⟨s, hs⟩ := init2_defined s0 id ds [] c1 vc1 c2 vc2 ef ha1 ha2
  obtain ⟨s1, hs1⟩ := init2_empty_hasNext s0 id ds c1 vc1 c2 vc2 ef s hfresh hs
  exact ⟨s, s1, hs, hs1⟩

/-- An instance of `empty_relation_exhausted`: the empty relation of arity 2 and
the literal `p(X,1)`. -/
theorem empty_relation_exhausted_witness :
    getCardinality blankIterator (emptyRelation 2) literalXOne = some (.ok 0) ∧
    isEmpty (emptyRelation 2) literalXOne none [] = .ok true ∧
    ∃ s s1, init2 blankIterator 0 false [] false 0 true 1 false = .ok s ∧
      hasNext s = .ok (false, s1) :=
  ⟨(empty_relation_exhausted 2 literalXOne (Or.inr ⟨rfl, rfl⟩)).2.2.2 blankIterator rfl,
    (empty_relation_exhausted 2 literalXOne (Or.inr ⟨rfl, rfl⟩)).2.2.1 [],
    (empty_relation_exhausted 2 literalXOne (Or.inr ⟨rfl, rfl⟩)).2.1 blankIterator 0 false false
      0 true 1 false [] (Or.inl rfl) (by decide) (by decide) (by decide)⟩

/-! ## The final sink: processResults -/

theorem getD_pad {α : Type} (l : List (Option α)) (k i : Nat) :
    (l ++ List.replicate k none).getD i none = l.getD i none := by
  simp only [List.getD_eq_getElem?_getD]
  by_cases h : i < l.length
  · rw [List.getElem?_append_left h]
  · have h' : l.length ≤ i := Nat.le_of_not_lt h
    rw [List.getElem?_append_right h', List.getElem?_eq_none h']
    by_cases h2 : i - l.length < k
    · rw [List.getElem?_replicate_of_lt h2]
      rfl
    · rw [List.getElem?_eq_none (by simpa using h2)]

theorem getD_set_same {α : Type} (l : List (Option α)) (b : Nat) (x : Option α)
    (h : b < l.length) : (l.set b x).getD b none = x := by
  simp [List.getD_eq_getElem?_getD, List.getElem?_set, h]

theorem getD_set_ne {α : Type} (l : List (Option α)) (b i : Nat) (x : Option α) (h : i ≠ b) :
    (l.set b x).getD i none = l.getD i none := by
  simp only [List.getD_eq_getElem?_getD]
  rw [List.getElem?_set_ne (Ne.symm h)]

theorem enlargeBuffers_spec (p : FinalTableJoinProcessor) (newsize : Nat) (hwf : p.WellFormed) :
    (p.enlargeBuffers newsize).WellFormed ∧
    (p.enlargeBuffers newsize).nbuffers = max p.nbuffers newsize ∧
    (p.enlargeBuffers newsize).rowsize = p.rowsize ∧
    (p.enlargeBuffers newsize).row = p.row ∧
    (∀ i, (p.enlargeBuffers newsize).utmpt.getD i none = p.utmpt.getD i none) ∧
    (∀ i, (p.enlargeBuffers newsize).tmpt.getD i none = p.tmpt.getD i none) ∧
    (∀ i, (p.enlargeBuffers newsize).tmptseg.getD i none = p.tmptseg.getD i none) := by
  obtain ⟨h1, h2, h3⟩ := hwf
  unfold FinalTableJoinProcessor.enlargeBuffers
  by_cases h : p.nbuffers < newsize
  · rw [if_pos h]
    refine ⟨⟨?_, ?_, ?_⟩, ?_, rfl, rfl, fun i => getD_pad _ _ _, fun i => getD_pad _ _ _,
      fun i => getD_pad _ _ _⟩
    · simp only [List.length_append, List.length_replicate]; omega
    · simp only [List.length_append, List.length_replicate]; omega
    · simp only [List.length_append, List.length_replicate]; omega
    · simp only; omega
  · rw [if_neg h]
    exact ⟨⟨h1, h2, h3⟩, by omega, rfl, rfl, fun _ => rfl, fun _ => rfl, fun _ => rfl⟩

theorem processResults_unique (merge : FinalTableJoinProcessor → Nat → Bool → FinalTableJoinProcessor)
    (p : FinalTableJoinProcessor) (blockid : Nat) (hwf : p.WellFormed) :
    (p.processResults merge blockid true).utmpt.getD blockid none
      = some ((bufferOrNew p.rowsize p.utmpt blockid).addRow p.row) ∧
    (∀ i, i ≠ blockid →
      (p.processResults merge blockid true).utmpt.getD i none = p.utmpt.getD i none) ∧
    (∀ i, (p.processResults merge blockid true).tmpt.getD i none = p.tmpt.getD i none) ∧
    (∀ i, (p.processResults merge blockid true).tmptseg.getD i none = p.tmptseg.getD i none) ∧
    (p.processResults merge blockid true).nbuffers = max p.nbuffers (blockid + 1) ∧
    (p.processResults merge blockid true).WellFormed := by
  obtain ⟨⟨w1, w2, w3⟩, e2, e3, e4, e5, e6, e7⟩ := enlargeBuffers_spec p (blockid + 1) hwf
  have hlt : blockid < (p.enlargeBuffers (blockid + 1)).utmpt.length := by
    rw [w1, e2]; omega
  have hbuf : bufferOrNew (p.enlargeBuffers (blockid + 1)).rowsize
      (p.enlargeBuffers (blockid + 1)).utmpt blockid = bufferOrNew p.rowsize p.utmpt blockid := by
    simp only [bufferOrNew, e3, e5]
  simp only [FinalTableJoinProcessor.processResults, Bool.not_true, Bool.false_eq_true,
    if_false, hbuf, e4]
  refine ⟨getD_set_same _ _ _ hlt, fun i hi => ?_, e6, e7, e2, ⟨?_, w2, w3⟩⟩
  · rw [getD_set_ne _ _ _ _ hi, e5]
  · simp only [List.length_set]; exact w1

theorem processResults_nonunique
    (merge : FinalTableJoinProcessor → Nat → Bool → FinalTableJoinProcessor)
    (p : FinalTableJoinProcessor) (blockid : Nat) (hwf : p.WellFormed) :
    ∃ p2 : FinalTableJoinProcessor,
      p2.tmpt.getD blockid none = some ((bufferOrNew p.rowsize p.tmpt blockid).addRow p.row) ∧
      (∀ i, i ≠ blockid → p2.tmpt.getD i none = p.tmpt.getD i none) ∧
      (∀ i, p2.utmpt.getD i none = p.utmpt.getD i none) ∧
      (∀ i, p2.tmptseg.getD i none = p.tmptseg.getD i none) ∧
      p2.nbuffers = max p.nbuffers (blockid + 1) ∧ p2.WellFormed ∧
      p.processResults merge blockid false
        = if ((bufferOrNew p.rowsize p.tmpt blockid).addRow p.row).getNRows > TMPT_THRESHOLD
          then merge p2 blockid false else p2 := by
  obtain ⟨⟨w1, w2, w3⟩, e2, e3, e4, e5, e6, e7⟩ := enlargeBuffers_spec p (blockid + 1) hwf
  have hlt : blockid < (p.enlargeBuffers (blockid + 1)).tmpt.length := by
    rw [w2, e2]; omega
  have hbuf : bufferOrNew (p.enlargeBuffers (blockid + 1)).rowsize
      (p.enlargeBuffers (blockid + 1)).tmpt blockid = bufferOrNew p.rowsize p.tmpt blockid := by
    simp only [bufferOrNew, e3, e6]
  refine ⟨{ p.enlargeBuffers (blockid + 1) with
      tmpt := (p.enlargeBuffers (blockid + 1)).tmpt.set blockid
        (some ((bufferOrNew p.rowsize p.tmpt blockid).addRow p.row)) },
    getD_set_same _ _ _ hlt, fun i hi => ?_, e5, e7, e2, ⟨w1, ?_, w3⟩, ?_⟩
  · simp only
    rw [getD_set_ne _ _ _ _ hi, e6]
  · simp only [List.length_set]; exact w2
  · simp only [FinalTableJoinProcessor.processResults, Bool.not_false, if_true, hbuf, e4]

theorem processResults_unique_nomerge
    (m1 m2 : FinalTableJoinProcessor → Nat → Bool → FinalTableJoinProcessor)
    (p : FinalTableJoinProcessor) (blockid : Nat) :
    p.processResults m1 blockid true = p.processResults m2 blockid true := by
  simp only [FinalTableJoinProcessor.processResults, Bool.not_true, Bool.false_eq_true,
    if_false]

theorem bufferOrNew_addRow_some (rowsize : Nat) (buffers : List (Option SegmentInserter))
    (blockid : Nat) (row : List Nat) (ins : SegmentInserter)
    (h : buffers.getD blockid none = some ins) :
    (bufferOrNew rowsize buffers blockid).addRow row
      = { rowsize := ins.rowsize
          columns := List.zipWith (fun c x => c ++ [x]) ins.columns row
          nrows := ins.nrows + 1 } := by
  simp only [bufferOrNew, h, SegmentInserter.addRow]

theorem bufferOrNew_addRow_none (rowsize : Nat) (buffers : List (Option SegmentInserter))
    (blockid : Nat) (row : List Nat) (h : buffers.getD blockid none = none) :
    (bufferOrNew rowsize buffers blockid).addRow row
      = { rowsize := rowsize
          columns := List.zipWith (fun c x => c ++ [x]) (List.replicate rowsize []) row
          nrows := 1 } := by
  simp only [bufferOrNew, h, SegmentInserter.addRow, SegmentInserter.create]

theorem zipWith_fresh_columns :
    ∀ (row : List Nat),
      List.zipWith (fun c x => c ++ [x]) (List.replicate row.length ([] : List Nat)) row
        = row.map (fun x => [x]) := by
  intro row
  induction row with
  | nil => rfl
  | cons x xs ih => simp [List.replicate_succ, ih]

theorem processResults_unique_buffer
    (merge : FinalTableJoinProcessor → Nat → Bool → FinalTableJoinProcessor)
    (p : FinalTableJoinProcessor) (blockid : Nat) (hwf : p.WellFormed) :
    (∀ ins, p.utmpt.getD blockid none = some ins →
      (p.processResults merge blockid true).utmpt.getD blockid none
        = some { rowsize := ins.rowsize
                 columns := List.zipWith (fun c x => c ++ [x]) ins.columns p.row
                 nrows := ins.nrows + 1 }) ∧
    (p.utmpt.getD blockid none = none →
      (p.processResults merge blockid true).utmpt.getD blockid none
        = some { rowsize := p.rowsize
                 columns := List.zipWith (fun c x => c ++ [x]) (List.replicate p.rowsize [])
                   p.row
                 nrows := 1 }) ∧
    (p.utmpt.getD blockid none = none → p.row.length = p.rowsize →
      (p.processResults merge blockid true).utmpt.getD blockid none
        = some { rowsize := p.rowsize, columns := p.row.map (fun x => [x]), nrows := 1 }) := by
  have h := (processResults_unique merge p blockid hwf).1
  refine ⟨fun ins hins => ?_, fun hnone => ?_, fun hnone hlen => ?_⟩
  · rw [h, bufferOrNew_addRow_some _ _ _ _ ins hins]
  · rw [h, bufferOrNew_addRow_none _ _ _ _ hnone]
  · rw [h, bufferOrNew_addRow_none _ _ _ _ hnone, ← hlen, zipWith_fresh_columns]

theorem processResults_nonunique_buffer
    (merge : FinalTableJoinProcessor → Nat → Bool → FinalTableJoinProcessor)
    (p : FinalTableJoinProcessor) (blockid : Nat) (hwf : p.WellFormed) :
    ∃ p2 : FinalTableJoinProcessor,
      p2.tmpt.getD blockid none = some ((bufferOrNew p.rowsize p.tmpt blockid).addRow p.row) ∧
      (∀ i, i ≠ blockid → p2.tmpt.getD i none = p.tmpt.getD i none) ∧
      (∀ i, p2.utmpt.getD i none = p.utmpt.getD i none) ∧
      (∀ i, p2.tmptseg.getD i none = p.tmptseg.getD i none) ∧
      p2.nbuffers = max p.nbuffers (blockid + 1) ∧ p2.WellFormed ∧
      p.processResults merge blockid false
        = (if ((bufferOrNew p.rowsize p.tmpt blockid).addRow p.row).getNRows > TMPT_THRESHOLD
          then merge p2 blockid false else p2) ∧
      (∀ ins, p.tmpt.getD blockid none = some ins →
        p2.tmpt.getD blockid none
          = some { rowsize := ins.rowsize
                   columns := List.zipWith (fun c x => c ++ [x]) ins.columns p.row
                   nrows := ins.nrows + 1 } ∧
        p.processResults merge blockid false
          = if ins.nrows + 1 > TMPT_THRESHOLD then merge p2 blockid false else p2) ∧
      (p.tmpt.getD blockid none = none →
        p2.tmpt.getD blockid none
          = some { rowsize := p.rowsize
                   columns := List.zipWith (fun c x => c ++ [x]) (List.replicate p.rowsize [])
                     p.row
                   nrows := 1 } ∧
        p.processResults merge blockid false = p2) ∧
      (p.tmpt.getD blockid none = none → p.row.length = p.rowsize →
        p2.tmpt.getD blockid none
          = some { rowsize := p.rowsize, columns := p.row.map (fun x => [x]), nrows := 1 }) := by
  obtain ⟨p2, h1, h2, h3, h4, h5, h6, h7⟩ := processResults_nonunique merge p blockid hwf
  refine ⟨p2, h1, h2, h3, h4, h5, h6, h7, fun ins hins => ?_, fun hnone => ?_,
    fun hnone hlen => ?_⟩
  · have e := bufferOrNew_addRow_some p.rowsize p.tmpt blockid p.row ins hins
    rw [e] at h1 h7
    exact ⟨h1, h7⟩
  · have e := bufferOrNew_addRow_none p.rowsize p.tmpt blockid p.row hnone
    rw [e] at h1 h7
    refine ⟨h1, ?_⟩
    have h1lt : ¬ (1 > TMPT_THRESHOLD) := by decide
    rw [h7]
    exact if_neg h1lt
  · rw [h1, bufferOrNew_addRow_none _ _ _ _ hnone, ← hlen, zipWith_fresh_columns]

/-- C19: `processResults(blockid, unique = true)` appends the current row to
`utmpt[blockid]`: a buffer held there keeps its width and gets the entries of the
row at the end of its columns and one row more; a null entry becomes a new
buffer of width `rowsize` that holds the row alone. The call never calls the
merge (the result is the same whatever `mergeTmpt` does), and leaves `tmpt`,
`tmptseg` and the `utmpt` entries of every other block as they were, also when
`blockid` makes the arrays grow to `blockid + 1` entries. -/
theorem processResults_unique_frame
    (merge : FinalTableJoinProcessor → Nat → Bool → FinalTableJoinProcessor)
    (p : FinalTableJoinProcessor) (blockid : Nat) (hwf : p.WellFormed) :
    ((p.processResults merge blockid true).utmpt.getD blockid none
        = some ((bufferOrNew p.rowsize p.utmpt blockid).addRow p.row) ∧
      (∀ i, i ≠ blockid →
        (p.processResults merge blockid true).utmpt.getD i none = p.utmpt.getD i none) ∧
      (∀ i, (p.processResults merge blockid true).tmpt.getD i none = p.tmpt.getD i none) ∧
      (∀ i, (p.processResults merge blockid true).tmptseg.getD i none
        = p.tmptseg.getD i none) ∧
      (p.processResults merge blockid true).nbuffers = max p.nbuffers (blockid + 1) ∧
      (p.processResults merge blockid true).WellFormed) ∧
    (∀ m2, p.processResults m2 blockid true = p.processResults merge blockid true) ∧
    ((∀ ins, p.utmpt.getD blockid none = some ins →
        (p.processResults merge blockid true).utmpt.getD blockid none
          = some { rowsize := ins.rowsize
                   columns := List.zipWith (fun c x => c ++ [x]) ins.columns p.row
                   nrows := ins.nrows + 1 }) ∧
      (p.utmpt.getD blockid none = none →
        (p.processResults merge blockid true).utmpt.getD blockid none
          = some { rowsize := p.rowsize
                   columns := List.zipWith (fun c x => c ++ [x]) (List.replicate p.rowsize [])
                     p.row
                   nrows := 1 }) ∧
      (p.utmpt.getD blockid none = none → p.row.length = p.rowsize →
        (p.processResults merge blockid true).utmpt.getD blockid none
          = some { rowsize := p.rowsize, columns := p.row.map (fun x => [x]), nrows := 1 })) :=
  ⟨processResults_unique merge p blockid hwf,
    fun m2 => processResults_unique_nomerge m2 merge p blockid,
    processResults_unique_buffer merge p blockid hwf⟩

/-- Witness for C19: a sink with one block receives the unique row `(7,8)` for
block 2, twice: the first call allocates the buffer, the second appends to it. -/
theorem processResults_unique_frame_witness :
    (sinkFresh.processResults resetTmpt 2 true).utmpt
      = [none, none, some { rowsize := 2, columns := [[7], [8]], nrows := 1 }] ∧
    ((sinkFresh.processResults resetTmpt 2 true).processResults resetTmpt 2 true).utmpt
      = [none, none, some { rowsize := 2, columns := [[7, 7], [8, 8]], nrows := 2 }] ∧
    (((sinkFresh.processResults resetTmpt 2 true).utmpt.getD 2 none
        = some ((bufferOrNew sinkFresh.rowsize sinkFresh.utmpt 2).addRow sinkFresh.row) ∧
      (∀ i, i ≠ 2 →
        (sinkFresh.processResults resetTmpt 2 true).utmpt.getD i none
          = sinkFresh.utmpt.getD i none) ∧
      (∀ i, (sinkFresh.processResults resetTmpt 2 true).tmpt.getD i none
        = sinkFresh.tmpt.getD i none) ∧
      (∀ i, (sinkFresh.processResults resetTmpt 2 true).tmptseg.getD i none
        = sinkFresh.tmptseg.getD i none) ∧
      (sinkFresh.processResults resetTmpt 2 true).nbuffers = max sinkFresh.nbuffers (2 + 1) ∧
      (sinkFresh.processResults resetTmpt 2 true).WellFormed) ∧
    (∀ m2, sinkFresh.processResults m2 2 true = sinkFresh.processResults resetTmpt 2 true) ∧
    ((∀ ins, sinkFresh.utmpt.getD 2 none = some ins →
        (sinkFresh.processResults resetTmpt 2 true).utmpt.getD 2 none
          = some { rowsize := ins.rowsize
                   columns := List.zipWith (fun c x => c ++ [x]) ins.columns sinkFresh.row
                   nrows := ins.nrows + 1 }) ∧
      (sinkFresh.utmpt.getD 2 none = none →
        (sinkFresh.processResults resetTmpt 2 true).utmpt.getD 2 none
          = some { rowsize := sinkFresh.rowsize
                   columns := List.zipWith (fun c x => c ++ [x])
                     (List.replicate sinkFresh.rowsize []) sinkFresh.row
                   nrows := 1 }) ∧
      (sinkFresh.utmpt.getD 2 none = none → sinkFresh.row.length = sinkFresh.rowsize →
        (sinkFresh.processResults resetTmpt 2 true).utmpt.getD 2 none
          = some { rowsize := sinkFresh.rowsize, columns := sinkFresh.row.map (fun x => [x]),
                   nrows := 1 }))) :=
  ⟨by decide, by decide, processResults_unique_frame resetTmpt sinkFresh 2 (by decide)⟩

/-- C20: `processResults(blockid, unique = false)` appends the current row to
`tmpt[blockid]`: a buffer held there keeps its width and gets the entries of the
row at the end of its columns and one row more; a null entry becomes a new
buffer of width `rowsize` that holds the row alone. The call leaves `utmpt` (and
`tmptseg` and the other entries of `tmpt`) as they were, and then calls
`mergeTmpt` for the block exactly when the number of rows of `tmpt[blockid]`
after the append is greater than `TMPT_THRESHOLD`, which is 33554432. -/
theorem processResults_nonunique_merge
    (merge : FinalTableJoinProcessor → Nat → Bool → FinalTableJoinProcessor)
    (p : FinalTableJoinProcessor) (blockid : Nat) (hwf : p.WellFormed) :
    (∃ p2 : FinalTableJoinProcessor,
      p2.tmpt.getD blockid none = some ((bufferOrNew p.rowsize p.tmpt blockid).addRow p.row) ∧
      (∀ i, i ≠ blockid → p2.tmpt.getD i none = p.tmpt.getD i none) ∧
      (∀ i, p2.utmpt.getD i none = p.utmpt.getD i none) ∧
      (∀ i, p2.tmptseg.getD i none = p.tmptseg.getD i none) ∧
      p2.nbuffers = max p.nbuffers (blockid + 1) ∧ p2.WellFormed ∧
      p.processResults merge blockid false
        = (if ((bufferOrNew p.rowsize p.tmpt blockid).addRow p.row).getNRows > TMPT_THRESHOLD
          then merge p2 blockid false else p2) ∧
      (∀ ins, p.tmpt.getD blockid none = some ins →
        p2.tmpt.getD blockid none
          = some { rowsize := ins.rowsize
                   columns := List.zipWith (fun c x => c ++ [x]) ins.columns p.row
                   nrows := ins.nrows + 1 } ∧
        p.processResults merge blockid false
          = if ins.nrows + 1 > TMPT_THRESHOLD then merge p2 blockid false else p2) ∧
      (p.tmpt.getD blockid none = none →
        p2.tmpt.getD blockid none
          = some { rowsize := p.rowsize
                   columns := List.zipWith (fun c x => c ++ [x]) (List.replicate p.rowsize [])
                     p.row
                   nrows := 1 } ∧
        p.processResults merge blockid false = p2) ∧
      (p.tmpt.getD blockid none = none → p.row.length = p.rowsize →
        p2.tmpt.getD blockid none
          = some { rowsize := p.rowsize, columns := p.row.map (fun x => [x]), nrows := 1 })) ∧
    TMPT_THRESHOLD = 33554432 :=
  ⟨processResults_nonunique_buffer merge p blockid hwf, by decide⟩

/-- Witness for C20: a sink whose buffer `tmpt[0]` holds `TMPT_THRESHOLD` rows
receives one more non-unique row, and the merge is called; a sink without a
buffer gets a new one that holds the row, and the merge is not called. -/
theorem processResults_nonunique_merge_witness :
    sinkAtThreshold.processResults resetTmpt 0 false
      = { sinkAtThreshold with tmpt := [none] } ∧
    sinkFresh.processResults resetTmpt 0 false
      = { sinkFresh with tmpt := [some { rowsize := 2, columns := [[7], [8]], nrows := 1 }] } ∧
    (∃ p2 : FinalTableJoinProcessor,
      p2.tmpt.getD 0 none = some ((bufferOrNew sinkAtThreshold.rowsize sinkAtThreshold.tmpt
        0).addRow sinkAtThreshold.row) ∧
      (∀ i, i ≠ 0 → p2.tmpt.getD i none = sinkAtThreshold.tmpt.getD i none) ∧
      (∀ i, p2.utmpt.getD i none = sinkAtThreshold.utmpt.getD i none) ∧
      (∀ i, p2.tmptseg.getD i none = sinkAtThreshold.tmptseg.getD i none) ∧
      p2.nbuffers = max sinkAtThreshold.nbuffers (0 + 1) ∧ p2.WellFormed ∧
      sinkAtThreshold.processResults resetTmpt 0 false
        = (if ((bufferOrNew sinkAtThreshold.rowsize sinkAtThreshold.tmpt 0).addRow
              sinkAtThreshold.row).getNRows > TMPT_THRESHOLD
          then resetTmpt p2 0 false else p2) ∧
      (∀ ins, sinkAtThreshold.tmpt.getD 0 none = some ins →
        p2.tmpt.getD 0 none
          = some { rowsize := ins.rowsize
                   columns := List.zipWith (fun c x => c ++ [x]) ins.columns
                     sinkAtThreshold.row
                   nrows := ins.nrows + 1 } ∧
        sinkAtThreshold.processResults resetTmpt 0 false
          = if ins.nrows + 1 > TMPT_THRESHOLD then resetTmpt p2 0 false else p2) ∧
      (sinkAtThreshold.tmpt.getD 0 none = none →
        p2.tmpt.getD 0 none
          = some { rowsize := sinkAtThreshold.rowsize
                   columns := List.zipWith (fun c x => c ++ [x])
                     (List.replicate sinkAtThreshold.rowsize []) sinkAtThreshold.row
                   nrows := 1 } ∧
        sinkAtThreshold.processResults resetTmpt 0 false = p2) ∧
      (sinkAtThreshold.tmpt.getD 0 none = none →
        sinkAtThreshold.row.length = sinkAtThreshold.rowsize →
        p2.tmpt.getD 0 none
          = some { rowsize := sinkAtThreshold.rowsize,
                   columns := sinkAtThreshold.row.map (fun x => [x]), nrows := 1 })) ∧
    TMPT_THRESHOLD = 33554432 :=
  ⟨by decide, by decide,
    processResults_nonunique_merge resetTmpt sinkAtThreshold 0 (by decide)⟩

/-! ## The final sink: the order of append and merge -/

theorem getNRows_bufferOrNew (rowsize : Nat) (buffers : List (Option SegmentInserter))
    (blockid : Nat) : (bufferOrNew rowsize buffers blockid).getNRows = rowsIn buffers blockid := by
  unfold bufferOrNew rowsIn
  cases buffers.getD blockid none with
  | none => rfl
  | some ins => rfl

theorem getNRows_addRow (ins : SegmentInserter) (row : List Nat) :
    (ins.addRow row).getNRows = ins.getNRows + 1 := rfl

theorem processResults_below
    (merge : FinalTableJoinProcessor → Nat → Bool → FinalTableJoinProcessor)
    (p : FinalTableJoinProcessor) (blockid : Nat) (hwf : p.WellFormed)
    (hlt : rowsIn p.tmpt blockid < TMPT_THRESHOLD) :
    (p.processResults merge blockid false).WellFormed ∧
    rowsIn (p.processResults merge blockid false).tmpt blockid = rowsIn p.tmpt blockid + 1 ∧
    ∀ m2, p.processResults m2 blockid false = p.processResults merge blockid false := by
  have hn : ¬ ((bufferOrNew p.rowsize p.tmpt blockid).addRow p.row).getNRows > TMPT_THRESHOLD := by
    rw [getNRows_addRow, getNRows_bufferOrNew]; omega
  obtain ⟨p2, h1, _, _, _, _, hw, heq⟩ := processResults_nonunique merge p blockid hwf
  rw [if_neg hn] at heq
  refine ⟨by rw [heq]; exact hw, ?_, fun m2 => ?_⟩
  · rw [heq]
    simp only [rowsIn, h1, getNRows_addRow, getNRows_bufferOrNew]
  · simp only [FinalTableJoinProcessor.processResults, Bool.not_false, if_true]
    have e : ∀ q : FinalTableJoinProcessor, q.rowsize = q.rowsize := fun _ => rfl
    obtain ⟨_, _, e3, e4, _, e6, _⟩ := enlargeBuffers_spec p (blockid + 1) hwf
    have hbuf : bufferOrNew (p.enlargeBuffers (blockid + 1)).rowsize
        (p.enlargeBuffers (blockid + 1)).tmpt blockid = bufferOrNew p.rowsize p.tmpt blockid := by
      simp only [bufferOrNew, e3, e6]
    rw [hbuf, e4, if_neg hn, if_neg hn]

theorem processResults_at_threshold
    (merge : FinalTableJoinProcessor → Nat → Bool → FinalTableJoinProcessor)
    (p : FinalTableJoinProcessor) (blockid : Nat) (hwf : p.WellFormed)
    (hrows : rowsIn p.tmpt blockid = TMPT_THRESHOLD) :
    ∃ p2 : FinalTableJoinProcessor,
      p.processResults merge blockid false = merge p2 blockid false ∧
      p2.tmpt.getD blockid none = some ((bufferOrNew p.rowsize p.tmpt blockid).addRow p.row) ∧
      rowsIn p2.tmpt blockid = TMPT_THRESHOLD + 1 ∧
      (∀ i, i ≠ blockid → p2.tmpt.getD i none = p.tmpt.getD i none) ∧
      (∀ i, p2.utmpt.getD i none = p.utmpt.getD i none) ∧
      (∀ i, p2.tmptseg.getD i none = p.tmptseg.getD i none) := by
  have hn : ((bufferOrNew p.rowsize p.tmpt blockid).addRow p.row).getNRows > TMPT_THRESHOLD := by
    rw [getNRows_addRow, getNRows_bufferOrNew]; omega
  obtain ⟨p2, h1, h2, h3, h4, _, _, heq⟩ := processResults_nonunique merge p blockid hwf
  rw [if_pos hn] at heq
  refine ⟨p2, heq, h1, ?_, h2, h3, h4⟩
  unfold rowsIn
  rw [h1]
  show ((bufferOrNew p.rowsize p.tmpt blockid).addRow p.row).getNRows = _
  rw [getNRows_addRow, getNRows_bufferOrNew, hrows]

theorem sendRows_below
    (merge : FinalTableJoinProcessor → Nat → Bool → FinalTableJoinProcessor) (blockid : Nat) :
    ∀ (rows : List (List Nat)) (p : FinalTableJoinProcessor), p.WellFormed →
      rowsIn p.tmpt blockid + rows.length ≤ TMPT_THRESHOLD →
      (sendRows merge p blockid rows).WellFormed ∧
      rowsIn (sendRows merge p blockid rows).tmpt blockid = rowsIn p.tmpt blockid + rows.length ∧
      ∀ m2, sendRows m2 p blockid rows = sendRows merge p blockid rows := by
  intro rows
  induction rows with
  | nil => intro p hwf _; exact ⟨hwf, rfl, fun _ => rfl⟩
  | cons r rs ih =>
    intro p hwf hle
    simp only [List.length_cons] at hle
    have hwf1 : ({ p with row := r } : FinalTableJoinProcessor).WellFormed := hwf
    have hlt : rowsIn ({ p with row := r } : FinalTableJoinProcessor).tmpt blockid
        < TMPT_THRESHOLD := by
      show rowsIn p.tmpt blockid < TMPT_THRESHOLD
      omega
    obtain ⟨a1, a2, a3⟩ := processResults_below merge _ blockid hwf1 hlt
    have a2' : rowsIn (({ p with row := r } : FinalTableJoinProcessor).processResults merge
        blockid false).tmpt blockid = rowsIn p.tmpt blockid + 1 := a2
    obtain ⟨b1, b2, b3⟩ := ih _ a1 (by rw [a2']; omega)
    refine ⟨b1, ?_, fun m2 => ?_⟩
    · simp only [sendRows, List.length_cons]
      rw [b2, a2']; omega
    · simp only [sendRows]
      rw [a3 m2, b3 m2]

theorem sendRows_append
    (merge : FinalTableJoinProcessor → Nat → Bool → FinalTableJoinProcessor) (blockid : Nat) :
    ∀ (rows : List (List Nat)) (p : FinalTableJoinProcessor) (last : List Nat),
      sendRows merge p blockid (rows ++ [last])
        = ({ sendRows merge p blockid rows with row := last }).processResults merge blockid false := by
  intro rows
  induction rows with
  | nil => intro p last; rfl
  | cons r rs ih => intro p last; exact ih _ last

/-- C21, the counterexample: the buffer `tmpt[0]` of `sinkAtThreshold` holds exactly
`TMPT_THRESHOLD` rows. The code appends the next non-unique row first and calls
the merge afterwards: the state handed to the merge (shown by a merge that
changes nothing) holds `TMPT_THRESHOLD + 1` rows in `tmpt[0]`, and with a merge
that resets the buffer the last row is gone from `tmpt[0]` after the call.
Merging before the append would leave the last row in `tmpt[0]`. -/
theorem processResults_appends_before_merge :
    sinkAtThreshold.WellFormed ∧ rowsIn sinkAtThreshold.tmpt 0 = TMPT_THRESHOLD ∧
    sinkAtThreshold.processResults (fun p _ _ => p) 0 false
      = { sinkAtThreshold with
          tmpt := [some { rowsize := 0, columns := [], nrows := TMPT_THRESHOLD + 1 }] } ∧
    sinkAtThreshold.processResults resetTmpt 0 false = { sinkAtThreshold with tmpt := [none] } ∧
    processResultsMergeFirst resetTmpt sinkAtThreshold 0
      = { sinkAtThreshold with tmpt := [some { rowsize := 0, columns := [], nrows := 1 }] } ∧
    sinkAtThreshold.processResults resetTmpt 0 false
      ≠ processResultsMergeFirst resetTmpt sinkAtThreshold 0 := by
  decide

/-- C21, as amended: when `tmpt[blockid]` holds exactly `TMPT_THRESHOLD` rows, the
merge occurs after the next non-unique row is appended. A block whose buffer
holds `k` rows receives `TMPT_THRESHOLD - k` non-unique rows without any merge
(the state does not depend on `mergeTmpt`) and then holds `TMPT_THRESHOLD` rows;
one more row is appended to `tmpt[blockid]`, which then holds
`TMPT_THRESHOLD + 1` rows, the last row included, and this state is handed to
the merge. With `k = 0` these are `TMPT_THRESHOLD + 1` rows sent to one block. -/
theorem processResults_threshold_merge
    (merge : FinalTableJoinProcessor → Nat → Bool → FinalTableJoinProcessor)
    (p : FinalTableJoinProcessor) (blockid : Nat) (rows : List (List Nat)) (last : List Nat)
    (hwf : p.WellFormed)
    (hrows : rowsIn p.tmpt blockid + rows.length = TMPT_THRESHOLD) :
    (∀ m2, sendRows m2 p blockid rows = sendRows merge p blockid rows) ∧
    rowsIn (sendRows merge p blockid rows).tmpt blockid = TMPT_THRESHOLD ∧
    ∃ p2 : FinalTableJoinProcessor,
      sendRows merge p blockid (rows ++ [last]) = merge p2 blockid false ∧
      p2.tmpt.getD blockid none
        = some ((bufferOrNew (sendRows merge p blockid rows).rowsize
            (sendRows merge p blockid rows).tmpt blockid).addRow last) ∧
      rowsIn p2.tmpt blockid = TMPT_THRESHOLD + 1 ∧
      (∀ i, i ≠ blockid →
        p2.tmpt.getD i none = (sendRows merge p blockid rows).tmpt.getD i none) ∧
      (∀ i, p2.utmpt.getD i none = (sendRows merge p blockid rows).utmpt.getD i none) ∧
      (∀ i, p2.tmptseg.getD i none = (sendRows merge p blockid rows).tmptseg.getD i none) := by
  obtain ⟨b1, b2, b3⟩ := sendRows_below merge blockid rows p hwf (Nat.le_of_eq hrows)
  rw [hrows] at b2
  refine ⟨b3, b2, ?_⟩
  rw [sendRows_append]
  exact processResults_at_threshold merge
    { sendRows merge p blockid rows with row := last } blockid b1 b2

/-- Witness for C21: a fresh sink of width 2 receives `TMPT_THRESHOLD` rows and
then one more in block 0. -/
theorem processResults_threshold_merge_witness :
    (∀ m2, sendRows m2 sinkFresh 0 (List.replicate TMPT_THRESHOLD [7, 8])
      = sendRows resetTmpt sinkFresh 0 (List.replicate TMPT_THRESHOLD [7, 8])) ∧
    rowsIn (sendRows resetTmpt sinkFresh 0 (List.replicate TMPT_THRESHOLD [7, 8])).tmpt 0
      = TMPT_THRESHOLD ∧
    ∃ p2 : FinalTableJoinProcessor,
      sendRows resetTmpt sinkFresh 0 (List.replicate TMPT_THRESHOLD [7, 8] ++ [[7, 9]])
        = resetTmpt p2 0 false ∧
      p2.tmpt.getD 0 none
        = some ((bufferOrNew (sendRows resetTmpt sinkFresh 0
              (List.replicate TMPT_THRESHOLD [7, 8])).rowsize
            (sendRows resetTmpt sinkFresh 0
              (List.replicate TMPT_THRESHOLD [7, 8])).tmpt 0).addRow [7, 9]) ∧
      rowsIn p2.tmpt 0 = TMPT_THRESHOLD + 1 ∧
      (∀ i, i ≠ 0 → p2.tmpt.getD i none
        = (sendRows resetTmpt sinkFresh 0 (List.replicate TMPT_THRESHOLD [7, 8])).tmpt.getD i none) ∧
      (∀ i, p2.utmpt.getD i none
        = (sendRows resetTmpt sinkFresh 0 (List.replicate TMPT_THRESHOLD [7, 8])).utmpt.getD i none) ∧
      (∀ i, p2.tmptseg.getD i none
        = (sendRows resetTmpt sinkFresh 0
            (List.replicate TMPT_THRESHOLD [7, 8])).tmptseg.getD i none) :=
  processResults_threshold_merge resetTmpt sinkFresh 0 (List.replicate TMPT_THRESHOLD [7, 8])
    [7, 9] (by decide) (by rw [List.length_replicate]; decide)

/-! ## The intermediate sink -/

theorem copyLoop_spec (segments : List (Option SegmentInserter)) :
    ∀ (n i : Nat) (nw : List (Option SegmentInserter)), i + n ≤ segments.length →
      i + n ≤ nw.length →
      ∃ r, copyLoop segments n i nw = .ok r ∧ r.length = nw.length ∧
        ∀ j, r[j]? = if i ≤ j ∧ j < i + n then segments[j]? else nw[j]? := by
  intro n
  induction n with
  | zero =>
    intro i nw _ _
    refine ⟨nw, rfl, rfl, fun j => ?_⟩
    rw [if_neg (by omega)]
  | succ n ih =>
    intro i nw h1 h2
    have hi : i < segments.length := by omega
    have hi2 : i < nw.length := by omega
    obtain ⟨r, hr, hlen, hget⟩ := ih (i + 1) (nw.set i segments[i])
      (by omega) (by rw [List.length_set]; omega)
    refine ⟨r, ?_, by rw [hlen, List.length_set], fun j => ?_⟩
    · rw [copyLoop, List.getElem?_eq_getElem hi]
      simp only [if_pos hi2]
      exact hr
    · rw [hget j]
      by_cases hj : i + 1 ≤ j ∧ j < i + 1 + n
      · rw [if_pos hj, if_pos (by omega)]
      · rw [if_neg hj]
        by_cases hji : j = i
        · subst hji
          rw [if_pos (by omega), List.getElem?_set_self hi2, List.getElem?_eq_getElem hi]
        · rw [if_neg (by omega), List.getElem?_set_ne (Ne.symm hji)]

theorem fillLoop_spec (rowsize : Nat) :
    ∀ (n i : Nat) (nw : List (Option SegmentInserter)), i + n ≤ nw.length →
      ∃ r, fillLoop rowsize n i nw = .ok r ∧ r.length = nw.length ∧
        ∀ j, r[j]? = if i ≤ j ∧ j < i + n then some (some (SegmentInserter.create rowsize))
          else nw[j]? := by
  intro n
  induction n with
  | zero =>
    intro i nw _
    refine ⟨nw, rfl, rfl, fun j => ?_⟩
    rw [if_neg (by omega)]
  | succ n ih =>
    intro i nw h2
    have hi2 : i < nw.length := by omega
    obtain ⟨r, hr, hlen, hget⟩ := ih (i + 1)
      (nw.set i (some (SegmentInserter.create rowsize))) (by rw [List.length_set]; omega)
    refine ⟨r, ?_, by rw [hlen, List.length_set], fun j => ?_⟩
    · rw [fillLoop]
      simp only [if_pos hi2]
      exact hr
    · rw [hget j]
      by_cases hj : i + 1 ≤ j ∧ j < i + 1 + n
      · rw [if_pos hj, if_pos (by omega)]
      · rw [if_neg hj]
        by_cases hji : j = i
        · subst hji
          rw [if_pos (by omega), List.getElem?_set_self hi2]
        · rw [if_neg (by omega), List.getElem?_set_ne (Ne.symm hji)]

theorem enlargeArray_spec (p : InterTableJoinProcessor) (blockid : Nat)
    (hwf : p.segments.length = p.currentSegmentSize) (hb : blockid + 1 < 2 ^ 31) :
    ∃ p1, p.enlargeArray blockid = .ok p1 ∧
      p1.currentSegmentSize = max p.currentSegmentSize (blockid + 1) ∧
      p1.segments.length = p1.currentSegmentSize ∧
      p1.rowsize = p.rowsize ∧ p1.row = p.row ∧
      (∀ i, i < p.currentSegmentSize → p1.segments[i]? = p.segments[i]?) ∧
      (∀ i, p.currentSegmentSize ≤ i → i < p1.currentSegmentSize →
        p1.segments[i]? = some (some (SegmentInserter.create p.rowsize))) := by
  unfold InterTableJoinProcessor.enlargeArray
  by_cases h : blockid ≥ p.currentSegmentSize
  · rw [if_pos h]
    have hsize : (blockid + 1) % 2 ^ 32 = blockid + 1 := Nat.mod_eq_of_lt (by omega)
    simp only [hsize]
    obtain ⟨c, hc, hclen, hcget⟩ := copyLoop_spec p.segments p.currentSegmentSize 0
      (List.replicate (blockid + 1) none) (by omega) (by rw [List.length_replicate]; omega)
    rw [List.length_replicate] at hclen
    obtain ⟨r, hr, hrlen, hrget⟩ := fillLoop_spec p.rowsize
      (blockid + 1 - p.currentSegmentSize) p.currentSegmentSize c (by omega)
    rw [hc]
    simp only [hr]
    refine ⟨_, rfl, ?_, ?_, rfl, rfl, fun i hi => ?_, fun i h1 h2 => ?_⟩
    · simp only; omega
    · simp only; omega
    · simp only
      rw [hrget i, if_neg (by omega), hcget i, if_pos (by omega)]
    · simp only at h2 ⊢
      rw [hrget i, if_pos (by omega)]
  · rw [if_neg h]
    refine ⟨p, rfl, by omega, hwf, rfl, rfl, fun _ _ => rfl, fun i h1 h2 => ?_⟩
    omega

theorem processResults_inter (p : InterTableJoinProcessor) (b : Nat) (unique : Bool)
    (hwf : p.WellFormed) (hb : b + 1 < 2 ^ 31) :
    ∃ p1, p.processResults b unique = .ok p1 ∧ p1.WellFormed ∧
      p1.currentSegmentSize = max p.currentSegmentSize (b + 1) ∧ p1.rowsize = p.rowsize ∧
      (∀ i, i ≠ b → i < p.currentSegmentSize → p1.segments[i]? = p.segments[i]?) ∧
      (∀ i, i ≠ b → p.currentSegmentSize ≤ i → i < p1.currentSegmentSize →
        p1.segments[i]? = some (some (SegmentInserter.create p.rowsize))) := by
  obtain ⟨hlen, hnn⟩ := hwf
  obtain ⟨p1, h1, hcss, hlen1, hrs, hrow, hold, hnew⟩ := enlargeArray_spec p b hlen hb
  have hb1 : b < p1.segments.length := by rw [hlen1, hcss]; omega
  have hnn1 : ∀ s ∈ p1.segments, s ≠ none := by
    intro s hs
    obtain ⟨i, hi⟩ := List.mem_iff_getElem?.1 hs
    have hil : i < p1.segments.length := (List.getElem?_eq_some.1 hi).1
    by_cases hc : i < p.currentSegmentSize
    · rw [hold i hc] at hi
      exact hnn s (List.mem_iff_getElem?.2 ⟨i, hi⟩)
    · rw [hnew i (by omega) (by omega)] at hi
      intro hs0
      rw [hs0] at hi
      cases hi
  have hsb : ∃ ins, p1.segments[b]? = some (some ins) := by
    have hmem : p1.segments[b] ∈ p1.segments := List.getElem_mem hb1
    cases hx : p1.segments[b] with
    | none => exact absurd hx (hnn1 _ hmem)
    | some ins => exact ⟨ins, by rw [List.getElem?_eq_getElem hb1, hx]⟩
  obtain ⟨ins, hins⟩ := hsb
  refine ⟨{ p1 with segments := p1.segments.set b (some (ins.addRow p1.row)) }, ?_, ⟨?_, ?_⟩,
    hcss, hrs, fun i hib hi => ?_, fun i hib h1 h2 => ?_⟩
  · simp only [InterTableJoinProcessor.processResults, h1, hins]
  · simp only [List.length_set]; exact hlen1
  · intro s hs
    rcases List.mem_or_eq_of_mem_set hs with h | h
    · exact hnn1 s h
    · rw [h]; exact Option.some_ne_none _
  · simp only
    rw [List.getElem?_set_ne (Ne.symm hib)]
    exact hold i hi
  · simp only
    rw [List.getElem?_set_ne (Ne.symm hib)]
    exact hnew i h1 h2

theorem writeRows_spec :
    ∀ (ws : List (Nat × List Nat)) (p : InterTableJoinProcessor), p.WellFormed →
      (∀ w ∈ ws, w.1 + 1 < 2 ^ 31) →
      ∃ p1, writeRows p ws = .ok p1 ∧ p1.WellFormed ∧ p1.rowsize = p.rowsize ∧
        p.currentSegmentSize ≤ p1.currentSegmentSize ∧
        (∀ w ∈ ws, w.1 < p1.currentSegmentSize) ∧
        (p1.currentSegmentSize = p.currentSegmentSize ∨
          ∃ w ∈ ws, p1.currentSegmentSize = w.1 + 1) ∧
        (∀ i, (∀ w ∈ ws, w.1 ≠ i) →
          (i < p.currentSegmentSize → p1.segments[i]? = p.segments[i]?) ∧
          (p.currentSegmentSize ≤ i → i < p1.currentSegmentSize →
            p1.segments[i]? = some (some (SegmentInserter.create p.rowsize)))) := by
  intro ws
  induction ws with
  | nil =>
    intro p hwf _
    exact ⟨p, rfl, hwf, rfl, Nat.le_refl _, fun w hw => absurd hw (List.not_mem_nil w), Or.inl rfl,
      fun i _ => ⟨fun _ => rfl, fun h1 h2 => absurd h2 (by omega)⟩⟩
  | cons w ws ih =>
    intro p hwf hb
    have hwf0 : ({ p with row := w.2 } : InterTableJoinProcessor).WellFormed := hwf
    obtain ⟨p1, h1, hwf1, hcss1, hrs1, hold1, hnew1⟩ :=
      processResults_inter { p with row := w.2 } w.1 false hwf0 (hb w (List.mem_cons_self _ _))
    have hcss1' : p1.currentSegmentSize = max p.currentSegmentSize (w.1 + 1) := hcss1
    have hrs1' : p1.rowsize = p.rowsize := hrs1
    have hold1' : ∀ i, i ≠ w.1 → i < p.currentSegmentSize → p1.segments[i]? = p.segments[i]? :=
      hold1
    have hnew1' : ∀ i, i ≠ w.1 → p.currentSegmentSize ≤ i → i < p1.currentSegmentSize →
        p1.segments[i]? = some (some (SegmentInserter.create p.rowsize)) := hnew1
    clear hcss1 hrs1 hold1 hnew1 hwf0
    obtain ⟨p2, h2, hwf2, hrs2, hle2, hall2, hor2, hun2⟩ :=
      ih p1 hwf1 (fun x hx => hb x (List.mem_cons_of_mem _ hx))
    have hle1 : p.currentSegmentSize ≤ p1.currentSegmentSize := by
      rw [hcss1']; exact Nat.le_max_left _ _
    have hw1 : w.1 < p1.currentSegmentSize := by
      rw [hcss1']; exact Nat.lt_of_lt_of_le (Nat.lt_succ_self _) (Nat.le_max_right _ _)
    refine ⟨p2, ?_, hwf2, by rw [hrs2, hrs1'], Nat.le_trans hle1 hle2, ?_, ?_, ?_⟩
    · simp only [writeRows, h1]
      exact h2
    · intro x hx
      rcases List.mem_cons.1 hx with rfl | hx
      · exact Nat.lt_of_lt_of_le hw1 hle2
      · exact hall2 x hx
    · rcases hor2 with h | ⟨x, hx, h⟩
      · by_cases hc : p.currentSegmentSize ≤ w.1
        · exact Or.inr ⟨w, List.mem_cons_self _ _, by omega⟩
        · exact Or.inl (by omega)
      · exact Or.inr ⟨x, List.mem_cons_of_mem _ hx, h⟩
    · intro i hi
      have hiw : i ≠ w.1 := fun h => hi w (List.mem_cons_self _ _) h.symm
      obtain ⟨ha, hb2⟩ := hun2 i (fun x hx => hi x (List.mem_cons_of_mem _ hx))
      refine ⟨fun hlt => ?_, fun h1 h2 => ?_⟩
      · rw [ha (Nat.lt_of_lt_of_le hlt hle1)]
        exact hold1' i hiw hlt
      · by_cases hc : i < p1.currentSegmentSize
        · rw [ha hc]
          exact hnew1' i hiw h1 hc
        · rw [hb2 (Nat.le_of_not_lt hc) h2, hrs1']

theorem writeRows_blocks (q : InterTableJoinProcessor) (ws : List (Nat × List Nat))
    (hwf : q.segments.length = q.currentSegmentSize) (hle : q.currentSegmentSize ≤ 6)
    (hfresh : ∀ s ∈ q.segments, s = some (SegmentInserter.create q.rowsize))
    (hws : ∀ w ∈ ws, w.1 = 0 ∨ w.1 = 2 ∨ w.1 = 5) (h5 : ∃ w ∈ ws, w.1 = 5) :
    ∃ q1, writeRows q ws = .ok q1 ∧ q1.currentSegmentSize = 6 ∧ q1.segments.length = 6 ∧
      q1.segments[1]? = some (some (SegmentInserter.create q.rowsize)) ∧
      q1.segments[3]? = some (some (SegmentInserter.create q.rowsize)) ∧
      q1.segments[4]? = some (some (SegmentInserter.create q.rowsize)) := by
  have hq : q.WellFormed := ⟨hwf, fun s hs h => by rw [hfresh s hs] at h; cases h⟩
  obtain ⟨q1, h1, hwf1, _, hle1, hall, hor, hun⟩ := writeRows_spec ws q hq (fun w hw => by
    rcases hws w hw with h | h | h <;> rw [h] <;> decide)
  obtain ⟨w5, hw5, e5⟩ := h5
  have hge : 5 < q1.currentSegmentSize := by rw [← e5]; exact hall w5 hw5
  have hcss : q1.currentSegmentSize = 6 := by
    rcases hor with h | ⟨x, hx, h⟩
    · omega
    · rcases hws x hx with h' | h' | h' <;> omega
  have hslot : ∀ i, i < 6 → i ≠ 0 → i ≠ 2 → i ≠ 5 →
      q1.segments[i]? = some (some (SegmentInserter.create q.rowsize)) := by
    intro i hi h0 h2 h5
    obtain ⟨ha, hb⟩ := hun i (fun w hw h => by
      rcases hws w hw with h' | h' | h' <;> omega)
    by_cases hc : i < q.currentSegmentSize
    · rw [ha hc]
      have hil : i < q.segments.length := by omega
      rw [List.getElem?_eq_getElem hil, hfresh _ (List.getElem_mem hil)]
    · exact hb (by omega) (by omega)
  exact ⟨q1, h1, hcss, by rw [hwf1.1, hcss], hslot 1 (by omega) (by omega) (by omega) (by omega),
    hslot 3 (by omega) (by omega) (by omega) (by omega),
    hslot 4 (by omega) (by omega) (by omega) (by omega)⟩

/-- C22: `InterTableJoinProcessor::enlargeArray(blockid)`, for a sink whose array
has `currentSegmentSize` slots and a block id with `blockid + 1` below `2^31`,
returns with `currentSegmentSize = max(old size, blockid + 1)`; slot `i` holds
the same inserter as before for every `i` below the old size, and every new slot
holds a fresh empty inserter of width `rowsize`. So when rows are written only
to blocks 0, 2 and 5 of a sink that starts with at most six blocks, all empty,
the sink has six blocks afterwards, of which 1, 3 and 4 are empty with width
`rowsize`. -/
theorem enlargeArray_preserves (p : InterTableJoinProcessor) (blockid : Nat)
    (hwf : p.segments.length = p.currentSegmentSize) (hb : blockid + 1 < 2 ^ 31) :
    (∃ p1, p.enlargeArray blockid = .ok p1 ∧
      p1.currentSegmentSize = max p.currentSegmentSize (blockid + 1) ∧
      p1.segments.length = p1.currentSegmentSize ∧
      p1.rowsize = p.rowsize ∧ p1.row = p.row ∧
      (∀ i, i < p.currentSegmentSize → p1.segments[i]? = p.segments[i]?) ∧
      (∀ i, p.currentSegmentSize ≤ i → i < p1.currentSegmentSize →
        p1.segments[i]? = some (some (SegmentInserter.create p.rowsize)))) ∧
    (∀ (q : InterTableJoinProcessor) (ws : List (Nat × List Nat)),
      q.segments.length = q.currentSegmentSize → q.currentSegmentSize ≤ 6 →
      (∀ s ∈ q.segments, s = some (SegmentInserter.create q.rowsize)) →
      (∀ w ∈ ws, w.1 = 0 ∨ w.1 = 2 ∨ w.1 = 5) → (∃ w ∈ ws, w.1 = 5) →
      ∃ q1, writeRows q ws = .ok q1 ∧ q1.currentSegmentSize = 6 ∧ q1.segments.length = 6 ∧
        q1.segments[1]? = some (some (SegmentInserter.create q.rowsize)) ∧
        q1.segments[3]? = some (some (SegmentInserter.create q.rowsize)) ∧
        q1.segments[4]? = some (some (SegmentInserter.create q.rowsize))) :=
  ⟨enlargeArray_spec p blockid hwf hb, fun q ws => writeRows_blocks q ws⟩

/-- Witness for C22: the sink with three empty blocks is enlarged for block 5,
and rows are written to its blocks 0, 2 and 5. -/
theorem enlargeArray_preserves_witness :
    sinkInter.enlargeArray 5
      = .ok { sinkInter with
              currentSegmentSize := 6
              segments := List.replicate 6 (some (SegmentInserter.create 2)) } ∧
    writeRows sinkInter [(0, [1, 2]), (2, [3, 4]), (5, [5, 6])]
      = .ok { rowsize := 2, row := [5, 6], currentSegmentSize := 6,
              segments := [some { rowsize := 2, columns := [[1], [2]], nrows := 1 },
                some (SegmentInserter.create 2),
                some { rowsize := 2, columns := [[3], [4]], nrows := 1 },
                some (SegmentInserter.create 2), some (SegmentInserter.create 2),
                some { rowsize := 2, columns := [[5], [6]], nrows := 1 }] } ∧
    ((∃ p1, sinkInter.enlargeArray 5 = .ok p1 ∧
      p1.currentSegmentSize = max sinkInter.currentSegmentSize (5 + 1) ∧
      p1.segments.length = p1.currentSegmentSize ∧
      p1.rowsize = sinkInter.rowsize ∧ p1.row = sinkInter.row ∧
      (∀ i, i < sinkInter.currentSegmentSize → p1.segments[i]? = sinkInter.segments[i]?) ∧
      (∀ i, sinkInter.currentSegmentSize ≤ i → i < p1.currentSegmentSize →
        p1.segments[i]? = some (some (SegmentInserter.create sinkInter.rowsize)))) ∧
    (∀ (q : InterTableJoinProcessor) (ws : List (Nat × List Nat)),
      q.segments.length = q.currentSegmentSize → q.currentSegmentSize ≤ 6 →
      (∀ s ∈ q.segments, s = some (SegmentInserter.create q.rowsize)) →
      (∀ w ∈ ws, w.1 = 0 ∨ w.1 = 2 ∨ w.1 = 5) → (∃ w ∈ ws, w.1 = 5) →
      ∃ q1, writeRows q ws = .ok q1 ∧ q1.currentSegmentSize = 6 ∧ q1.segments.length = 6 ∧
        q1.segments[1]? = some (some (SegmentInserter.create q.rowsize)) ∧
        q1.segments[3]? = some (some (SegmentInserter.create q.rowsize)) ∧
        q1.segments[4]? = some (some (SegmentInserter.create q.rowsize)))) :=
  ⟨by decide, by decide, enlargeArray_preserves sinkInter 5 (by decide) (by decide)⟩

/-- C23: `InterTableJoinProcessor::addColumns(blockid, itr, unique, sorted,
lastInsert)` ends in the fault of `throw 10` for every sink and every
combination of arguments, and the sink after the call is the sink before it, so
its blocks are unchanged. -/
theorem addColumns_unsupported {Itr : Type} (p : InterTableJoinProcessor) (blockid : Int)
    (itr : Itr) (unique sorted lastInsert : Bool) :
    (p.addColumns blockid itr unique sorted lastInsert).2 = .error Fault.thrown ∧
    (p.addColumns blockid itr unique sorted lastInsert).1 = p ∧
    (p.addColumns blockid itr unique sorted lastInsert).1.segments = p.segments :=
  ⟨rfl, rfl, rfl⟩

/-! ## The constructor of QSQQuery -/

theorem qsqStep_posToCopy (st : QSQBuild) (i : Nat) (t : VTerm) :
    (qsqStep st i t).posToCopy = st.posToCopy ++ (if t.isVariable then [i] else []) := by
  unfold qsqStep
  by_cases h : t.isVariable = true
  · rw [if_pos h, if_pos h]
    cases st.existingVars.find? (fun e => t.id == e.1) <;> rfl
  · rw [if_neg h, if_neg h, List.append_nil]

theorem qsqLoop_posToCopy :
    ∀ (ts : List VTerm) (i : Nat) (st : QSQBuild),
      (qsqLoop ts i st).posToCopy = st.posToCopy ++ varPositions ts i := by
  intro ts
  induction ts with
  | nil => intro i st; simp [qsqLoop, varPositions]
  | cons t ts ih =>
    intro i st
    rw [qsqLoop, ih, qsqStep_posToCopy, varPositions]
    by_cases h : t.isVariable = true
    · rw [if_pos h, if_pos h, List.append_assoc]; rfl
    · rw [if_neg h, if_neg h, List.append_nil]

theorem mem_varPositions :
    ∀ (ts : List VTerm) (i x : Nat),
      x ∈ varPositions ts i ↔ i ≤ x ∧ ∃ t, ts[x - i]? = some t ∧ t.isVariable = true := by
  intro ts
  induction ts with
  | nil => intro i x; simp [varPositions]
  | cons t ts ih =>
    intro i x
    have hrest : x ∈ varPositions ts (i + 1) ↔
        i + 1 ≤ x ∧ ∃ u, (t :: ts)[x - i]? = some u ∧ u.isVariable = true := by
      rw [ih]
      constructor
      · rintro ⟨h1, u, h2, h3⟩
        refine ⟨h1, u, ?_, h3⟩
        have e : x - i = (x - (i + 1)) + 1 := by omega
        rw [e, List.getElem?_cons_succ]; exact h2
      · rintro ⟨h1, u, h2, h3⟩
        refine ⟨h1, u, ?_, h3⟩
        have e : x - i = (x - (i + 1)) + 1 := by omega
        rw [e, List.getElem?_cons_succ] at h2; exact h2
    rw [varPositions]
    by_cases h : t.isVariable = true
    · rw [if_pos h, List.mem_cons, hrest]
      constructor
      · rintro (rfl | ⟨h1, u, h2, h3⟩)
        · exact ⟨Nat.le_refl _, t, by simp, h⟩
        · exact ⟨by omega, u, h2, h3⟩
      · rintro ⟨h1, u, h2, h3⟩
        by_cases hx : x = i
        · exact Or.inl hx
        · exact Or.inr ⟨by omega, u, h2, h3⟩
    · rw [if_neg h, hrest]
      constructor
      · rintro ⟨h1, u, h2, h3⟩
        exact ⟨by omega, u, h2, h3⟩
      · rintro ⟨h1, u, h2, h3⟩
        by_cases hx : x = i
        · subst hx
          simp only [Nat.sub_self, List.getElem?_cons_zero, Option.some.injEq] at h2
          subst h2
          exact absurd h3 h
        · exact ⟨by omega, u, h2, h3⟩

theorem varPositions_sorted :
    ∀ (ts : List VTerm) (i : Nat), (varPositions ts i).Pairwise (fun a b => a < b) := by
  intro ts
  induction ts with
  | nil => intro i; simp [varPositions]
  | cons t ts ih =>
    intro i
    rw [varPositions]
    by_cases h : t.isVariable = true
    · rw [if_pos h, List.pairwise_cons]
      refine ⟨fun b hb => ?_, ih (i + 1)⟩
      have := ((mem_varPositions ts (i + 1) b).1 hb).1
      omega
    · rw [if_neg h]; exact ih (i + 1)

theorem varPositions_length :
    ∀ (ts : List VTerm) (i : Nat),
      (varPositions ts i).length = (ts.filter VTerm.isVariable).length := by
  intro ts
  induction ts with
  | nil => intro i; rfl
  | cons t ts ih =>
    intro i
    rw [varPositions]
    by_cases h : t.isVariable = true
    · rw [if_pos h, List.filter_cons_of_pos h, List.length_cons, List.length_cons, ih]
    · rw [if_neg h, List.filter_cons_of_neg h, ih]

theorem ofLiteral_posToCopy (l : Literal) :
    (QSQQuery.ofLiteral l).posToCopy = varPositions l.tuple 0 := by
  simp only [QSQQuery.ofLiteral, qsqLoop_posToCopy, List.nil_append]

theorem getTermAtPos_isVariable (l : Literal) (i : Nat) :
    (i < l.getTupleSize ∧ (l.getTermAtPos i).isVariable = true) ↔
      ∃ t, l.tuple[i]? = some t ∧ t.isVariable = true := by
  unfold Literal.getTermAtPos Literal.getTupleSize
  constructor
  · rintro ⟨h1, h2⟩
    refine ⟨l.tuple[i], List.getElem?_eq_getElem h1, ?_⟩
    rw [List.getD_eq_getElem?_getD, List.getElem?_eq_getElem h1] at h2
    exact h2
  · rintro ⟨t, h1, h2⟩
    refine ⟨(List.getElem?_eq_some.1 h1).1, ?_⟩
    rw [List.getD_eq_getElem?_getD, h1]
    exact h2

/-- C24: for every literal, `posToCopy` as set by the constructor of `QSQQuery`
holds exactly the positions of the literal that hold a variable, in strictly
ascending order; so `nPosToCopy` is the number of variable positions and is at
most the tuple size. -/
theorem posToCopy_variable_positions (l : Literal) :
    (∀ i, i ∈ (QSQQuery.ofLiteral l).posToCopy ↔
      i < l.getTupleSize ∧ (l.getTermAtPos i).isVariable = true) ∧
    (QSQQuery.ofLiteral l).posToCopy.Pairwise (fun a b => a < b) ∧
    (QSQQuery.ofLiteral l).posToCopy.length = (l.tuple.filter VTerm.isVariable).length ∧
    (QSQQuery.ofLiteral l).posToCopy.length = l.getNVars ∧
    (QSQQuery.ofLiteral l).posToCopy.length ≤ l.getTupleSize := by
  rw [ofLiteral_posToCopy]
  refine ⟨fun i => ?_, varPositions_sorted _ _, varPositions_length _ _, ?_, ?_⟩
  · rw [mem_varPositions, getTermAtPos_isVariable]
    simp
  · rw [varPositions_length, Literal.getNVars, Literal.varIds, List.length_map]
  · rw [varPositions_length]
    exact List.length_filter_le _ _

theorem holdsVar_lt {ts : List VTerm} {pos id : Nat} (h : holdsVar ts pos id) :
    pos < ts.length := by
  obtain ⟨t, h1, _⟩ := h
  exact (List.getElem?_eq_some.1 h1).1

theorem holdsVar_append (pre : List VTerm) (t : VTerm) (pos id : Nat) :
    holdsVar (pre ++ [t]) pos id ↔
      holdsVar pre pos id ∨ (pos = pre.length ∧ t.isVariable = true ∧ t.id = id) := by
  unfold holdsVar
  constructor
  · rintro ⟨u, h1, h2, h3⟩
    by_cases hp : pos < pre.length
    · rw [List.getElem?_append_left hp] at h1
      exact Or.inl ⟨u, h1, h2, h3⟩
    · have hlen := (List.getElem?_eq_some.1 h1).1
      simp only [List.length_append, List.length_singleton] at hlen
      have hpos : pos = pre.length := by omega
      subst hpos
      rw [List.getElem?_append_right (Nat.le_refl _), Nat.sub_self] at h1
      simp only [List.getElem?_cons_zero, Option.some.injEq] at h1
      subst h1
      exact Or.inr ⟨rfl, h2, h3⟩
  · rintro (⟨u, h1, h2, h3⟩ | ⟨rfl, h2, h3⟩)
    · have hp := (List.getElem?_eq_some.1 h1).1
      exact ⟨u, by rw [List.getElem?_append_left hp]; exact h1, h2, h3⟩
    · refine ⟨t, ?_, h2, h3⟩
      rw [List.getElem?_append_right (Nat.le_refl _), Nat.sub_self]
      rfl

theorem firstVar_append (pre : List VTerm) (t : VTerm) (pos id : Nat) :
    firstVar (pre ++ [t]) pos id ↔
      firstVar pre pos id ∨
        (pos = pre.length ∧ t.isVariable = true ∧ t.id = id ∧ ∀ k, ¬ holdsVar pre k id) := by
  unfold firstVar
  constructor
  · rintro ⟨h1, h2⟩
    rcases (holdsVar_append pre t pos id).1 h1 with h | ⟨rfl, hv, hid⟩
    · exact Or.inl ⟨h, fun k hk hh => h2 k hk ((holdsVar_append pre t k id).2 (Or.inl hh))⟩
    · exact Or.inr ⟨rfl, hv, hid, fun k hh =>
        h2 k (holdsVar_lt hh) ((holdsVar_append pre t k id).2 (Or.inl hh))⟩
  · rintro (⟨h1, h2⟩ | ⟨rfl, hv, hid, hno⟩)
    · refine ⟨(holdsVar_append pre t pos id).2 (Or.inl h1), fun k hk hh => ?_⟩
      rcases (holdsVar_append pre t k id).1 hh with h | ⟨rfl, _, _⟩
      · exact h2 k hk h
      · exact absurd (holdsVar_lt h1) (by omega)
    · refine ⟨(holdsVar_append pre t _ id).2 (Or.inr ⟨rfl, hv, hid⟩), fun k hk hh => ?_⟩
      rcases (holdsVar_append pre t k id).1 hh with h | ⟨rfl, _, _⟩
      · exact hno k h
      · omega

theorem firstVar_exists (ts : List VTerm) (id : Nat) :
    ∀ (n k : Nat), k < n → holdsVar ts k id → ∃ a, firstVar ts a id := by
  intro n
  induction n with
  | zero => intro k hk; omega
  | succ n ih =>
    intro k hk hh
    by_cases hex : ∃ j, j < k ∧ holdsVar ts j id
    · obtain ⟨j, hj, hhj⟩ := hex
      exact ih j (by omega) hhj
    · exact ⟨k, hh, fun j hj hhj => hex ⟨j, hj, hhj⟩⟩

theorem firstVar_unique {ts : List VTerm} {a b id : Nat} (ha : firstVar ts a id)
    (hb : firstVar ts b id) : a = b := by
  rcases Nat.lt_trichotomy a b with h | h | h
  · exact absurd ha.1 (hb.2 a h)
  · exact h
  · exact absurd hb.1 (ha.2 b h)

theorem qsqStep_invariant (pre : List VTerm) (st : QSQBuild) (t : VTerm)
    (hE : ∀ id pos, (id, pos) ∈ st.existingVars ↔ firstVar pre pos id)
    (hR : ∀ a b, (a, b) ∈ st.repeatedVars ↔
      a < b ∧ ∃ id, firstVar pre a id ∧ holdsVar pre b id) :
    (∀ id pos, (id, pos) ∈ (qsqStep st pre.length t).existingVars ↔
      firstVar (pre ++ [t]) pos id) ∧
    (∀ a b, (a, b) ∈ (qsqStep st pre.length t).repeatedVars ↔
      a < b ∧ ∃ id, firstVar (pre ++ [t]) a id ∧ holdsVar (pre ++ [t]) b id) := by
  unfold qsqStep
  by_cases hv : t.isVariable = true
  · rw [if_pos hv]
    cases hf : st.existingVars.find? (fun e => t.id == e.1) with
    | none =>
      have hnone : ∀ k, ¬ holdsVar pre k t.id := by
        intro k hk
        obtain ⟨a, ha⟩ := firstVar_exists pre t.id (k + 1) k (Nat.lt_succ_self k) hk
        have hmem := (hE t.id a).2 ha
        have := List.find?_eq_none.1 hf _ hmem
        simp at this
      dsimp only
      refine ⟨fun id pos => ?_, fun a b => ?_⟩
      · rw [List.mem_append, hE, firstVar_append, List.mem_singleton, Prod.mk.injEq]
        constructor
        · rintro (h | ⟨rfl, rfl⟩)
          · exact Or.inl h
          · exact Or.inr ⟨rfl, hv, rfl, hnone⟩
        · rintro (h | ⟨rfl, _, rfl, _⟩)
          · exact Or.inl h
          · exact Or.inr ⟨rfl, rfl⟩
      · rw [hR]
        constructor
        · rintro ⟨hab, id, h1, h2⟩
          exact ⟨hab, id, (firstVar_append pre t a id).2 (Or.inl h1),
            (holdsVar_append pre t b id).2 (Or.inl h2)⟩
        · rintro ⟨hab, id, h1, h2⟩
          rcases (holdsVar_append pre t b id).1 h2 with hb | ⟨rfl, _, rfl⟩
          · rcases (firstVar_append pre t a id).1 h1 with ha | ⟨rfl, _, _, _⟩
            · exact ⟨hab, id, ha, hb⟩
            · exact absurd (holdsVar_lt hb) (by omega)
          · rcases (firstVar_append pre t a t.id).1 h1 with ha | ⟨rfl, _, _, _⟩
            · exact absurd ha.1 (hnone a)
            · omega
    | some e =>
      have hmem : e ∈ st.existingVars := List.mem_of_find?_eq_some hf
      have hid : t.id = e.1 := by
        have := List.find?_some hf
        simpa using this
      have hfirst : firstVar pre e.2 t.id := by
        rw [hid]; exact (hE e.1 e.2).1 hmem
      dsimp only
      refine ⟨fun id pos => ?_, fun a b => ?_⟩
      · rw [hE, firstVar_append]
        constructor
        · exact fun h => Or.inl h
        · rintro (h | ⟨_, _, rfl, hno⟩)
          · exact h
          · exact absurd hfirst.1 (hno e.2)
      · rw [List.mem_append, hR, List.mem_singleton, Prod.mk.injEq]
        constructor
        · rintro (⟨hab, id, h1, h2⟩ | ⟨rfl, rfl⟩)
          · exact ⟨hab, id, (firstVar_append pre t a id).2 (Or.inl h1),
              (holdsVar_append pre t b id).2 (Or.inl h2)⟩
          · exact ⟨holdsVar_lt hfirst.1, t.id, (firstVar_append pre t _ _).2 (Or.inl hfirst),
              (holdsVar_append pre t _ _).2 (Or.inr ⟨rfl, hv, rfl⟩)⟩
        · rintro ⟨hab, id, h1, h2⟩
          have ha : firstVar pre a id := by
            rcases (firstVar_append pre t a id).1 h1 with ha | ⟨_, _, rfl, hno⟩
            · exact ha
            · exact absurd hfirst.1 (hno e.2)
          rcases (holdsVar_append pre t b id).1 h2 with hb | ⟨rfl, _, rfl⟩
          · exact Or.inl ⟨hab, id, ha, hb⟩
          · exact Or.inr ⟨firstVar_unique ha hfirst, rfl⟩
  · rw [if_neg hv]
    refine ⟨fun id pos => ?_, fun a b => ?_⟩
    · rw [hE, firstVar_append]
      constructor
      · exact fun h => Or.inl h
      · rintro (h | ⟨_, h, _⟩)
        · exact h
        · exact absurd h hv
    · rw [hR]
      constructor
      · rintro ⟨hab, id, h1, h2⟩
        exact ⟨hab, id, (firstVar_append pre t a id).2 (Or.inl h1),
          (holdsVar_append pre t b id).2 (Or.inl h2)⟩
      · rintro ⟨hab, id, h1, h2⟩
        rcases (holdsVar_append pre t b id).1 h2 with hb | ⟨_, h, _⟩
        · rcases (firstVar_append pre t a id).1 h1 with ha | ⟨_, h, _⟩
          · exact ⟨hab, id, ha, hb⟩
          · exact absurd h hv
        · exact absurd h hv

theorem qsqLoop_invariant :
    ∀ (ts pre : List VTerm) (st : QSQBuild),
      (∀ id pos, (id, pos) ∈ st.existingVars ↔ firstVar pre pos id) →
      (∀ a b, (a, b) ∈ st.repeatedVars ↔
        a < b ∧ ∃ id, firstVar pre a id ∧ holdsVar pre b id) →
      ∀ a b, (a, b) ∈ (qsqLoop ts pre.length st).repeatedVars ↔
        a < b ∧ ∃ id, firstVar (pre ++ ts) a id ∧ holdsVar (pre ++ ts) b id := by
  intro ts
  induction ts with
  | nil =>
    intro pre st _ hR
    rw [List.append_nil]
    exact hR
  | cons t ts ih =>
    intro pre st hE hR
    obtain ⟨hE1, hR1⟩ := qsqStep_invariant pre st t hE hR
    have := ih (pre ++ [t]) (qsqStep st pre.length t) hE1 hR1
    rw [List.length_append, List.length_singleton, List.append_assoc] at this
    exact this

theorem ofLiteral_repeatedVars (l : Literal) (a b : Nat) :
    (a, b) ∈ (QSQQuery.ofLiteral l).repeatedVars ↔
      a < b ∧ ∃ id, firstVar l.tuple a id ∧ holdsVar l.tuple b id := by
  have h := qsqLoop_invariant l.tuple [] ⟨[], [], []⟩
    (fun id pos => by
      constructor
      · intro h; exact absurd h (List.not_mem_nil _)
      · intro h; exact absurd (holdsVar_lt h.1) (by simp))
    (fun a b => by
      constructor
      · intro h; exact absurd h (List.not_mem_nil _)
      · rintro ⟨_, id, h, _⟩; exact absurd (holdsVar_lt h.1) (by simp))
    a b
  simpa [QSQQuery.ofLiteral] using h

theorem holdsVar_getTermAtPos (l : Literal) (pos id : Nat) :
    holdsVar l.tuple pos id ↔
      pos < l.getTupleSize ∧ (l.getTermAtPos pos).isVariable = true ∧
        (l.getTermAtPos pos).id = id := by
  unfold holdsVar Literal.getTermAtPos Literal.getTupleSize
  constructor
  · rintro ⟨t, h1, h2, h3⟩
    refine ⟨(List.getElem?_eq_some.1 h1).1, ?_, ?_⟩
    · rw [List.getD_eq_getElem?_getD, h1]; exact h2
    · rw [List.getD_eq_getElem?_getD, h1]; exact h3
  · rintro ⟨h1, h2, h3⟩
    rw [List.getD_eq_getElem?_getD, List.getElem?_eq_getElem h1] at h2 h3
    exact ⟨l.tuple[pos], List.getElem?_eq_getElem h1, h2, h3⟩

/-- C25, the counterexample: in `p(X, X, X)` the variable `X` is at positions 1
and 2, and the pair `(1, 2)` is not among the `repeatedVars` of the constructor,
which are `(0, 1)` and `(0, 2)`: a later occurrence is paired with the first
position of the variable only. -/
theorem repeatedVars_misses_pair :
    (QSQQuery.ofLiteral literalXXX).repeatedVars = [(0, 1), (0, 2)] ∧
    (1 < 2 ∧ 2 < literalXXX.getTupleSize ∧
      (literalXXX.getTermAtPos 1).isVariable = true ∧
      (literalXXX.getTermAtPos 2).isVariable = true ∧
      (literalXXX.getTermAtPos 1).id = (literalXXX.getTermAtPos 2).id) ∧
    (1, 2) ∉ (QSQQuery.ofLiteral literalXXX).repeatedVars := by
  decide

/-- C25, as amended: for every literal, the `repeatedVars` computed by the
constructor of `QSQQuery` is exactly the set of pairs `(i, j)` with `i < j` such
that the same variable id appears at positions `i` and `j` of the literal and at
no position before `i`. -/
theorem repeatedVars_first_occurrence (l : Literal) (i j : Nat) :
    (i, j) ∈ (QSQQuery.ofLiteral l).repeatedVars ↔
      i < j ∧ j < l.getTupleSize ∧
      (l.getTermAtPos i).isVariable = true ∧ (l.getTermAtPos j).isVariable = true ∧
      (l.getTermAtPos i).id = (l.getTermAtPos j).id ∧
      ∀ k, k < i → ¬ ((l.getTermAtPos k).isVariable = true ∧
        (l.getTermAtPos k).id = (l.getTermAtPos i).id) := by
  rw [ofLiteral_repeatedVars]
  constructor
  · rintro ⟨hij, id, ⟨hi, hno⟩, hj⟩
    obtain ⟨_, hi2, hi3⟩ := (holdsVar_getTermAtPos l i id).1 hi
    obtain ⟨hj1, hj2, hj3⟩ := (holdsVar_getTermAtPos l j id).1 hj
    refine ⟨hij, hj1, hi2, hj2, by rw [hi3, hj3], fun k hk hh => ?_⟩
    exact hno k hk ((holdsVar_getTermAtPos l k id).2 ⟨by omega, hh.1, by rw [hh.2, hi3]⟩)
  · rintro ⟨hij, hj1, hi2, hj2, heq, hno⟩
    refine ⟨hij, (l.getTermAtPos i).id,
      ⟨(holdsVar_getTermAtPos l i _).2 ⟨by omega, hi2, rfl⟩, fun k hk hh => ?_⟩,
      (holdsVar_getTermAtPos l j _).2 ⟨hj1, hj2, heq.symm⟩⟩
    obtain ⟨_, h2, h3⟩ := (holdsVar_getTermAtPos l k _).1 hh
    exact hno k hk ⟨h2, h3⟩

/-! ## The arity-1 filter, unsupported arities and filters of odd length -/

theorem filterSingle_eq (rel : IndexedTupleTable)
    (hs : rel.singleColumn.Pairwise (fun a b => a ≤ b)) :
    ∀ (vals : List Nat) (out : TupleTable),
      filterSingle rel vals out
        = out ++ (vals.filter (fun v => decide (v ∈ rel.singleColumn))).map (fun v => [v]) := by
  intro vals
  induction vals with
  | nil => intro out; simp [filterSingle]
  | cons x xs ih =>
    intro out
    rw [filterSingle, ih]
    by_cases hx : x ∈ rel.singleColumn
    · rw [if_pos ((existsTerm_iff rel hs x).2 hx), List.filter_cons_of_pos (by simpa using hx)]
      simp [addRow]
    · have hne : ¬ rel.existsTerm x = true := fun h => hx ((existsTerm_iff rel hs x).1 h)
      rw [if_neg hne, List.filter_cons_of_neg (by simpa using hx)]

theorem query_single_eq (rel : IndexedTupleTable) (q : QSQQuery) (out : TupleTable)
    (vals : List Nat) (h1 : rel.sizeTuple = 1)
    (hs : rel.singleColumn.Pairwise (fun a b => a ≤ b)) :
    query rel q out (some [0]) vals
      = .ok (out ++ (vals.filter (fun v => decide (v ∈ rel.singleColumn))).map (fun v => [v])) := by
  simp [query, h1, filterSingle_eq rel hs]

theorem pairLoop_odd (rest : List Nat) :
    ∀ (p1 p2 : Nat) (fv : List Row) (sorted : Bool), rest.length % 2 = 1 →
      pairLoop p1 p2 rest fv sorted = .error Fault.outOfBounds := by
  induction rest using list_two_step with
  | h0 => intro p1 p2 fv sorted h; simp at h
  | h1 a => intro p1 p2 fv sorted _; rfl
  | h2 a b rest ih =>
    intro p1 p2 fv sorted h
    have h' : rest.length % 2 = 1 := by
      simp only [List.length_cons] at h; omega
    rw [pairLoop]
    split
    · exact ih _ _ _ _ h'
    · exact ih _ _ _ _ h'

theorem normalizePairs_odd (vals : List Nat) (hodd : vals.length % 2 = 1) :
    normalizePairs vals = .error Fault.outOfBounds := by
  match vals, hodd with
  | [], h => simp at h
  | [a], _ => rfl
  | a :: b :: rest, h =>
    have h' : rest.length % 2 = 1 := by
      simp only [List.length_cons] at h; omega
    simp only [normalizePairs, pairLoop_odd rest a b [(a, b)] true h']

theorem query_pairs_odd (rel : IndexedTupleTable) (q : QSQQuery) (out : TupleTable)
    (p p2 : Nat) (ps : List Nat) (vals : List Nat) (h2 : rel.sizeTuple = 2)
    (hodd : vals.length % 2 = 1) :
    query rel q out (some (p :: p2 :: ps)) vals = .error Fault.outOfBounds := by
  simp [query, h2, normalizePairs_odd vals hodd]

/-- C26: for an in-memory relation of arity 1 whose column is sorted and a filter
on position 0, `EDBLayer::query` adds one single-column row for a filter value
exactly when the value is in the relation: the rows added are the values of
`valuesToFilter` that are in the relation, in the order of `valuesToFilter`. -/
theorem query_arity_one_filter (rel : IndexedTupleTable) (q : QSQQuery) (out : TupleTable)
    (vals : List Nat) (h1 : rel.sizeTuple = 1)
    (hs : rel.singleColumn.Pairwise (fun a b => a ≤ b)) :
    query rel q out (some [0]) vals
      = .ok (out ++ (vals.filter (fun v => decide (v ∈ rel.singleColumn))).map (fun v => [v])) :=
  query_single_eq rel q out vals h1 hs

/-- Witness for C26: the relation `{2, 5, 9}` filtered by the values 9, 3, 2, 9. -/
theorem query_arity_one_filter_witness :
    query relUnary queryX [] (some [0]) [9, 3, 2, 9] = .ok [[9], [2], [9]] ∧
    query relUnary queryX [] (some [0]) [9, 3, 2, 9]
      = .ok ([] ++ ([9, 3, 2, 9].filter (fun v => decide (v ∈ relUnary.singleColumn))).map
          (fun v => [v])) :=
  ⟨by decide, query_arity_one_filter relUnary queryX [] [9, 3, 2, 9] (by decide) (by decide)⟩

/-- C28: with a filter on both positions and a
`valuesToFilter` of odd length (here 1 and 3 values), the loop that reads the
values as pairs reads the second entry of the last pair past the end of the
vector; there is no test of the length before it. -/
theorem query_odd_values_read_past_end :
    query relS1 queryXY [] (some [0, 1]) [1] = .error Fault.outOfBounds ∧
    query relS1 queryXY [] (some [0, 1]) [1, 2, 3] = .error Fault.outOfBounds ∧
    normalizePairs [1, 2, 3] = .error Fault.outOfBounds ∧
    pairLoop 1 2 [3] [(1, 2)] true = .error Fault.outOfBounds := by
  decide

/-! ## The configuration file: EDBConf::parse -/

theorem isDigit_ne {c : Char} (h : c.isDigit = true) :
    c ≠ '_' ∧ c ≠ '=' ∧ c ≠ '-' ∧ c ≠ '+' := by
  refine ⟨?_, ?_, ?_, ?_⟩ <;> intro hc <;> subst hc <;> exact absurd h (by decide)

theorem readDigits_digits :
    ∀ (ds : List Char) (acc n : Nat), readDigits ds acc = some n → ∀ c ∈ ds, c.isDigit = true := by
  intro ds
  induction ds with
  | nil => intro acc n _ c hc; exact absurd hc (List.not_mem_nil c)
  | cons d ds ih =>
    intro acc n h c hc
    rw [readDigits] at h
    by_cases hd : d.isDigit = true
    · rw [if_pos hd] at h
      rcases List.mem_cons.1 hc with rfl | hc
      · exact hd
      · exact ih _ _ h c hc
    · rw [if_neg hd] at h
      cases h

theorem readNumber_digits {ds : List Char} {n : Nat} (h : readNumber ds = some n) :
    ds ≠ [] ∧ ∀ c ∈ ds, c.isDigit = true := by
  cases ds with
  | nil => simp [readNumber] at h
  | cons d ds => exact ⟨List.cons_ne_nil _ _, readDigits_digits _ _ _ h⟩

theorem findFrom_skip (c : Char) :
    ∀ (pre rest : List Char) (i : Nat), (∀ x ∈ pre, x ≠ c) →
      findFrom c (pre ++ c :: rest) i = i + pre.length := by
  intro pre
  induction pre with
  | nil => intro rest i _; simp [findFrom]
  | cons x xs ih =>
    intro rest i h
    rw [List.cons_append, findFrom, if_neg (h x (List.mem_cons_self _ _)),
      ih rest (i + 1) (fun y hy => h y (List.mem_cons_of_mem _ hy)), List.length_cons]
    omega

theorem lexical_cast_number {ds : List Char} {n : Nat} (h : readNumber ds = some n)
    (hn : n < 2 ^ 31) : lexical_cast ds = .ok (n : Int) := by
  obtain ⟨hne, hdig⟩ := readNumber_digits h
  cases ds with
  | nil => exact absurd rfl hne
  | cons d ds =>
    obtain ⟨_, _, h3, h4⟩ := isDigit_ne (hdig d (List.mem_cons_self _ _))
    unfold lexical_cast
    split
    · rename_i heq
      exact absurd (List.cons.inj heq).1 h3
    · rename_i heq
      exact absurd (List.cons.inj heq).1 h4
    · rw [h]
      simp only [if_pos hn]

theorem starts_with_append (pre rest : List Char) : starts_with (pre ++ rest) pre = true := by
  induction pre with
  | nil => cases rest <;> rfl
  | cons x xs ih => simp [starts_with, ih]

theorem substr_middle (a b c : List Char) (len : Nat) (h : len = b.length) :
    substr (a ++ b ++ c) a.length len = .ok b := by
  subst h
  unfold substr
  rw [if_neg (by simp only [List.length_append]; omega)]
  simp

theorem substr_rest (a b : List Char) (len : Nat) (h : b.length ≤ len) :
    substr (a ++ b) a.length len = .ok b := by
  unfold substr
  rw [if_neg (by simp only [List.length_append]; omega)]
  simp [List.take_of_length_le h]

theorem toSize_ofNat (n : Nat) (h : n < 2 ^ 64) : toSize (n : Int) = n := by
  unfold toSize
  omega

theorem wrapInt_ofNat (n : Nat) (h : n < 2 ^ 31) : wrapInt (n : Int) = (n : Int) := by
  unfold wrapInt
  omega

theorem toSize_succ (n : Nat) (h : n + 1 < 2 ^ 31) :
    toSize (wrapInt ((n : Int) + 1)) = n + 1 := by
  have e : ((n : Int) + 1) = ((n + 1 : Nat) : Int) := by push_cast; rfl
  rw [e, wrapInt_ofNat _ h, toSize_ofNat _ (by omega)]

theorem resize_grow {α : Type} (v : List α) (n : Nat) (d : α) (h : n < 2 ^ 63) :
    (if v.length < n then resize v n d else .ok v) = .ok (grow v n d) := by
  unfold resize grow
  by_cases hl : v.length < n
  · rw [if_pos hl, if_neg (by omega), List.take_of_length_le (by omega)]
  · rw [if_neg hl]
    have : n - v.length = 0 := by omega
    rw [this]
    simp

theorem length_grow {α : Type} (v : List α) (n : Nat) (d : α) :
    (grow v n d).length = max v.length n := by
  unfold grow
  rw [List.length_append, List.length_replicate]
  omega

theorem updateTable_ok (tables : List Table) (i : Nat) (f : Table → Except ConfFault Table)
    (g : Table → Table) (hf : ∀ t, f t = .ok (g t)) (hi : i < tables.length) :
    updateTable tables i f = .ok (tables.set i (g (tables.getD i Table.blank))) := by
  unfold updateTable
  rw [List.getD_eq_getElem?_getD, List.getElem?_eq_getElem hi]
  simp only [hf, Option.getD_some]

theorem setParam_ok (n : Nat) (value : List Char) (table : Table) (h : n + 1 < 2 ^ 31) :
    setParam (n : Int) value table = .ok (applyKey (ConfKey.param n) value table) := by
  unfold setParam
  rw [toSize_ofNat n (by omega), toSize_succ n h]
  have hg := resize_grow table.params (n + 1) ([] : List Char) (by omega)
  have hc : (table.params.length ≤ n) = (table.params.length < n + 1) := by
    apply propext; omega
  simp only [hc, hg]
  rw [if_pos (by rw [length_grow]; omega)]
  rfl

theorem keyText_no_eq {key : ConfKey} {s : List Char} (h : KeyText key s) :
    ∀ c ∈ s, c ≠ '=' := by
  cases key with
  | predname => simp only [KeyText] at h; subst h; decide
  | type => simp only [KeyText] at h; subst h; decide
  | param n =>
    have hp : ∀ c ∈ ['p', 'a', 'r', 'a', 'm'], c ≠ '=' := by decide
    obtain ⟨ns, h1, _, rfl⟩ := h
    intro c hc
    rcases List.mem_append.1 hc with hc | hc
    · exact hp c hc
    · exact (isDigit_ne ((readNumber_digits h1).2 c hc)).2.1

theorem parseLine_wellFormed (tables : List Table) (line : List Char) (e : ConfEntry)
    (h : WellFormedLine line e) : parseLine tables line = .ok (applyEntry tables e) := by
  obtain ⟨ds, key, hds, hid, hkey, hline, hlen⟩ := h
  obtain ⟨_, hdig⟩ := readNumber_digits hds
  have hpre : ∀ x ∈ ['E', 'D', 'B'] ++ ds, x ≠ '_' := by
    have h0 : ∀ x ∈ ['E', 'D', 'B'], x ≠ '_' := by decide
    intro x hx
    rcases List.mem_append.1 hx with hx | hx
    · exact h0 x hx
    · exact (isDigit_ne (hdig x hx)).1
  have hpre2 : ∀ x ∈ ['E', 'D', 'B'] ++ ds ++ '_' :: key, x ≠ '=' := by
    have h0 : ∀ x ∈ ['E', 'D', 'B', '_'], x ≠ '=' := by decide
    intro x hx
    simp only [List.mem_append, List.mem_cons] at hx
    rcases hx with (hx | hx) | hx | hx
    · exact h0 x (by simp only [List.mem_cons]; tauto)
    · exact (isDigit_ne (hdig x hx)).2.1
    · rw [hx]; decide
    · exact keyText_no_eq hkey x hx
  have hstart : starts_with line ['E', 'D', 'B'] = true := by
    have l0 : line = ['E', 'D', 'B'] ++ (ds ++ '_' :: key ++ '=' :: e.value) := by
      rw [hline]; simp
    rw [l0]
    exact starts_with_append _ _
  have hfound : find line '_' = 3 + ds.length := by
    have l1 : line = (['E', 'D', 'B'] ++ ds) ++ '_' :: (key ++ '=' :: e.value) := by
      rw [hline]; simp
    rw [l1, find, findFrom_skip '_' (['E', 'D', 'B'] ++ ds) _ 0 hpre]
    simp only [List.length_append, List.length_cons, List.length_nil]
    omega
  have hidx : find line '=' = 3 + ds.length + 1 + key.length := by
    rw [hline, find, findFrom_skip '=' (['E', 'D', 'B'] ++ ds ++ '_' :: key) _ 0 hpre2]
    simp only [List.length_append, List.length_cons, List.length_nil]
    omega
  have hll : line.length = 3 + ds.length + 1 + key.length + 1 + e.value.length := by
    rw [hline]
    simp only [List.length_append, List.length_cons, List.length_nil]
    omega
  have hsub1 : substr line 3 ds.length = .ok ds := by
    have l2 : line = ['E', 'D', 'B'] ++ ds ++ ('_' :: key ++ '=' :: e.value) := by
      rw [hline]; simp
    rw [l2]
    exact substr_middle ['E', 'D', 'B'] ds ('_' :: key ++ '=' :: e.value) ds.length rfl
  have hsub2 : substr line (3 + ds.length + 1) key.length = .ok key := by
    have l3 : line = (['E', 'D', 'B'] ++ ds ++ ['_']) ++ key ++ ('=' :: e.value) := by
      rw [hline]; simp
    have hl3 : (['E', 'D', 'B'] ++ ds ++ ['_']).length = 3 + ds.length + 1 := by
      simp only [List.length_append, List.length_cons, List.length_nil]
    rw [l3, ← hl3]
    exact substr_middle (['E', 'D', 'B'] ++ ds ++ ['_']) key ('=' :: e.value) key.length rfl
  have hsub3 : substr line (3 + ds.length + 1 + key.length + 1) npos = .ok e.value := by
    have l4 : line = (['E', 'D', 'B'] ++ ds ++ '_' :: key ++ ['=']) ++ e.value := by
      rw [hline]; simp
    have hl4 : (['E', 'D', 'B'] ++ ds ++ '_' :: key ++ ['=']).length
        = 3 + ds.length + 1 + key.length + 1 := by
      simp only [List.length_append, List.length_cons, List.length_nil]
      omega
    rw [l4, ← hl4]
    exact substr_rest (['E', 'D', 'B'] ++ ds ++ '_' :: key ++ ['=']) e.value npos
      (by unfold npos; omega)
  have hcast : lexical_cast ds = .ok (e.id : Int) := lexical_cast_number hds (by omega)
  have hgrow := resize_grow tables (e.id + 1) Table.blank (by omega)
  have hlt : e.id < (grow tables (e.id + 1) Table.blank).length := by
    rw [length_grow]; omega
  have hentry : parseEntry tables line (3 + ds.length) (e.id : Int)
      = .ok (applyEntry tables e) := by
    rw [parseEntry]
    rw [toSize_ofNat e.id (by omega), toSize_succ e.id hid, hgrow]
    dsimp only
    rw [hidx]
    have e2 : (3 + ds.length + 1 + key.length + 2 ^ 64 - (3 + ds.length) - 1) % 2 ^ 64
        = key.length := by omega
    have e3 : (3 + ds.length + 1 + key.length + 1) % 2 ^ 64
        = 3 + ds.length + 1 + key.length + 1 := by omega
    rw [e2, e3, hsub2, hsub3]
    dsimp only
    unfold applyEntry
    cases hk : e.key with
    | predname =>
      rw [hk] at hkey
      simp only [KeyText] at hkey
      subst hkey
      rw [if_pos rfl]
      exact updateTable_ok _ _ _ (applyKey ConfKey.predname e.value) (fun _ => rfl) hlt
    | type =>
      rw [hk] at hkey
      simp only [KeyText] at hkey
      subst hkey
      rw [if_neg (by decide), if_pos rfl]
      exact updateTable_ok _ _ _ (applyKey ConfKey.type e.value) (fun _ => rfl) hlt
    | param n =>
      rw [hk] at hkey
      obtain ⟨ns, hns, hn, rfl⟩ := hkey
      have hne1 : ¬ (['p', 'a', 'r', 'a', 'm'] ++ ns = ['p', 'r', 'e', 'd', 'n', 'a', 'm', 'e']) := by
        intro hc
        simp only [List.cons_append, List.cons.injEq] at hc
        exact absurd hc.2.1 (by decide)
      have hne2 : ¬ (['p', 'a', 'r', 'a', 'm'] ++ ns = ['t', 'y', 'p', 'e']) := by
        intro hc
        simp only [List.cons_append, List.cons.injEq] at hc
        exact absurd hc.1 (by decide)
      rw [if_neg hne1, if_neg hne2, if_pos (starts_with_append _ _)]
      have hsub4 : substr (['p', 'a', 'r', 'a', 'm'] ++ ns) 5 npos = .ok ns :=
        substr_rest ['p', 'a', 'r', 'a', 'm'] ns npos (by
          simp only [List.length_append, List.length_cons, List.length_nil] at hll
          unfold npos; omega)
      simp only [hsub4, lexical_cast_number hns (by omega)]
      exact updateTable_ok _ _ _ (applyKey (ConfKey.param n) e.value)
        (fun t => setParam_ok n e.value t hn) hlt
  unfold parseLine
  rw [if_pos hstart]
  simp only [hfound]
  rw [if_neg (by unfold npos; omega)]
  have e1 : (3 + ds.length + 2 ^ 64 - 3) % 2 ^ 64 = ds.length := by omega
  rw [e1, hsub1]
  dsimp only
  rw [hcast]
  exact hentry

theorem tableCount_append (es : List ConfEntry) (e : ConfEntry) :
    tableCount (es ++ [e]) = max (tableCount es) (e.id + 1) := by
  simp [tableCount, List.foldl_append]

theorem paramCount_append (es : List ConfEntry) (e : ConfEntry) (id : Nat) :
    paramCount (es ++ [e]) id
      = match e.key with
        | ConfKey.param n => if e.id = id then max (paramCount es id) (n + 1) else paramCount es id
        | _ => paramCount es id := by
  simp [paramCount, List.foldl_append]

theorem lastValue_append (es : List ConfEntry) (e : ConfEntry) (id : Nat) (key : ConfKey) :
    lastValue (es ++ [e]) id key
      = if e.id = id ∧ e.key = key then e.value else lastValue es id key := by
  unfold lastValue
  rw [List.reverse_append, List.reverse_singleton, List.singleton_append, List.find?_cons]
  by_cases h : e.id = id ∧ e.key = key
  · rw [if_pos h]
    simp [h]
  · rw [if_neg h]
    simp [h]

theorem tableCount_foldl_le (es : List ConfEntry) :
    ∀ m, m ≤ es.foldl (fun m e => max m (e.id + 1)) m ∧
      ∀ e ∈ es, e.id + 1 ≤ es.foldl (fun m e => max m (e.id + 1)) m := by
  induction es with
  | nil => intro m; exact ⟨Nat.le_refl _, fun e he => absurd he (List.not_mem_nil e)⟩
  | cons x xs ih =>
    intro m
    obtain ⟨h1, h2⟩ := ih (max m (x.id + 1))
    rw [List.foldl_cons]
    refine ⟨by omega, fun e he => ?_⟩
    rcases List.mem_cons.1 he with rfl | he
    · omega
    · exact h2 e he

theorem id_lt_tableCount {es : List ConfEntry} {e : ConfEntry} (he : e ∈ es) :
    e.id < tableCount es :=
  (tableCount_foldl_le es 0).2 e he

theorem lastValue_none (es : List ConfEntry) (id : Nat) (key : ConfKey)
    (h : ∀ e ∈ es, ¬ (e.id = id ∧ e.key = key)) : lastValue es id key = [] := by
  unfold lastValue
  have : es.reverse.find? (fun e => decide (e.id = id ∧ e.key = key)) = none := by
    rw [List.find?_eq_none]
    intro x hx
    simpa using h x (List.mem_reverse.1 hx)
  rw [this]

theorem paramCount_foldl (id : Nat) (es : List ConfEntry) :
    ∀ m, m ≤ es.foldl (fun m e =>
        match e.key with
        | ConfKey.param n => if e.id = id then max m (n + 1) else m
        | _ => m) m ∧
      (∀ e ∈ es, ∀ n, e.id = id → e.key = ConfKey.param n →
        n + 1 ≤ es.foldl (fun m e =>
          match e.key with
          | ConfKey.param n => if e.id = id then max m (n + 1) else m
          | _ => m) m) ∧
      ((∀ e ∈ es, e.id ≠ id) → es.foldl (fun m e =>
          match e.key with
          | ConfKey.param n => if e.id = id then max m (n + 1) else m
          | _ => m) m = m) := by
  induction es with
  | nil =>
    intro m
    exact ⟨Nat.le_refl _, fun e he => absurd he (List.not_mem_nil e), fun _ => rfl⟩
  | cons x xs ih =>
    intro m
    rw [List.foldl_cons]
    cases hk : x.key with
    | predname =>
      obtain ⟨h1, h2, h3⟩ := ih m
      refine ⟨h1, fun e he n hid hkey => ?_, fun hne => h3 (fun e he => hne e (List.mem_cons_of_mem _ he))⟩
      rcases List.mem_cons.1 he with rfl | he
      · rw [hk] at hkey; cases hkey
      · exact h2 e he n hid hkey
    | type =>
      obtain ⟨h1, h2, h3⟩ := ih m
      refine ⟨h1, fun e he n hid hkey => ?_, fun hne => h3 (fun e he => hne e (List.mem_cons_of_mem _ he))⟩
      rcases List.mem_cons.1 he with rfl | he
      · rw [hk] at hkey; cases hkey
      · exact h2 e he n hid hkey
    | param k =>
      dsimp only
      by_cases hx : x.id = id
      · rw [if_pos hx]
        obtain ⟨h1, h2, _⟩ := ih (max m (k + 1))
        refine ⟨by omega, fun e he n hid hkey => ?_, fun hne => ?_⟩
        · rcases List.mem_cons.1 he with rfl | he
          · rw [hk] at hkey
            cases hkey
            omega
          · exact h2 e he n hid hkey
        · exact absurd hx (hne x (List.mem_cons_self _ _))
      · rw [if_neg hx]
        obtain ⟨h1, h2, h3⟩ := ih m
        refine ⟨h1, fun e he n hid hkey => ?_, fun hne => h3 (fun e he => hne e (List.mem_cons_of_mem _ he))⟩
        rcases List.mem_cons.1 he with rfl | he
        · exact absurd hid hx
        · exact h2 e he n hid hkey

theorem param_lt_paramCount {es : List ConfEntry} {e : ConfEntry} {id n : Nat} (he : e ∈ es)
    (hid : e.id = id) (hkey : e.key = ConfKey.param n) : n < paramCount es id :=
  (paramCount_foldl id es 0).2.1 e he n hid hkey

theorem paramCount_zero {es : List ConfEntry} {id : Nat} (h : ∀ e ∈ es, e.id ≠ id) :
    paramCount es id = 0 :=
  (paramCount_foldl id es 0).2.2 h

theorem describedTable_blank (es : List ConfEntry) (id : Nat) (h : tableCount es ≤ id) :
    describedTable es id = Table.blank := by
  have hne : ∀ e ∈ es, e.id ≠ id := fun e he hc => by
    have := id_lt_tableCount he
    omega
  unfold describedTable Table.blank
  rw [lastValue_none es id _ (fun e he hc => hne e he hc.1),
    lastValue_none es id _ (fun e he hc => hne e he hc.1), paramCount_zero hne]
  rfl

theorem getElem?_grow {α : Type} (v : List α) (n : Nat) (d : α) (i : Nat) :
    (grow v n d)[i]? = if i < v.length then v[i]? else if i < n then some d else none := by
  unfold grow
  by_cases h : i < v.length
  · rw [if_pos h, List.getElem?_append_left h]
  · rw [if_neg h, List.getElem?_append_right (by omega)]
    by_cases h2 : i < n
    · rw [if_pos h2, List.getElem?_replicate_of_lt (by omega)]
    · rw [if_neg h2, List.getElem?_eq_none (by rw [List.length_replicate]; omega)]

theorem getElem?_describedTables (es : List ConfEntry) (i : Nat) :
    (describedTables es)[i]?
      = if i < tableCount es then some (describedTable es i) else none := by
  unfold describedTables
  rw [List.getElem?_map]
  by_cases h : i < tableCount es
  · rw [if_pos h, List.getElem?_range h]
    rfl
  · rw [if_neg h, List.getElem?_eq_none (by rw [List.length_range]; omega)]
    rfl

theorem length_describedTables (es : List ConfEntry) :
    (describedTables es).length = tableCount es := by
  unfold describedTables
  rw [List.length_map, List.length_range]

theorem getElem?_grow_described (es : List ConfEntry) (n i : Nat) :
    (grow (describedTables es) n Table.blank)[i]?
      = if i < max (tableCount es) n then some (describedTable es i) else none := by
  rw [getElem?_grow, length_describedTables, getElem?_describedTables]
  by_cases h : i < tableCount es
  · rw [if_pos h, if_pos h, if_pos (by omega)]
  · rw [if_neg h]
    by_cases h2 : i < n
    · rw [if_pos h2, if_pos (by omega), describedTable_blank es i (by omega)]
    · rw [if_neg h2, if_neg (by omega)]

theorem describedTable_append_ne (es : List ConfEntry) (e : ConfEntry) (i : Nat)
    (h : e.id ≠ i) : describedTable (es ++ [e]) i = describedTable es i := by
  unfold describedTable
  have hp : paramCount (es ++ [e]) i = paramCount es i := by
    rw [paramCount_append]
    cases e.key with
    | predname => rfl
    | type => rfl
    | param n => exact if_neg h
  rw [hp, lastValue_append, lastValue_append, if_neg (fun hc => h hc.1),
    if_neg (fun hc => h hc.1)]
  congr 1
  apply List.map_congr_left
  intro n _
  rw [lastValue_append, if_neg (fun hc => h hc.1)]

theorem applyKey_describedTable (es : List ConfEntry) (e : ConfEntry) :
    applyKey e.key e.value (describedTable es e.id) = describedTable (es ++ [e]) e.id := by
  cases hk : e.key with
  | predname =>
    have hp : paramCount (es ++ [e]) e.id = paramCount es e.id := by
      rw [paramCount_append, hk]
    simp only [applyKey, describedTable, hp, lastValue_append, hk, true_and, if_true,
      reduceCtorEq, and_false, if_false]
  | type =>
    have hp : paramCount (es ++ [e]) e.id = paramCount es e.id := by
      rw [paramCount_append, hk]
    simp only [applyKey, describedTable, hp, lastValue_append, hk, true_and, if_true,
      reduceCtorEq, and_false, if_false]
  | param n =>
    have hp : paramCount (es ++ [e]) e.id = max (paramCount es e.id) (n + 1) := by
      rw [paramCount_append, hk]
      exact if_pos rfl
    simp only [applyKey, describedTable, hp, lastValue_append, hk, true_and,
      reduceCtorEq, if_false, Table.mk.injEq]
    apply List.ext_getElem?
    intro m
    rw [List.getElem?_set, getElem?_grow, List.length_map, List.length_range, List.getElem?_map,
      List.getElem?_map, length_grow, List.length_map, List.length_range]
    by_cases hm : n = m
    · subst hm
      rw [if_pos rfl, if_pos (by omega), List.getElem?_range (by omega)]
      simp
    · rw [if_neg hm]
      have hne : ConfKey.param n ≠ ConfKey.param m := fun hc => hm (ConfKey.param.inj hc)
      by_cases h1 : m < paramCount es e.id
      · rw [if_pos h1, List.getElem?_range h1, List.getElem?_range (by omega)]
        simp [hm]
      · rw [if_neg h1]
        by_cases h2 : m < n + 1
        · rw [if_pos h2, List.getElem?_range (by omega)]
          have hnone : lastValue es e.id (ConfKey.param m) = [] :=
            lastValue_none es e.id _ (fun x hx hc => h1 (param_lt_paramCount hx hc.1 hc.2))
          simp [hm, hnone]
        · rw [if_neg h2, List.getElem?_eq_none (by rw [List.length_range]; omega)]
          rfl

theorem applyEntry_describedTables (es : List ConfEntry) (e : ConfEntry) :
    applyEntry (describedTables es) e = describedTables (es ++ [e]) := by
  have hget : (grow (describedTables es) (e.id + 1) Table.blank).getD e.id Table.blank
      = describedTable es e.id := by
    rw [List.getD_eq_getElem?_getD, getElem?_grow_described, if_pos (by omega)]
    rfl
  unfold applyEntry
  rw [hget, applyKey_describedTable]
  apply List.ext_getElem?
  intro i
  rw [List.getElem?_set, getElem?_describedTables, tableCount_append, length_grow,
    length_describedTables, getElem?_grow_described]
  by_cases hi : e.id = i
  · subst hi
    rw [if_pos rfl, if_pos (by omega)]
  · rw [if_neg hi, describedTable_append_ne es e i hi]

theorem parseLines_append (l1 l2 : List (List Char)) :
    ∀ tables, parseLines (l1 ++ l2) tables
      = match parseLines l1 tables with
        | .error e => .error e
        | .ok tables1 => parseLines l2 tables1 := by
  induction l1 with
  | nil => intro tables; rfl
  | cons l ls ih =>
    intro tables
    rw [List.cons_append, parseLines, parseLines]
    cases parseLine tables l with
    | error e => rfl
    | ok t => exact ih t

theorem parseLines_wellFormed (items : List (List Char × Option ConfEntry))
    (h : ∀ it ∈ items, WellFormedItem it) :
    parseLines (items.map Prod.fst) []
      = .ok (describedTables (items.filterMap Prod.snd)) := by
  induction items using List.reverseRecOn with
  | nil => rfl
  | append_singleton its it ih =>
    have hit : WellFormedItem it := h it (List.mem_append_right _ (List.mem_singleton_self it))
    have hrest := ih (fun x hx => h x (List.mem_append_left _ hx))
    rw [List.map_append, parseLines_append, hrest, List.filterMap_append]
    obtain ⟨line, oe⟩ := it
    cases oe with
    | none =>
      have hs : starts_with line ['E', 'D', 'B'] = false := hit
      simp only [List.map_cons, List.map_nil, List.filterMap_cons, List.filterMap_nil,
        List.append_nil, parseLines, parseLine, hs, Bool.false_eq_true, if_false]
    | some e =>
      have hw : WellFormedLine line e := hit
      simp only [List.map_cons, List.map_nil, List.filterMap_cons, List.filterMap_nil,
        parseLines, parseLine_wellFormed _ line e hw, applyEntry_describedTables]

theorem confItems_wellFormed : ∀ it ∈ confItems, WellFormedItem it := by
  intro it hit
  simp only [confItems, List.mem_cons, List.mem_singleton, List.not_mem_nil, or_false] at hit
  rcases hit with rfl | rfl | rfl | rfl | rfl
  · show starts_with _ _ = false
    decide
  · exact ⟨['1'], ['t', 'y', 'p', 'e'], by decide, by decide, rfl, by decide, by decide⟩
  · exact ⟨['1'], ['p', 'a', 'r', 'a', 'm', '1'], by decide, by decide,
      ⟨['1'], by decide, by decide, rfl⟩, by decide, by decide⟩
  · exact ⟨['0'], ['p', 'r', 'e', 'd', 'n', 'a', 'm', 'e'], by decide, by decide, rfl,
      by decide, by decide⟩
  · exact ⟨['1'], ['t', 'y', 'p', 'e'], by decide, by decide, rfl, by decide, by decide⟩

/-- C29: `EDBConf::parse` on a file whose lines either do not start with `EDB`
or are well-formed lines `EDB<id>_<key>=<value>` with a non-negative id returns;
the lines that do not start with `EDB` are ignored, the number of tables is one
more than the largest id seen (0 if there is none), and for every id the
`predname`, the `type` and `params[n]` of `tables[id]` are the text after `=`
of the last line `EDB<id>_predname`, `EDB<id>_type` and `EDB<id>_param<n>`
(empty when there is no such line), with `params` of size one more than the
largest `n` seen for that id. -/
theorem parse_wellFormed (items : List (List Char × Option ConfEntry))
    (h : ∀ it ∈ items, WellFormedItem it) :
    ∃ c, EDBConf.ofLines (items.map Prod.fst) = .ok c ∧
      c.tables.length = tableCount (items.filterMap Prod.snd) ∧
      ∀ id, id < c.tables.length → ∃ t, c.tables[id]? = some t ∧
        t.predname = lastValue (items.filterMap Prod.snd) id ConfKey.predname ∧
        t.type = lastValue (items.filterMap Prod.snd) id ConfKey.type ∧
        t.params.length = paramCount (items.filterMap Prod.snd) id ∧
        ∀ n, n < t.params.length →
          t.params[n]? = some (lastValue (items.filterMap Prod.snd) id (ConfKey.param n)) := by
  refine ⟨⟨describedTables (items.filterMap Prod.snd)⟩, ?_, length_describedTables _, ?_⟩
  · unfold EDBConf.ofLines EDBConf.parse
    rw [parseLines_wellFormed items h]
  · intro id hid
    rw [length_describedTables] at hid
    refine ⟨describedTable (items.filterMap Prod.snd) id, ?_, rfl, rfl, ?_, fun n hn => ?_⟩
    · rw [getElem?_describedTables, if_pos hid]
    · simp only [describedTable, List.length_map, List.length_range]
    · simp only [describedTable, List.length_map, List.length_range] at hn
      simp only [describedTable, List.getElem?_map, List.getElem?_range hn, Option.map_some']

/-- Witness for C29: a file of five lines, one of them a comment, two of them
for the type of table 1. -/
theorem parse_wellFormed_witness :
    EDBConf.ofLines (confItems.map Prod.fst)
      = .ok ⟨[⟨"TE".toList, [], []⟩, ⟨[], "MySQL".toList, [[], "/a=b".toList]⟩]⟩ ∧
    ∃ c, EDBConf.ofLines (confItems.map Prod.fst) = .ok c ∧
      c.tables.length = tableCount (confItems.filterMap Prod.snd) ∧
      ∀ id, id < c.tables.length → ∃ t, c.tables[id]? = some t ∧
        t.predname = lastValue (confItems.filterMap Prod.snd) id ConfKey.predname ∧
        t.type = lastValue (confItems.filterMap Prod.snd) id ConfKey.type ∧
        t.params.length = paramCount (confItems.filterMap Prod.snd) id ∧
        ∀ n, n < t.params.length →
          t.params[n]? = some (lastValue (confItems.filterMap Prod.snd) id (ConfKey.param n)) :=
  ⟨by decide, parse_wellFormed confItems confItems_wellFormed⟩

/-- C30: a line that starts with `EDB` and has no `=`
sign is accepted when the text after `_` is a known key. The result of
`line.find("=")` is not compared with `npos`, so the key runs to the end of the
line and `substr(idxAss + 1)` is `substr(0)`: the whole line is stored as the
value. Lines without `_`, with an id that is not an integer or with an unknown
key do raise an error. -/
theorem parse_accepts_missing_assignment :
    EDBConf.ofLines ["EDB0_predname".toList]
      = .ok ⟨[⟨"EDB0_predname".toList, [], []⟩]⟩ ∧
    EDBConf.ofLines ["EDB0_type".toList] = .ok ⟨[⟨[], "EDB0_type".toList, []⟩]⟩ ∧
    EDBConf.ofLines ["EDB0_param2".toList]
      = .ok ⟨[⟨[], [], [[], [], "EDB0_param2".toList]⟩]⟩ ∧
    EDBConf.ofLines ["EDB0".toList] = .error ConfFault.malformed ∧
    EDBConf.ofLines ["EDBx_type=a".toList] = .error ConfFault.badCast ∧
    EDBConf.ofLines ["EDB0_colour=a".toList] = .error ConfFault.malformed ∧
    EDBConf.ofLines ["EDB0_paramx=a".toList] = .error ConfFault.badCast ∧
    EDBConf.ofLines ["EDB0_colour".toList] = .error ConfFault.malformed := by
  decide

/-! ## The single pass of the constructor and the equality filter -/

theorem qsqStep_repeatedVars (st : QSQBuild) (i : Nat) (t : VTerm) :
    (qsqStep st i t).repeatedVars = st.repeatedVars ∨
      ∃ a, (qsqStep st i t).repeatedVars = st.repeatedVars ++ [(a, i)] := by
  unfold qsqStep
  by_cases h : t.isVariable = true
  · rw [if_pos h]
    cases st.existingVars.find? (fun e => t.id == e.1) with
    | none => exact Or.inl rfl
    | some e => exact Or.inr ⟨e.2, rfl⟩
  · rw [if_neg h]
    exact Or.inl rfl

theorem qsqLoop_ascending :
    ∀ (ts : List VTerm) (i : Nat) (st : QSQBuild),
      (∀ p ∈ st.repeatedVars, p.2 < i) →
      (st.repeatedVars.map Prod.snd).Pairwise (fun a b => a < b) →
      ((qsqLoop ts i st).repeatedVars.map Prod.snd).Pairwise (fun a b => a < b) := by
  intro ts
  induction ts with
  | nil => intro i st _ h; exact h
  | cons t ts ih =>
    intro i st hlt hpw
    rw [qsqLoop]
    rcases qsqStep_repeatedVars st i t with h | ⟨a, h⟩
    · refine ih (i + 1) _ ?_ ?_
      · rw [h]; intro p hp; exact Nat.lt_succ_of_lt (hlt p hp)
      · rw [h]; exact hpw
    · refine ih (i + 1) _ ?_ ?_
      · rw [h]
        intro p hp
        rcases List.mem_append.1 hp with hp | hp
        · exact Nat.lt_succ_of_lt (hlt p hp)
        · rw [List.mem_singleton.1 hp]; exact Nat.lt_succ_self i
      · rw [h, List.map_append, List.pairwise_append]
        refine ⟨hpw, List.pairwise_singleton _ _, fun x hx y hy => ?_⟩
        obtain ⟨p, hp, rfl⟩ := List.mem_map.1 hx
        simp only [List.map_cons, List.map_nil, List.mem_singleton] at hy
        rw [hy]
        exact hlt p hp

theorem ofLiteral_ascending (l : Literal) :
    ((QSQQuery.ofLiteral l).repeatedVars.map Prod.snd).Pairwise (fun a b => a < b) := by
  unfold QSQQuery.ofLiteral
  exact qsqLoop_ascending l.tuple 0 ⟨[], [], []⟩
    (fun p hp => absurd hp (List.not_mem_nil p)) List.Pairwise.nil

theorem qsqStep_counts (pre : List VTerm) (st : QSQBuild) (i : Nat) (t : VTerm)
    (hnd : (st.existingVars.map Prod.fst).Nodup)
    (hmem : ∀ id, id ∈ st.existingVars.map Prod.fst ↔
      id ∈ (pre.filter VTerm.isVariable).map VTerm.id)
    (hlen : st.posToCopy.length = st.repeatedVars.length + st.existingVars.length) :
    ((qsqStep st i t).existingVars.map Prod.fst).Nodup ∧
    (∀ id, id ∈ (qsqStep st i t).existingVars.map Prod.fst ↔
      id ∈ ((pre ++ [t]).filter VTerm.isVariable).map VTerm.id) ∧
    (qsqStep st i t).posToCopy.length
      = (qsqStep st i t).repeatedVars.length + (qsqStep st i t).existingVars.length := by
  unfold qsqStep
  by_cases hv : t.isVariable = true
  · rw [if_pos hv]
    have hfil : (pre ++ [t]).filter VTerm.isVariable = pre.filter VTerm.isVariable ++ [t] := by
      rw [List.filter_append, List.filter_cons_of_pos hv, List.filter_nil]
    cases hf : st.existingVars.find? (fun e => t.id == e.1) with
    | none =>
      have hnot : t.id ∉ st.existingVars.map Prod.fst := by
        intro hc
        obtain ⟨e, he, heq⟩ := List.mem_map.1 hc
        have := List.find?_eq_none.1 hf e he
        simp [heq] at this
      dsimp only
      refine ⟨?_, fun id => ?_, ?_⟩
      · rw [List.map_append, List.nodup_append]
        refine ⟨hnd, List.nodup_singleton _, ?_⟩
        intro a ha hb
        simp only [List.map_cons, List.map_nil, List.mem_singleton] at hb
        rw [hb] at ha
        exact hnot ha
      · rw [hfil, List.map_append, List.map_append, List.mem_append, List.mem_append, hmem]
        simp
      · simp only [List.length_append, List.length_singleton]
        omega
    | some e =>
      have hmem1 : e ∈ st.existingVars := List.mem_of_find?_eq_some hf
      have hid : t.id = e.1 := by
        have := List.find?_some hf
        simpa using this
      dsimp only
      refine ⟨hnd, fun id => ?_, ?_⟩
      · rw [hfil, List.map_append, List.mem_append, ← hmem]
        simp only [List.map_cons, List.map_nil, List.mem_singleton]
        constructor
        · exact fun h => Or.inl h
        · rintro (h | h)
          · exact h
          · rw [h, hid]
            exact List.mem_map.2 ⟨e, hmem1, rfl⟩
      · simp only [List.length_append, List.length_singleton]
        omega
  · rw [if_neg hv]
    have hfil : (pre ++ [t]).filter VTerm.isVariable = pre.filter VTerm.isVariable := by
      rw [List.filter_append, List.filter_cons_of_neg hv, List.filter_nil, List.append_nil]
    exact ⟨hnd, fun id => by rw [hfil]; exact hmem id, hlen⟩

theorem qsqLoop_counts :
    ∀ (ts pre : List VTerm) (i : Nat) (st : QSQBuild),
      (st.existingVars.map Prod.fst).Nodup →
      (∀ id, id ∈ st.existingVars.map Prod.fst ↔
        id ∈ (pre.filter VTerm.isVariable).map VTerm.id) →
      st.posToCopy.length = st.repeatedVars.length + st.existingVars.length →
      ((qsqLoop ts i st).existingVars.map Prod.fst).Nodup ∧
      (∀ id, id ∈ (qsqLoop ts i st).existingVars.map Prod.fst ↔
        id ∈ ((pre ++ ts).filter VTerm.isVariable).map VTerm.id) ∧
      (qsqLoop ts i st).posToCopy.length
        = (qsqLoop ts i st).repeatedVars.length + (qsqLoop ts i st).existingVars.length := by
  intro ts
  induction ts with
  | nil =>
    intro pre i st h1 h2 h3
    rw [List.append_nil]
    exact ⟨h1, h2, h3⟩
  | cons t ts ih =>
    intro pre i st h1 h2 h3
    obtain ⟨a1, a2, a3⟩ := qsqStep_counts pre st i t h1 h2 h3
    have := ih (pre ++ [t]) (i + 1) (qsqStep st i t) a1 a2 a3
    rw [List.append_assoc] at this
    exact this

theorem ofLiteral_count (l : Literal) :
    (QSQQuery.ofLiteral l).getNRepeatedVars + l.getNUniqueVars = l.getNVars := by
  obtain ⟨h1, h2, h3⟩ := qsqLoop_counts l.tuple [] 0 ⟨[], [], []⟩ List.nodup_nil
    (fun id => by simp) rfl
  rw [List.nil_append] at h2
  have hperm : ((qsqLoop l.tuple 0 ⟨[], [], []⟩).existingVars.map Prod.fst).Perm
      l.varIds.dedup :=
    (List.perm_ext_iff_of_nodup h1 (List.nodup_dedup _)).2 (fun id => by
      rw [h2, List.mem_dedup]; rfl)
  have hlen := hperm.length_eq
  rw [List.length_map] at hlen
  have hpos : (qsqLoop l.tuple 0 ⟨[], [], []⟩).posToCopy.length = l.getNVars := by
    rw [qsqLoop_posToCopy, List.nil_append, varPositions_length, Literal.getNVars,
      Literal.varIds, List.length_map]
  unfold QSQQuery.getNRepeatedVars QSQQuery.ofLiteral Literal.getNUniqueVars
  dsimp only
  omega

theorem repeatedVars_filter {β : Type} (l : Literal) (f : Nat → β) :
    (∀ p ∈ (QSQQuery.ofLiteral l).repeatedVars, f p.1 = f p.2) ↔
      ∀ i j id, holdsVar l.tuple i id → holdsVar l.tuple j id → f i = f j := by
  constructor
  · intro h i j id hi hj
    obtain ⟨a, ha⟩ := firstVar_exists l.tuple id (i + 1) i (Nat.lt_succ_self i) hi
    have key : ∀ k, holdsVar l.tuple k id → f a = f k := by
      intro k hk
      by_cases hak : a = k
      · rw [hak]
      · have hlt : a < k := by
          rcases Nat.lt_or_gt_of_ne hak with h1 | h1
          · exact h1
          · exact absurd hk (ha.2 k h1)
        exact h (a, k) ((ofLiteral_repeatedVars l a k).2 ⟨hlt, id, ha, hk⟩)
    rw [← key i hi, ← key j hj]
  · intro h p hp
    obtain ⟨_, id, ha, hb⟩ := (ofLiteral_repeatedVars l p.1 p.2).1 hp
    exact h p.1 p.2 id ha.1 hb

/-- C31: the single pass of the constructor of `QSQQuery` records in
`repeatedVars` exactly the pairs `(firstPos, j)` where position `j` holds a
variable that occurs at an earlier position and `firstPos` is the first position
of that variable; there is a pair for each such `j` and only one, the pairs are
listed in ascending `j`, every pair has `first < second` with the same variable
at both positions, and `nRepeatedVars` is the number of variable positions minus
the number of distinct variables. -/
theorem repeatedVars_single_pass (l : Literal) :
    (∀ i j, (i, j) ∈ (QSQQuery.ofLiteral l).repeatedVars ↔
      i < j ∧ ∃ id, firstVar l.tuple i id ∧ holdsVar l.tuple j id) ∧
    (∀ j, (∃ i, (i, j) ∈ (QSQQuery.ofLiteral l).repeatedVars) ↔
      ∃ id, holdsVar l.tuple j id ∧ ∃ k, k < j ∧ holdsVar l.tuple k id) ∧
    (∀ i k j, (i, j) ∈ (QSQQuery.ofLiteral l).repeatedVars →
      (k, j) ∈ (QSQQuery.ofLiteral l).repeatedVars → i = k) ∧
    ((QSQQuery.ofLiteral l).repeatedVars.map Prod.snd).Pairwise (fun a b => a < b) ∧
    (∀ p ∈ (QSQQuery.ofLiteral l).repeatedVars,
      p.1 < p.2 ∧ ∃ id, holdsVar l.tuple p.1 id ∧ holdsVar l.tuple p.2 id) ∧
    (QSQQuery.ofLiteral l).getNRepeatedVars + l.getNUniqueVars = l.getNVars ∧
    (QSQQuery.ofLiteral l).getNRepeatedVars = l.getNVars - l.getNUniqueVars := by
  refine ⟨ofLiteral_repeatedVars l, fun j => ⟨?_, ?_⟩, fun i k j hi hk => ?_,
    ofLiteral_ascending l, fun p hp => ?_, ofLiteral_count l, ?_⟩
  · rintro ⟨i, hi⟩
    obtain ⟨hij, id, ha, hb⟩ := (ofLiteral_repeatedVars l i j).1 hi
    exact ⟨id, hb, i, hij, ha.1⟩
  · rintro ⟨id, hj, k, hk, hh⟩
    obtain ⟨a, ha⟩ := firstVar_exists l.tuple id (k + 1) k (Nat.lt_succ_self k) hh
    have hak : a ≤ k := by
      by_contra hc
      exact ha.2 k (Nat.lt_of_not_le hc) hh
    exact ⟨a, (ofLiteral_repeatedVars l a j).2 ⟨Nat.lt_of_le_of_lt hak hk, id, ha, hj⟩⟩
  · obtain ⟨_, id, ha, hb⟩ := (ofLiteral_repeatedVars l i j).1 hi
    obtain ⟨_, id2, ha2, hb2⟩ := (ofLiteral_repeatedVars l k j).1 hk
    have hid : id = id2 := by
      obtain ⟨t, h1, _, h3⟩ := hb
      obtain ⟨t2, h1b, _, h3b⟩ := hb2
      rw [h1] at h1b
      cases h1b
      rw [← h3, ← h3b]
    subst hid
    exact firstVar_unique ha ha2
  · obtain ⟨hlt, id, ha, hb⟩ := (ofLiteral_repeatedVars l p.1 p.2).1 hp
    exact ⟨hlt, id, ha.1, hb⟩
  · have := ofLiteral_count l
    omega

/-- C33: the pairs recorded by the constructor of `QSQQuery` are a complete
equality filter. For every literal and every row, the row has equal entries at
the two positions of every pair of `repeatedVars` exactly when it has equal
entries at every two positions that hold the same variable in the literal; for
rows of arity 2 this is the check `valid` of `EDBLayer::query`. -/
theorem repeatedVars_complete_filter (l : Literal) :
    (∀ row : List Nat,
      (∀ p ∈ (QSQQuery.ofLiteral l).repeatedVars, row[p.1]? = row[p.2]?) ↔
        ∀ i j id, holdsVar l.tuple i id → holdsVar l.tuple j id → row[i]? = row[j]?) ∧
    (∀ r : Row,
      validRow (QSQQuery.ofLiteral l) r = true ↔
        ∀ i j id, holdsVar l.tuple i id → holdsVar l.tuple j id → rowAt r i = rowAt r j) :=
  ⟨fun row => repeatedVars_filter l (fun i => row[i]?),
    fun r => (validRow_iff (QSQQuery.ofLiteral l) r).trans (repeatedVars_filter l (rowAt r))⟩

/-! ## The normalised filter values -/

theorem normalizeLoop_destutter :
    ∀ (rest : List Nat) (prev : Nat) (init : List Nat) (sorted : Bool),
      (normalizeLoop prev rest (init ++ [prev]) sorted).1
        = init ++ List.destutter' (fun a b => a ≠ b) prev rest := by
  intro rest
  induction rest with
  | nil => intro prev init sorted; simp [normalizeLoop, List.destutter']
  | cons x xs ih =>
    intro prev init sorted
    rw [normalizeLoop]
    by_cases h1 : x < prev
    · rw [if_pos h1, ih x (init ++ [prev]) false, List.destutter'_cons_pos _ (by omega)]
      simp
    · rw [if_neg h1]
      by_cases h2 : x > prev
      · rw [if_pos h2, ih x (init ++ [prev]) sorted, List.destutter'_cons_pos _ (by omega)]
        simp
      · rw [if_neg h2]
        have hx : x = prev := by omega
        subst hx
        rw [ih x init sorted, List.destutter'_cons_neg _ (by simp)]

theorem normalizeLoop_flag :
    ∀ (rest : List Nat) (prev : Nat) (fv : List Nat),
      (prev :: rest).Pairwise (fun a b => a ≤ b) →
      (normalizeLoop prev rest fv true).2 = true := by
  intro rest
  induction rest with
  | nil => intro prev fv _; rfl
  | cons x xs ih =>
    intro prev fv h
    have hpx : prev ≤ x := (List.pairwise_cons.1 h).1 x (List.mem_cons_self _ _)
    have htail : (x :: xs).Pairwise (fun a b => a ≤ b) := (List.pairwise_cons.1 h).2
    rw [normalizeLoop, if_neg (by omega)]
    by_cases h2 : x > prev
    · rw [if_pos h2]; exact ih x _ htail
    · rw [if_neg h2]; exact ih x _ htail

theorem normalizeFilter_perm (vals : List Nat) :
    (normalizeFilter vals).Perm (vals.destutter (fun a b => a ≠ b)) := by
  cases vals with
  | nil => exact List.Perm.refl _
  | cons x xs =>
    have h := normalizeLoop_destutter xs x [] true
    rw [List.nil_append, List.nil_append] at h
    simp only [normalizeFilter, List.destutter]
    split
    · rw [h]
      exact List.perm_insertionSort _ _
    · rw [h]

theorem normalizeFilter_strict (vals : List Nat) (hs : vals.Pairwise (fun a b => a ≤ b)) :
    (normalizeFilter vals).Pairwise (fun a b => a < b) := by
  cases vals with
  | nil => exact List.Pairwise.nil
  | cons x xs =>
    have hflag := normalizeLoop_flag xs x [x] hs
    have := normalizeLoop_sorted xs x [x] true (by simp) (List.pairwise_singleton _ _) hflag
    simp only [normalizeFilter, hflag, Bool.not_true, Bool.false_eq_true, if_false]
    exact this

/-- C32: the normalisation of the filter values in the one-position branch of
`EDBLayer::query` turns every `valuesToFilter` into a list that is sorted in
ascending order and holds exactly the values of `valuesToFilter`; it is a
rearrangement of `valuesToFilter` with consecutive equal values collapsed; when
`valuesToFilter` is sorted the result is strictly increasing; and `[3,1]` is
normalised to `[1,3]`. -/
theorem normalizeFilter_spec (vals : List Nat) :
    (normalizeFilter vals).Pairwise (fun a b => a ≤ b) ∧
    (∀ x, x ∈ normalizeFilter vals ↔ x ∈ vals) ∧
    (normalizeFilter vals).Perm (vals.destutter (fun a b => a ≠ b)) ∧
    (vals.Pairwise (fun a b => a ≤ b) →
      (normalizeFilter vals).Pairwise (fun a b => a < b) ∧
      normalizeFilter vals = vals.destutter (fun a b => a ≠ b)) ∧
    normalizeFilter [3, 1] = [1, 3] := by
  refine ⟨normalizeFilter_sorted vals, fun x => normalizeFilter_mem x vals,
    normalizeFilter_perm vals, fun hs => ⟨normalizeFilter_strict vals hs, ?_⟩, by decide⟩
  exact List.eq_of_perm_of_sorted (normalizeFilter_perm vals)
    ((normalizeFilter_strict vals hs).imp (fun h => Nat.le_of_lt h))
    (hs.sublist (List.destutter_sublist _ vals))

/-! ## Recycled iterator objects -/

/-- C34: a new object and an object that was read to the end in equal-fields
mode (`isNextCheck` on, `isNext` off, `equalFields` on) are set up with the same
arguments. After `init2` in equal-fields mode over `{(1,1),(1,2),(2,2),(3,4)}`
the new object yields `(1,1)` and `(2,2)`, the used one says at once that there
is no row; after `init1` over `[5,6]` the first `hasNext` is true on the new
object and false on the used one. `init1` and `init2` do not set `isNextCheck`,
`isNext` and `pointerEqualFieldsNext`, and `init1` does not set `equalFields`. -/
theorem init_depends_on_prior_state :
    (usedIterator.isNextCheck = true ∧ usedIterator.isNext = false ∧
      usedIterator.equalFields = true) ∧
    (init2 blankIterator 7 true rowsDiag false 0 false 0 true).map (drain 5)
      = .ok (some (.ok [(1, 1), (2, 2)])) ∧
    (init2 usedIterator 7 true rowsDiag false 0 false 0 true).map (drain 5)
      = .ok (some (.ok [])) ∧
    (hasNext (init1 blankIterator 7 [5, 6] false 0)).map Prod.fst = .ok true ∧
    (hasNext (init1 usedIterator 7 [5, 6] false 0)).map Prod.fst = .ok false := by
  decide

/-! ## The count and the estimate -/

theorem countLoop_two_rest :
    ∀ (n : Nat) (s : EDBMemIterator) (c fuel : Nat), s.equalFields = false →
      s.ignoreSecondColumn = false → s.nfields = 2 → s.isFirst = false →
      s.twoColumns + 1 + n = s.endTwoColumns → n + 1 ≤ fuel →
      countLoop fuel s c = some (.ok (c + n)) := by
  intro n
  induction n with
  | zero =>
    intro s c fuel he hi hn hf hend hfuel
    obtain ⟨fuel, rfl⟩ : ∃ k, fuel = k + 1 := ⟨fuel - 1, by omega⟩
    have hh : hasNext s = .ok (false, s) := by
      simp only [hasNext, he, hi, hn, hf, Bool.false_eq_true, if_false]
      simp [← hend]
    simp only [countLoop, hh, Nat.add_zero]
  | succ n ih =>
    intro s c fuel he hi hn hf hend hfuel
    obtain ⟨fuel, rfl⟩ : ∃ k, fuel = k + 1 := ⟨fuel - 1, by omega⟩
    have hh : hasNext s = .ok (true, s) := by
      simp only [hasNext, he, hi, hn, hf, Bool.false_eq_true, if_false]
      have : s.twoColumns + 1 ≠ s.endTwoColumns := by omega
      simp [this]
    have hnext : next s = { s with twoColumns := s.twoColumns + 1 } := by
      simp only [next, he, hi, hn, hf, Bool.false_eq_true, if_false]
      simp
    simp only [countLoop, hh]
    rw [hnext, ih { s with twoColumns := s.twoColumns + 1 } (c + 1) fuel he hi hn hf
      (by simp only; omega) (by omega)]
    congr 2
    omega

theorem countLoop_two (s : EDBMemIterator) (fuel : Nat) (he : s.equalFields = false)
    (hi : s.ignoreSecondColumn = false) (hn : s.nfields = 2) (hf : s.isFirst = true)
    (hhas : s.hasFirst = (s.twoColumns != s.endTwoColumns))
    (hle : s.twoColumns ≤ s.endTwoColumns)
    (hfuel : s.endTwoColumns - s.twoColumns + 1 ≤ fuel) :
    countLoop fuel s 0 = some (.ok (s.endTwoColumns - s.twoColumns)) := by
  obtain ⟨fuel, rfl⟩ : ∃ k, fuel = k + 1 := ⟨fuel - 1, by omega⟩
  have hh : hasNext s = .ok (s.hasFirst, s) := by
    simp only [hasNext, he, hf, Bool.false_eq_true, if_false, if_true]
  by_cases heq : s.twoColumns = s.endTwoColumns
  · have h0 : s.hasFirst = false := by rw [hhas]; simp [heq]
    rw [h0] at hh
    simp only [countLoop, hh, heq, Nat.sub_self]
  · have h1 : s.hasFirst = true := by rw [hhas]; simp [heq]
    rw [h1] at hh
    have hnext : next s = { s with isFirst := false } := by
      simp only [next, he, hi, hf, Bool.false_eq_true, if_false, if_true]
    simp only [countLoop, hh]
    rw [hnext, countLoop_two_rest (s.endTwoColumns - s.twoColumns - 1)
      { s with isFirst := false } 1 fuel he hi hn rfl
      (by simp only; omega) (by omega)]
    congr 2
    omega

theorem countLoop_one_rest :
    ∀ (n : Nat) (s : EDBMemIterator) (c fuel : Nat), s.equalFields = false →
      s.ignoreSecondColumn = false → s.nfields = 1 → s.isFirst = false →
      s.oneColumn + 1 + n = s.endOneColumn → n + 1 ≤ fuel →
      countLoop fuel s c = some (.ok (c + n)) := by
  intro n
  induction n with
  | zero =>
    intro s c fuel he hi hn hf hend hfuel
    obtain ⟨fuel, rfl⟩ : ∃ k, fuel = k + 1 := ⟨fuel - 1, by omega⟩
    have hh : hasNext s = .ok (false, s) := by
      simp only [hasNext, he, hn, hf, Bool.false_eq_true, if_false, if_true]
      simp [← hend]
    simp only [countLoop, hh, Nat.add_zero]
  | succ n ih =>
    intro s c fuel he hi hn hf hend hfuel
    obtain ⟨fuel, rfl⟩ : ∃ k, fuel = k + 1 := ⟨fuel - 1, by omega⟩
    have hh : hasNext s = .ok (true, s) := by
      simp only [hasNext, he, hn, hf, Bool.false_eq_true, if_false, if_true]
      have : s.oneColumn + 1 ≠ s.endOneColumn := by omega
      simp [this]
    have hnext : next s = { s with oneColumn := s.oneColumn + 1 } := by
      simp only [next, he, hi, hn, hf, Bool.false_eq_true, if_false, if_true]
    simp only [countLoop, hh]
    rw [hnext, ih { s with oneColumn := s.oneColumn + 1 } (c + 1) fuel he hi hn hf
      (by simp only; omega) (by omega)]
    congr 2
    omega

theorem countLoop_one (s : EDBMemIterator) (fuel : Nat) (he : s.equalFields = false)
    (hi : s.ignoreSecondColumn = false) (hn : s.nfields = 1) (hf : s.isFirst = true)
    (hhas : s.hasFirst = (s.oneColumn != s.endOneColumn))
    (hle : s.oneColumn ≤ s.endOneColumn)
    (hfuel : s.endOneColumn - s.oneColumn + 1 ≤ fuel) :
    countLoop fuel s 0 = some (.ok (s.endOneColumn - s.oneColumn)) := by
  obtain ⟨fuel, rfl⟩ : ∃ k, fuel = k + 1 := ⟨fuel - 1, by omega⟩
  have hh : hasNext s = .ok (s.hasFirst, s) := by
    simp only [hasNext, he, hf, Bool.false_eq_true, if_false, if_true]
  by_cases heq : s.oneColumn = s.endOneColumn
  · have h0 : s.hasFirst = false := by rw [hhas]; simp [heq]
    rw [h0] at hh
    simp only [countLoop, hh, heq, Nat.sub_self]
  · have h1 : s.hasFirst = true := by rw [hhas]; simp [heq]
    rw [h1] at hh
    have hnext : next s = { s with isFirst := false } := by
      simp only [next, he, hi, hf, Bool.false_eq_true, if_false, if_true]
    simp only [countLoop, hh]
    rw [hnext, countLoop_one_rest (s.endOneColumn - s.oneColumn - 1)
      { s with isFirst := false } 1 fuel he hi hn rfl
      (by simp only; omega) (by omega)]
    congr 2
    omega

theorem equal_range_le (v : List Nat) (hs : v.Pairwise (fun a b => a ≤ b)) (x : Nat) :
    lower_bound ltTerm v 0 v.length x ≤ upper_bound ltTerm v 0 v.length x ∧
    upper_bound ltTerm v 0 v.length x ≤ v.length := by
  have hget : ∀ (i j : Nat) (a b : Nat), i ≤ j → v[i]? = some a → v[j]? = some b → a ≤ b := by
    intro i j a b hij ha hb
    obtain ⟨hi, rfl⟩ := List.getElem?_eq_some.1 ha
    obtain ⟨hj, rfl⟩ := List.getElem?_eq_some.1 hb
    rcases Nat.lt_or_eq_of_le hij with hlt | rfl
    · exact (List.pairwise_iff_getElem.1 hs) i j hi hj hlt
    · exact Nat.le_refl _
  have hp1 : Partitioned (fun y => ltTerm y x) v := by
    intro i j a b hij ha hb hP
    have := hget i j a b hij ha hb
    simp only [ltTerm, decide_eq_true_eq] at hP ⊢
    omega
  have hp2 : Partitioned (fun y => !(ltTerm x y)) v := by
    intro i j a b hij ha hb hP
    have := hget i j a b hij ha hb
    simp only [ltTerm, Bool.not_eq_true', decide_eq_false_iff_not] at hP ⊢
    omega
  obtain ⟨_, l2, l3, _⟩ := lower_bound_spec ltTerm v x hp1 0 v.length (Nat.zero_le _)
    (Nat.le_refl _)
  obtain ⟨_, u2, _, u4⟩ := upper_bound_spec ltTerm v x hp2 0 v.length (Nat.zero_le _)
    (Nat.le_refl _)
  refine ⟨?_, u2⟩
  by_contra hc
  have hlt : upper_bound ltTerm v 0 v.length x < lower_bound ltTerm v 0 v.length x :=
    Nat.lt_of_not_le hc
  have hk : upper_bound ltTerm v 0 v.length x < v.length := Nat.lt_of_lt_of_le hlt l2
  have a1 := l3 _ _ (Nat.zero_le _) hlt (List.getElem?_eq_getElem hk)
  have a2 := u4 _ _ (Nat.le_refl _) hk (List.getElem?_eq_getElem hk)
  simp only [ltTerm, decide_eq_true_eq] at a1 a2
  omega

theorem hasRepeatedVars_partial (l : Literal) (h2 : l.tuple.length ≤ 2)
    (hne : l.getNVars ≠ l.getTupleSize) : l.hasRepeatedVars = false := by
  have hlen : l.varIds.length ≤ 1 := by
    have h1 : l.varIds.length ≤ l.tuple.length := by
      rw [Literal.varIds, List.length_map]
      exact List.length_filter_le _ _
    unfold Literal.getNVars Literal.getTupleSize at hne
    omega
  have hnd : l.varIds.Nodup := by
    cases hv : l.varIds with
    | nil => exact List.nodup_nil
    | cons a rest =>
      cases rest with
      | nil => exact List.nodup_singleton a
      | cons b rest2 => rw [hv] at hlen; simp at hlen
  simp [Literal.hasRepeatedVars, hnd]

theorem getCardinality_bound (itr : EDBMemIterator) (rel : IndexedTupleTable) (l : Literal)
    (harity : (rel.sizeTuple = 1 ∧ rel.singleColumn.Pairwise (fun a b => a ≤ b) ∧
        itr.equalFields = false) ∨ (rel.sizeTuple = 2 ∧ rel.WellFormed))
    (hl : l.getTupleSize = rel.sizeTuple) :
    ∃ n, getCardinality itr rel l = some (.ok n) ∧ n ≤ estimateCardinality rel l := by
  unfold getCardinality estimateCardinality
  by_cases hall : l.getNVars = l.getTupleSize
  · rw [if_pos hall]
    exact ⟨_, rfl, Nat.le_refl _⟩
  · rw [if_neg hall]
    rcases harity with ⟨h1, hs, hitr⟩ | ⟨h2, hwf⟩
    · simp only [h1, if_true]
      have hbounds : (init1 itr l.pred rel.singleColumn (bindingsOf l).c1
            (bindingsOf l).vc1).oneColumn
          ≤ (init1 itr l.pred rel.singleColumn (bindingsOf l).c1 (bindingsOf l).vc1).endOneColumn ∧
          (init1 itr l.pred rel.singleColumn (bindingsOf l).c1 (bindingsOf l).vc1).endOneColumn
            ≤ rel.singleColumn.length := by
        simp only [init1]
        cases (bindingsOf l).c1 with
        | false => simp
        | true =>
          simp only [if_true]
          exact equal_range_le rel.singleColumn hs _
      refine ⟨_, countLoop_one _ _ hitr rfl rfl rfl rfl hbounds.1 (by omega), ?_⟩
      simp only [IndexedTupleTable.getNTuples, h1, if_true]
      omega
    · have hne1 : rel.sizeTuple ≠ 1 := by omega
      simp only [hne1, h2, if_true, if_false]
      have hrep : l.hasRepeatedVars = false :=
        hasRepeatedVars_partial l (by unfold Literal.getTupleSize at hl; omega) hall
      rw [hrep]
      obtain ⟨s, hs⟩ := init2_defined itr l.pred (bindingsOf l).c1
        (if (bindingsOf l).c1 || !(bindingsOf l).c2 then rel.twoColumn1 else rel.twoColumn2)
        (bindingsOf l).c1 (bindingsOf l).vc1 (bindingsOf l).c2 (bindingsOf l).vc2 false
        (fun h => h) (fun h _ => h)
      obtain ⟨f1, f2, _, f4, f5, f6, _, _, f9, _, f11⟩ := init2_fields _ _ _ _ _ _ _ _ _ _ hs
      rw [hs]
      refine ⟨_, countLoop_two s _ f5 f9 f4 f6 f11 f1 (by omega), ?_⟩
      have hlen : (if (bindingsOf l).c1 || !(bindingsOf l).c2 then rel.twoColumn1
          else rel.twoColumn2).length = rel.twoColumn1.length := by
        split
        · rfl
        · exact hwf.perm.length_eq
      simp only [IndexedTupleTable.getNTuples, hne1, if_false]
      omega

/-- The count and the estimate on an object with `equalFields` off: for an
in-memory relation of arity 1 (sorted column) or 2 (sorted indexes with the same
rows) and every literal of that arity, `getCardinality` returns a count, and the
count is at most `estimateCardinality`, the number of tuples of the relation. -/
theorem getCardinality_le_estimate (itr : EDBMemIterator) (rel : IndexedTupleTable)
    (l : Literal)
    (harity : (rel.sizeTuple = 1 ∧ rel.singleColumn.Pairwise (fun a b => a ≤ b) ∧
        itr.equalFields = false) ∨ (rel.sizeTuple = 2 ∧ rel.WellFormed))
    (hl : l.getTupleSize = rel.sizeTuple) :
    (∃ n, getCardinality itr rel l = some (.ok n) ∧ n ≤ estimateCardinality rel l) ∧
    estimateCardinality rel l = rel.getNTuples :=
  ⟨getCardinality_bound itr rel l harity hl, rfl⟩

/-- An instance of `getCardinality_le_estimate`: the literal `p(1,Y)` over
`{(1,2),(2,3),(3,1)}` has count 1 and estimate 3. -/
theorem getCardinality_le_estimate_witness :
    getCardinality blankIterator relS1 literalOneY = some (.ok 1) ∧
    estimateCardinality relS1 literalOneY = 3 ∧
    (∃ n, getCardinality blankIterator relS1 literalOneY = some (.ok n) ∧
      n ≤ estimateCardinality relS1 literalOneY) ∧
    estimateCardinality relS1 literalOneY = relS1.getNTuples :=
  ⟨by decide, by decide,
    getCardinality_le_estimate blankIterator relS1 literalOneY
      (Or.inr ⟨rfl, ⟨by decide, by decide, by decide⟩⟩) rfl⟩

/-! ## Cursors set up on a used object -/

/-- C13: for `{(1,2),(2,2)}` and the literal `p(X,X)`, the cursor that
`getSortedIterator` sets up on a new object yields the row `(2,2)`; set up on
an object that an earlier equal-fields scan has read to the end (`isNextCheck`
on, `isNext` off, which `init2` does not reset) it yields no row, for the fields
`[0]` and for the fields `[1]`. -/
theorem getSortedIterator_stale_object :
    (getSortedIterator blankIterator relEqual literalXX [0]).map (drain 3)
      = .ok (some (.ok [(2, 2)])) ∧
    (usedIterator.isNextCheck = true ∧ usedIterator.isNext = false) ∧
    (getSortedIterator usedIterator relEqual literalXX [0]).map (drain 3)
      = .ok (some (.ok [])) ∧
    (getSortedIterator usedIterator relEqual literalXX [1]).map (drain 3)
      = .ok (some (.ok [])) :=
  ⟨by decide, by decide, by decide, by decide⟩

/-- C15: on an object that an earlier equal-fields scan has asked `hasNext()`
once (`equalFields`, `isNextCheck` and `isNext` on), the first `hasNext()` over
an empty relation answers true, after `init1` and after `init2` with
`equalFields`; `getCardinality` for `p(7)` over the empty relation of arity 1,
which is 0 on a new object, is still counting after the one round that the empty
relation accounts for, and the loop ends with the count 2. -/
theorem empty_relation_stale_object :
    (peekedIterator.equalFields = true ∧ peekedIterator.isNextCheck = true ∧
      peekedIterator.isNext = true) ∧
    (hasNext (init1 peekedIterator 0 (emptyRelation 1).singleColumn false 0)).map Prod.fst
      = .ok true ∧
    ((init2 peekedIterator 0 true (emptyRelation 2).twoColumn1 false 0 false 0 true).bind
      hasNext).map Prod.fst = .ok true ∧
    getCardinality blankIterator (emptyRelation 1) literalSeven = some (.ok 0) ∧
    getCardinality peekedIterator (emptyRelation 1) literalSeven = none ∧
    countLoop 5 (init1 peekedIterator 0 (emptyRelation 1).singleColumn true 7) 0
      = some (.ok 2) := by
  decide

/-- C35: for the relation `{5}` and the literal `p(7)` the estimate is 1 and the
count on a new object is 0; on an object that an earlier equal-fields scan has
asked `hasNext()` once, `init1` leaves `equalFields` on, the loop of
`getCardinality` is still counting after the two rounds that the relation
accounts for, and it ends with the count 2. -/
theorem getCardinality_stale_object :
    getCardinality blankIterator relSingle literalSeven = some (.ok 0) ∧
    estimateCardinality relSingle literalSeven = 1 ∧
    getCardinality peekedIterator relSingle literalSeven = none ∧
    countLoop 5 (init1 peekedIterator 0 relSingle.singleColumn true 7) 0 = some (.ok 2) := by
  decide

end VLog
